import Mathlib

/-!
Verification of the sparse-matrix program in
`src/dsa/sparse_matrix/code/src/index.js` (repository DSA_SparseMatrix).

The file embeds the `SparseMatrix` class as a Lean structure.  JS `Map`
objects keyed by the string `"${row},${col}"` are embedded as association
lists keyed by the pair `(row, col)` — the string key is injective on
integer pairs, and JS `Map` preserves insertion order, updates values in
place and appends new keys at the end; the association-list operations
below reproduce exactly that behaviour.  JS numbers are embedded as `Int`
(all values in play are integers produced by `parseInt`).

The file models both `SparseMatrix` variants present in the source: the
primary class (its `getElement`/`setElement`/`loadFromFile`/`add`/
`subtract`/`multiply`/`toString`) and the second variant's `multiply`.
File I/O is out of scope; parsing is modelled on the file's text content.
-/

namespace SpMat

/-! ### Decimal rendering and reading of integers

Models JS template-string rendering of integer numbers (`${row}` etc.)
and `parseInt(s, 10)` on strings made of decimal digits.  The rendering
is fuel-indexed to keep the recursion structural; `natToCharsAux n n`
always has enough fuel. -/

def digitChar (d : Nat) : Char := Char.ofNat (48 + d)

def natToCharsAux : Nat → Nat → List Char
  | 0, _ => []
  | fuel + 1, n => if n = 0 then [] else natToCharsAux fuel (n / 10) ++ [digitChar (n % 10)]

/-- Decimal digits of `n`, most significant first; `0` renders as `"0"`. -/
def natToChars (n : Nat) : List Char := if n = 0 then ['0'] else natToCharsAux n n

/-- Rendering of a JS integer number, as `${...}` interpolation produces it. -/
def intToChars (n : Int) : List Char :=
  if n < 0 then '-' :: natToChars (-n).toNat else natToChars n.toNat

def intStr (n : Int) : String := String.mk (intToChars n)

def isDigitChar (c : Char) : Bool := 48 ≤ c.toNat && c.toNat ≤ 57

def digitVal (c : Char) : Nat := c.toNat - 48

/-- Value of a big-endian decimal digit string (what `parseInt` computes). -/
def parseDigitsAcc (cs : List Char) (acc : Nat) : Nat :=
  cs.foldl (fun a c => a * 10 + digitVal c) acc

def parseDigits (cs : List Char) : Nat := parseDigitsAcc cs 0

/-! ### Whitespace, trimming, line splitting

Models `\s` of the JS regexes, `String.prototype.trim` and
`data.split('\n')` on the character-list level. -/

def isWsChar (c : Char) : Bool :=
  c = ' ' || c = '\t' || c = '\n' || c = '\r' || c = '\x0b' || c = '\x0c'

def skipWs (cs : List Char) : List Char := cs.dropWhile isWsChar

/-- Model of `line.trim()`: drop whitespace from both ends. -/
def trimChars (cs : List Char) : List Char :=
  ((cs.dropWhile isWsChar).reverse.dropWhile isWsChar).reverse

/-- Model of `data.split('\n')`. -/
def splitOnNl : List Char → List (List Char)
  | [] => [[]]
  | c :: cs =>
    if c = '\n' then [] :: splitOnNl cs
    else
      match splitOnNl cs with
      | l :: ls => (c :: l) :: ls
      | [] => [[c]]

/-! ### The JS `Map` used by the class (association list on pair keys) -/

abbrev Key := Int × Int

/-- Model of `elements.get(key)` / `elements.has(key)` combined. -/
def mapGet : List (Key × Int) → Key → Option Int
  | [], _ => none
  | e :: es, k => if e.1 = k then some e.2 else mapGet es k

/-- Model of `elements.set(key, value)`: update in place if the key is
present (JS `Map` keeps the key's position), else append. -/
def mapSet (l : List (Key × Int)) (k : Key) (v : Int) : List (Key × Int) :=
  match l with
  | [] => [(k, v)]
  | e :: es => if e.1 = k then (k, v) :: es else e :: mapSet es k v

/-- Model of `elements.delete(key)` (a JS `Map` holds at most one entry
per key; removing every match agrees with it on all reachable states). -/
def mapDelete : List (Key × Int) → Key → List (Key × Int)
  | [], _ => []
  | e :: es, k => if e.1 = k then mapDelete es k else e :: mapDelete es k

/-! ### The `SparseMatrix` class (primary variant, lines 17-285) -/

structure SparseMatrix where
  rows : Int
  cols : Int
  elements : List (Key × Int)
deriving DecidableEq, Repr

/-- Model of `getElement` (lines 52-55): stored value or `0` if absent. -/
def getElement (m : SparseMatrix) (row col : Int) : Int :=
  (mapGet m.elements (row, col)).getD 0

/-- Error message thrown by `setElement` (line 66). -/
def invalidIndicesMsg (m : SparseMatrix) (row col : Int) : String :=
  "Invalid indices: (" ++ intStr row ++ ", " ++ intStr col ++ ") for matrix of size "
    ++ intStr m.rows ++ "x" ++ intStr m.cols

/-- Model of `setElement` (lines 63-77): validate indices, then store the
value, or delete the entry when the value is `0`. -/
def setElement (m : SparseMatrix) (row col value : Int) : Except String SparseMatrix :=
  if row < 0 ∨ row ≥ m.rows ∨ col < 0 ∨ col ≥ m.cols then
    .error (invalidIndicesMsg m row col)
  else if value = 0 then
    .ok { m with elements := mapDelete m.elements (row, col) }
  else
    .ok { m with elements := mapSet m.elements (row, col) value }

/-- Model of `elements.size`, reported by the driver as the non-zero count. -/
def nonZeroCount (m : SparseMatrix) : Nat := m.elements.length

/-- Model of `add` (lines 153-175): dimension check, copy `this`'s
entries into a fresh result, then accumulate `other`'s entries. -/
def add (a b : SparseMatrix) : Except String SparseMatrix := do
  if a.rows ≠ b.rows ∨ a.cols ≠ b.cols then
    throw "Matrix dimensions must match for addition"
  let copied ← a.elements.foldlM (fun r e => setElement r e.1.1 e.1.2 e.2)
    (SparseMatrix.mk a.rows a.cols [])
  b.elements.foldlM (fun r e => setElement r e.1.1 e.1.2 (getElement r e.1.1 e.1.2 + e.2))
    copied

/-- Model of `subtract` (lines 182-204): same as `add` with `-`. -/
def subtract (a b : SparseMatrix) : Except String SparseMatrix := do
  if a.rows ≠ b.rows ∨ a.cols ≠ b.cols then
    throw "Matrix dimensions must match for subtraction"
  let copied ← a.elements.foldlM (fun r e => setElement r e.1.1 e.1.2 e.2)
    (SparseMatrix.mk a.rows a.cols [])
  b.elements.foldlM (fun r e => setElement r e.1.1 e.1.2 (getElement r e.1.1 e.1.2 - e.2))
    copied

/-- Model of the row/column index construction in `multiply` (lines
220-237): a `Map` from index to the pushed-back list of positions; an
existing key keeps its position, a new key is appended. -/
def addToIndex : List (Int × List Int) → Int → Int → List (Int × List Int)
  | [], k, v => [(k, [v])]
  | e :: es, k, v => if e.1 = k then (e.1, e.2 ++ [v]) :: es else e :: addToIndex es k v

/-- Lookup in an index `Map` (`map.get(k)`), `none` when absent. -/
def lookupIdx : List (Int × List Int) → Int → Option (List Int)
  | [], _ => none
  | e :: es, k => if e.1 = k then some e.2 else lookupIdx es k

/-- Model of `thisRowIndices` (lines 220-227): group column positions of
non-zero entries by row, in iteration order. -/
def buildRowIndex (l : List (Key × Int)) : List (Int × List Int) :=
  l.foldl (fun idx e => addToIndex idx e.1.1 e.1.2) []

/-- Model of `otherColIndices` (lines 229-237): group row positions of
non-zero entries by column. -/
def buildColIndex (l : List (Key × Int)) : List (Int × List Int) :=
  l.foldl (fun idx e => addToIndex idx e.1.2 e.1.1) []

/-- Model of the inner sum of `multiply` (lines 242-250): iterate the
columns of row `ra` of `a`, adding `a(ra,colA) * b(colA,colB)` whenever
`colA` also appears in `rowsB`. -/
def rowColSum (a b : SparseMatrix) (rowsB : List Int) (ra : Int) (colsA : List Int)
    (colB : Int) : Int :=
  colsA.foldl
    (fun s colA =>
      if colA ∈ rowsB then s + getElement a ra colA * getElement b colA colB else s)
    0

/-- Error message thrown by `multiply` (line 214). -/
def mulMismatchMsg (a b : SparseMatrix) : String :=
  "Matrix dimensions incompatible for multiplication: " ++ intStr a.rows ++ "x"
    ++ intStr a.cols ++ " and " ++ intStr b.rows ++ "x" ++ intStr b.cols

/-- Model of `multiply` (lines 211-259, the primary variant): dimension
check, index construction, then for each row of `a` and each output
column the intersected sum, stored only when non-zero. -/
def multiply (a b : SparseMatrix) : Except String SparseMatrix := do
  if a.cols ≠ b.rows then
    throw (mulMismatchMsg a b)
  let rowIdx := buildRowIndex a.elements
  let colIdx := buildColIndex b.elements
  rowIdx.foldlM
    (fun result e =>
      (List.range b.cols.toNat).foldlM
        (fun result (cb : Nat) =>
          let colB : Int := (cb : Int)
          let rowsB := (lookupIdx colIdx colB).getD []
          let sum := rowColSum a b rowsB e.1 e.2 colB
          if sum ≠ 0 then setElement result e.1 colB sum else pure result)
        result)
    (SparseMatrix.mk a.rows b.cols [])

/-- Error message thrown by the second variant's `multiply` (lines 608-610). -/
def mulMismatchMsg2 (a b : SparseMatrix) : String :=
  "Matrix dimensions don't match for multiplication: (" ++ intStr a.rows ++ "x"
    ++ intStr a.cols ++ ") * (" ++ intStr b.rows ++ "x" ++ intStr b.cols ++ ")"

/-- Model of the second variant's `multiply` (lines 607-635): for each
non-zero entry of `a` and each output column, add the single product term
into the running result cell (skipping zero terms). -/
def multiply2 (a b : SparseMatrix) : Except String SparseMatrix := do
  if a.cols ≠ b.rows then
    throw (mulMismatchMsg2 a b)
  a.elements.foldlM
    (fun result e =>
      (List.range b.cols.toNat).foldlM
        (fun result (cb : Nat) =>
          let col2 : Int := (cb : Int)
          let val2 := getElement b e.1.2 col2
          let productSum := if val2 ≠ 0 then e.2 * val2 else 0
          if productSum ≠ 0 then
            setElement result e.1.1 col2 (getElement result e.1.1 col2 + productSum)
          else pure result)
        result)
    (SparseMatrix.mk a.rows b.cols [])

/-! ### Serialization (`toString`, lines 265-284) -/

/-- Order used by the sort comparator at lines 274-277: ascending by row,
then by column. -/
def entryLE (e1 e2 : Key × Int) : Prop :=
  e1.1.1 < e2.1.1 ∨ (e1.1.1 = e2.1.1 ∧ e1.1.2 ≤ e2.1.2)

instance : DecidableRel entryLE := fun e1 e2 => by
  unfold entryLE; infer_instance

instance : IsTotal (Key × Int) entryLE :=
  ⟨fun a b => by
    rcases lt_trichotomy a.1.1 b.1.1 with h | h | h
    · exact Or.inl (Or.inl h)
    · rcases le_total a.1.2 b.1.2 with h2 | h2
      · exact Or.inl (Or.inr ⟨h, h2⟩)
      · exact Or.inr (Or.inr ⟨h.symm, h2⟩)
    · exact Or.inr (Or.inl h)⟩

instance : IsTrans (Key × Int) entryLE :=
  ⟨fun a b c hab hbc => by
    rcases hab with h1 | ⟨h1, h1'⟩
    · rcases hbc with h2 | ⟨h2, _⟩
      · exact Or.inl (h1.trans h2)
      · exact Or.inl (h2 ▸ h1)
    · rcases hbc with h2 | ⟨h2, h2'⟩
      · exact Or.inl (h1 ▸ h2)
      · exact Or.inr ⟨h1.trans h2, h1'.trans h2'⟩⟩

/-- Model of the `Array.sort` call at lines 274-277.  The comparator is a
total order that is antisymmetric on the distinct keys of a `Map`, so the
sorted array is the unique ordered permutation; `insertionSort` produces
exactly that permutation. -/
def sortEntries (l : List (Key × Int)) : List (Key × Int) :=
  l.insertionSort entryLE

/-- One serialized entry line, `(${row}, ${col}, ${value})` (line 280). -/
def entryLine (e : Key × Int) : List Char :=
  ('(' :: intToChars e.1.1) ++ [',', ' '] ++ intToChars e.1.2 ++ [',', ' '] ++
    intToChars e.2 ++ [')']

/-- Model of `toString` (lines 265-284) at the character level. -/
def serializeChars (m : SparseMatrix) : List Char :=
  ('r' :: 'o' :: 'w' :: 's' :: '=' :: intToChars m.rows) ++ '\n' ::
    (('c' :: 'o' :: 'l' :: 's' :: '=' :: intToChars m.cols) ++ '\n' ::
      (sortEntries m.elements).flatMap (fun e => entryLine e ++ ['\n']))

/-- Model of `toString` (lines 265-284). -/
def toStringFn (m : SparseMatrix) : String := String.mk (serializeChars m)

/-! ### Parsing (`loadFromFile`, lines 83-146)

File reading is a collaborator concern; the model takes the file's text.
The JS regexes are matched structurally.  The `isNaN` re-check at line
124 is dead code (the regex guarantees non-empty digit strings) and has
no counterpart here.  The surfaced message for a missing header is the
one produced by the re-wrap at line 143 of the `catch` block. -/

def wrongFormatMsg : String := "Input file has wrong format"

def missingHeaderMsg : String :=
  "Error loading matrix from file: Input file format is incorrect: Missing row/column definitions"

/-- Strip an exact keyword from the front of a line. -/
def stripKw : List Char → List Char → Option (List Char)
  | [], cs => some cs
  | _ :: _, [] => none
  | k :: ks, c :: cs => if c = k then stripKw ks cs else none

/-- Model of the header regexes `^\s*rows\s*=\s*(\d+)\s*$` and
`^\s*cols\s*=\s*(\d+)\s*$` (lines 97-98), parameterised by the keyword. -/
def parseHeaderLine (kw : List Char) (l : List Char) : Option Nat :=
  match stripKw kw (skipWs l) with
  | none => none
  | some r1 =>
    match skipWs r1 with
    | '=' :: r2 =>
      let r3 := skipWs r2
      let ds := r3.takeWhile isDigitChar
      let r4 := r3.dropWhile isDigitChar
      if ds.isEmpty then none
      else if (skipWs r4).isEmpty then some (parseDigits ds) else none
    | _ => none

/-- Read `-?\d+` from the front of a line. -/
def readInt (cs : List Char) : Option (Int × List Char) :=
  if cs.head? = some '-' then
    let t := cs.tail
    let ds := t.takeWhile isDigitChar
    if ds.isEmpty then none else some (-(parseDigits ds : Int), t.dropWhile isDigitChar)
  else
    let ds := cs.takeWhile isDigitChar
    if ds.isEmpty then none else some ((parseDigits ds : Int), cs.dropWhile isDigitChar)

/-- Model of the entry regex `^\s*\(\s*(\d+)\s*,\s*(\d+)\s*,\s*(-?\d+)\s*\)\s*$`
(line 113). -/
def parseTriple (l : List Char) : Option (Nat × Nat × Int) :=
  match skipWs l with
  | '(' :: r1 =>
    let r2 := skipWs r1
    let d1 := r2.takeWhile isDigitChar
    if d1.isEmpty then none else
    match skipWs (r2.dropWhile isDigitChar) with
    | ',' :: r3 =>
      let r4 := skipWs r3
      let d2 := r4.takeWhile isDigitChar
      if d2.isEmpty then none else
      match skipWs (r4.dropWhile isDigitChar) with
      | ',' :: r5 =>
        match readInt (skipWs r5) with
        | none => none
        | some (v, r6) =>
          match skipWs r6 with
          | ')' :: r7 => if (skipWs r7).isEmpty then some (parseDigits d1, parseDigits d2, v) else none
          | _ => none
      | _ => none
    | _ => none
  | _ => none

/-- Model of the element-parsing loop (lines 110-135): regex match, bounds
check (an out-of-range triple throws the same wrong-format error, line
131), then `setElement`. -/
def parseLoop (m : SparseMatrix) : List (List Char) → Except String SparseMatrix
  | [] => .ok m
  | line :: rest =>
    match parseTriple line with
    | none => .error wrongFormatMsg
    | some (r, c, v) =>
      if (r : Int) < 0 ∨ (r : Int) ≥ m.rows ∨ (c : Int) < 0 ∨ (c : Int) ≥ m.cols then
        .error wrongFormatMsg
      else
        match setElement m (r : Int) (c : Int) v with
        | .error e => .error e
        | .ok m' => parseLoop m' rest

/-- Model of `loadFromFile` (lines 83-146) on the file's text content:
split into lines, trim, drop blank lines, parse the two header lines,
then the entry lines. -/
def parseChars (cs : List Char) : Except String SparseMatrix :=
  let lines := ((splitOnNl cs).map trimChars).filter (fun l => ¬ l.isEmpty)
  match lines with
  | l0 :: l1 :: rest =>
    match parseHeaderLine ['r', 'o', 'w', 's'] l0, parseHeaderLine ['c', 'o', 'l', 's'] l1 with
    | some r, some c => parseLoop (SparseMatrix.mk (r : Int) (c : Int) []) rest
    | _, _ => .error wrongFormatMsg
  | _ => .error missingHeaderMsg

/-- Model of `loadFromFile` on a string. -/
def loadFromString (s : String) : Except String SparseMatrix := parseChars s.data

/-! ### Rendered test inputs

Helper constructions used to state parsing properties: a well-formed
input file with header `rows=R`/`cols=C` and one line per triple, in the
exact shape the grammar of spec §6 describes. -/

/-- A rendered entry line for a (row, col, value) triple. -/
def renderTriple (t : Nat × Nat × Int) : List Char :=
  entryLine (((t.1 : Int), (t.2.1 : Int)), t.2.2)

/-- A rendered input file: header then one line per triple. -/
def renderFile (R C : Nat) (ts : List (Nat × Nat × Int)) : List Char :=
  ('r' :: 'o' :: 'w' :: 's' :: '=' :: natToChars R) ++ '\n' ::
    (('c' :: 'o' :: 'l' :: 's' :: '=' :: natToChars C) ++ '\n' ::
      ts.flatMap (fun t => renderTriple t ++ ['\n']))

/-- The value of the last triple of `ts` addressed at key `k`, if any
(file order; later triples win). -/
def lastWrite (ts : List (Nat × Nat × Int)) (k : Key) : Option Int :=
  ts.foldl (fun acc t => if ((t.1 : Int), (t.2.1 : Int)) = k then some t.2.2 else acc) none

/-! ### The second variant's parser (`_loadFromFile`, lines 484-545) -/

/-- Model of `line.replace(/\s/g, "")` (line 506): remove every
whitespace character. -/
def stripAllWs (cs : List Char) : List Char := cs.filter (fun c => !isWsChar c)

/-- Model of `content.split(',')` (line 510). -/
def splitOnComma : List Char → List (List Char)
  | [] => [[]]
  | c :: cs =>
    if c = ',' then [] :: splitOnComma cs
    else
      match splitOnComma cs with
      | l :: ls => (c :: l) :: ls
      | [] => [[c]]

/-- Model of `lines[i].split('=')` (lines 495-496). -/
def splitOnEq : List Char → List (List Char)
  | [] => [[]]
  | c :: cs =>
    if c = '=' then [] :: splitOnEq cs
    else
      match splitOnEq cs with
      | l :: ls => (c :: l) :: ls
      | [] => [[c]]

/-- The value of the longest leading digit run; `none` models `NaN`. -/
def digitsPrefixVal (cs : List Char) : Option Nat :=
  if (cs.takeWhile isDigitChar).isEmpty then none
  else some (parseDigits (cs.takeWhile isDigitChar))

/-- Model of JS `parseInt(s)` in base 10: skip leading whitespace, an
optional sign, then the longest digit prefix; `none` models `NaN`. -/
def parseIntChars (cs : List Char) : Option Int :=
  if (skipWs cs).head? = some '-' then
    (digitsPrefixVal (skipWs cs).tail).map (fun n => -(n : Int))
  else if (skipWs cs).head? = some '+' then
    (digitsPrefixVal (skipWs cs).tail).map (fun n => (n : Int))
  else
    (digitsPrefixVal (skipWs cs)).map (fun n => (n : Int))

/-- One iteration of the second variant's entry loop (lines 504-532):
strip all whitespace, check the surrounding parentheses, split the inner
text on commas into exactly three `parseInt`-parsed fields, bounds-check,
then store a non-zero value — the loop has no delete branch (line 526),
and every failure inside it surfaces as the generic wrong-format error
via the inner `catch` (lines 533-535). -/
def entryStep2 (m : SparseMatrix) (l : List Char) : Except String SparseMatrix :=
  if (stripAllWs l).head? ≠ some '(' ∨ (stripAllWs l).getLast? ≠ some ')' then
    .error wrongFormatMsg
  else if (splitOnComma ((stripAllWs l).drop 1).dropLast).length ≠ 3 then
    .error wrongFormatMsg
  else
    match parseIntChars ((splitOnComma ((stripAllWs l).drop 1).dropLast).getD 0 []),
        parseIntChars ((splitOnComma ((stripAllWs l).drop 1).dropLast).getD 1 []),
        parseIntChars ((splitOnComma ((stripAllWs l).drop 1).dropLast).getD 2 []) with
    | some row, some col, some value =>
      if row < 0 ∨ row ≥ m.rows ∨ col < 0 ∨ col ≥ m.cols then .error wrongFormatMsg
      else if value ≠ 0 then
        .ok { m with elements := mapSet m.elements (row, col) value }
      else .ok m
    | _, _, _ => .error wrongFormatMsg

/-- Model of the second variant's `_loadFromFile` (lines 484-545) on the
file's text: split on newlines, trim each line, drop blank lines
(line 489), require the `rows=`/`cols=` prefixes (line 490), parse the
header values with `parseInt` (lines 495-500), then run the entry loop.
A file with fewer than two surviving lines makes line 490 read a field
of `undefined`; the resulting TypeError is re-thrown unchanged by the
outer catch (lines 538-544). -/
def parseChars2 (cs : List Char) : Except String SparseMatrix :=
  match ((splitOnNl cs).map trimChars).filter (fun l => ¬ l.isEmpty) with
  | l0 :: l1 :: rest =>
    if ¬ (['r', 'o', 'w', 's', '='].isPrefixOf l0) ∨
        ¬ (['c', 'o', 'l', 's', '='].isPrefixOf l1) then
      .error wrongFormatMsg
    else
      match parseIntChars ((splitOnEq l0).getD 1 []),
          parseIntChars ((splitOnEq l1).getD 1 []) with
      | some r, some c => rest.foldlM entryStep2 (SparseMatrix.mk r c [])
      | _, _ => .error "Input file has a wrong format"
  | _ => .error "TypeError: Cannot read properties of undefined"

/-- Model of `_loadFromFile` on a string. -/
def loadFromString2 (s : String) : Except String SparseMatrix := parseChars2 s.data

/-! ### Invariants of the data model (spec §3) and the mathematical sum -/

/-- Invariant I1: every stored value is non-zero. -/
def I1 (m : SparseMatrix) : Prop := ∀ e ∈ m.elements, e.2 ≠ 0

/-- Invariant I3: map semantics, at most one entry per key. -/
def keysNodup (m : SparseMatrix) : Prop := (m.elements.map (·.1)).Nodup

/-- Well-formed store: non-negative dimensions and invariants I1-I3 of
spec §3 (every state reachable through the class API satisfies this). -/
def WF (m : SparseMatrix) : Prop :=
  0 ≤ m.rows ∧ 0 ≤ m.cols ∧ keysNodup m ∧
    ∀ e ∈ m.elements, 0 ≤ e.1.1 ∧ e.1.1 < m.rows ∧ 0 ≤ e.1.2 ∧ e.1.2 < m.cols ∧ e.2 ≠ 0

instance : DecidablePred I1 := fun m => by unfold I1; infer_instance

instance : DecidablePred keysNodup := fun m => by unfold keysNodup; infer_instance

instance : DecidablePred WF := fun m => by unfold WF; infer_instance

/-- Mathematical product entry: the sum over `k` of `A(i,k)·B(k,j)`
(spec §4.3), `k` ranging over the inner dimension `A.colCount`. -/
def dotSum (a b : SparseMatrix) (i j : Int) : Int :=
  ∑ k ∈ Finset.Ico (0 : Int) a.cols, getElement a i k * getElement b k j

instance {ε α : Type} [DecidableEq ε] [DecidableEq α] : DecidableEq (Except ε α) :=
  fun x y =>
    match x, y with
    | .ok a, .ok b =>
      if h : a = b then isTrue (by rw [h]) else isFalse (by intro hc; cases hc; exact h rfl)
    | .error a, .error b =>
      if h : a = b then isTrue (by rw [h]) else isFalse (by intro hc; cases hc; exact h rfl)
    | .ok _, .error _ => isFalse (by intro hc; cases hc)
    | .error _, .ok _ => isFalse (by intro hc; cases hc)

/-! ### Concrete fixtures used by witnesses (spec §8's end-to-end scenario) -/

/-- The matrix A of the spec's end-to-end scenario. -/
def fixA : SparseMatrix := ⟨2, 2, [((0, 0), 1), ((1, 1), 3)]⟩

/-- The matrix B of the spec's end-to-end scenario. -/
def fixB : SparseMatrix := ⟨2, 2, [((0, 0), 2), ((1, 0), 4)]⟩

/-- A 3×2 matrix (dimension-mismatch fixture). -/
def fixC : SparseMatrix := ⟨3, 2, [((2, 1), 5)]⟩

/-- Zero-elision view of a stored value: `none` for 0 (I1), `some v`
otherwise. -/
def omitZero (v : Int) : Option Int := if v = 0 then none else some v

/-- Partial product accumulated by the second variant's `multiply` after
processing a prefix `p` of the first operand's entries. -/
def partialDot (b : SparseMatrix) (p : List (Key × Int)) (i j : Int) : Int :=
  ((p.filter (fun e => e.1.1 = i)).map (fun e => e.2 * getElement b e.1.2 j)).sum

/-- The store produced by a successful in-bounds `setElement` (the body of
lines 67-76: zero deletes, non-zero writes). -/
def setStep (m : SparseMatrix) (r c v : Int) : SparseMatrix :=
  ⟨m.rows, m.cols,
    if v = 0 then mapDelete m.elements (r, c) else mapSet m.elements (r, c) v⟩

/-! ### Heap model for the frame property (spec §4.3: operations are pure)

JS objects live on a heap and methods could in principle mutate their
receiver or argument.  To state that `add`/`subtract`/`multiply` never
do, the heap is modelled as a list of stores addressed by index; every
mutation the JS methods perform goes through the freshly allocated
result object (`new SparseMatrix(...)`), modelled by `runWrite` at the
result's index.  Reads of the operands are reads of the captured values
`a` and `b`, which is faithful because no write ever targets their
indices. -/

abbrev Heap := List SparseMatrix

/-- Apply a store-level mutation at index `rid` of the heap; an
exception leaves the heap unchanged. -/
def modifyAt (h : Heap) (rid : Nat) (f : SparseMatrix → Except String SparseMatrix) :
    Heap × Option String :=
  match h.get? rid with
  | none => (h, some "missing store")
  | some m =>
    match f m with
    | .ok m' => (h.set rid m', none)
    | .error e => (h, some e)

/-- One mutation step in a loop: once an exception is pending, the rest
of the loop is not executed. -/
def runWrite (rid : Nat) (st : Heap × Option String)
    (f : SparseMatrix → Except String SparseMatrix) : Heap × Option String :=
  match st.2 with
  | some _ => st
  | none => modifyAt st.1 rid f

/-- Heap-level `add` (lines 153-175): read both operands, check
dimensions, allocate the result, run the two copy/accumulate loops as
writes to the result index. -/
def addH (h : Heap) (ia ib : Nat) : Heap × Except String Nat :=
  match h.get? ia, h.get? ib with
  | some a, some b =>
    if a.rows ≠ b.rows ∨ a.cols ≠ b.cols then
      (h, .error "Matrix dimensions must match for addition")
    else
      let rid := h.length
      let st := (a.elements.foldl
          (fun st e => runWrite rid st (fun r => setElement r e.1.1 e.1.2 e.2))
          (h ++ [SparseMatrix.mk a.rows a.cols []], none))
      let st := b.elements.foldl
        (fun st e => runWrite rid st
          (fun r => setElement r e.1.1 e.1.2 (getElement r e.1.1 e.1.2 + e.2))) st
      match st.2 with
      | none => (st.1, .ok rid)
      | some e => (st.1, .error e)
  | _, _ => (h, .error "missing store")

/-- Heap-level `subtract` (lines 182-204). -/
def subtractH (h : Heap) (ia ib : Nat) : Heap × Except String Nat :=
  match h.get? ia, h.get? ib with
  | some a, some b =>
    if a.rows ≠ b.rows ∨ a.cols ≠ b.cols then
      (h, .error "Matrix dimensions must match for subtraction")
    else
      let rid := h.length
      let st := (a.elements.foldl
          (fun st e => runWrite rid st (fun r => setElement r e.1.1 e.1.2 e.2))
          (h ++ [SparseMatrix.mk a.rows a.cols []], none))
      let st := b.elements.foldl
        (fun st e => runWrite rid st
          (fun r => setElement r e.1.1 e.1.2 (getElement r e.1.1 e.1.2 - e.2))) st
      match st.2 with
      | none => (st.1, .ok rid)
      | some e => (st.1, .error e)
  | _, _ => (h, .error "missing store")

/-- Heap-level `multiply` (lines 211-259). -/
def multiplyH (h : Heap) (ia ib : Nat) : Heap × Except String Nat :=
  match h.get? ia, h.get? ib with
  | some a, some b =>
    if a.cols ≠ b.rows then (h, .error (mulMismatchMsg a b))
    else
      let rid := h.length
      let rowIdx := buildRowIndex a.elements
      let colIdx := buildColIndex b.elements
      let st := rowIdx.foldl
        (fun st e => (List.range b.cols.toNat).foldl
          (fun st (cb : Nat) => runWrite rid st (fun result =>
            let colB : Int := (cb : Int)
            let rowsB := (lookupIdx colIdx colB).getD []
            let sum := rowColSum a b rowsB e.1 e.2 colB
            if sum ≠ 0 then setElement result e.1 colB sum else pure result)) st)
        (h ++ [SparseMatrix.mk a.rows b.cols []], none)
      match st.2 with
      | none => (st.1, .ok rid)
      | some e => (st.1, .error e)
  | _, _ => (h, .error "missing store")

/-! ## Lemmas about the map model -/

theorem mapGet_mapSet_self (l : List (Key × Int)) (k : Key) (v : Int) :
    mapGet (mapSet l k v) k = some v := by
  induction l with
  | nil => simp [mapSet, mapGet]
  | cons e es ih =>
    by_cases h : e.1 = k
    · simp [mapSet, h, mapGet]
    · simp [mapSet, h, mapGet, ih]

theorem mapGet_mapSet_ne (l : List (Key × Int)) (k k' : Key) (v : Int) (h : k' ≠ k) :
    mapGet (mapSet l k v) k' = mapGet l k' := by
  induction l with
  | nil => simp [mapSet, mapGet, Ne.symm h]
  | cons e es ih =>
    by_cases he : e.1 = k
    · simp [mapSet, he, mapGet, Ne.symm h]
    · by_cases he' : e.1 = k'
      · simp only [mapSet, if_neg he, mapGet, if_pos he']
      · simp only [mapSet, if_neg he, mapGet, if_neg he', ih]

theorem mapGet_mapDelete_self (l : List (Key × Int)) (k : Key) :
    mapGet (mapDelete l k) k = none := by
  induction l with
  | nil => simp [mapDelete, mapGet]
  | cons e es ih =>
    by_cases h : e.1 = k
    · simp [mapDelete, h, ih]
    · simp [mapDelete, h, mapGet, ih]

theorem mapGet_mapDelete_ne (l : List (Key × Int)) (k k' : Key) (h : k' ≠ k) :
    mapGet (mapDelete l k) k' = mapGet l k' := by
  induction l with
  | nil => simp [mapDelete]
  | cons e es ih =>
    by_cases he : e.1 = k
    · have hne : ¬ e.1 = k' := by rw [he]; exact Ne.symm h
      simp only [mapDelete, if_pos he, mapGet, if_neg hne, ih]
    · by_cases he' : e.1 = k'
      · simp only [mapDelete, if_neg he, mapGet, if_pos he']
      · simp only [mapDelete, if_neg he, mapGet, if_neg he', ih]

theorem mapGet_eq_none_iff (l : List (Key × Int)) (k : Key) :
    mapGet l k = none ↔ k ∉ l.map (·.1) := by
  induction l with
  | nil => simp [mapGet]
  | cons e es ih =>
    rw [List.map_cons, List.mem_cons]
    by_cases h : e.1 = k
    · simp [mapGet, h]
    · rw [mapGet, if_neg h, ih]
      constructor
      · rintro hk (hc | hc)
        · exact h hc.symm
        · exact hk hc
      · intro hk hc
        exact hk (Or.inr hc)

theorem mem_of_mapGet_eq_some (l : List (Key × Int)) (k : Key) (v : Int)
    (h : mapGet l k = some v) : (k, v) ∈ l := by
  induction l with
  | nil => simp [mapGet] at h
  | cons e es ih =>
    rcases e with ⟨ek, ev⟩
    by_cases he : ek = k
    · have hv : ev = v := by simpa [mapGet, he] using h
      rw [← he, ← hv]
      exact List.mem_cons_self _ _
    · have h' : mapGet es k = some v := by simpa [mapGet, he] using h
      exact List.mem_cons_of_mem _ (ih h')

theorem mapGet_of_mem_nodup (l : List (Key × Int)) (e : Key × Int)
    (he : e ∈ l) (hnd : (l.map (·.1)).Nodup) : mapGet l e.1 = some e.2 := by
  induction l with
  | nil => simp at he
  | cons e0 es ih =>
    rcases List.mem_cons.mp he with h | h
    · rw [h, mapGet, if_pos rfl]
    · have hne : ¬ e0.1 = e.1 := by
        intro hc
        have : e.1 ∈ es.map (·.1) := List.mem_map.mpr ⟨e, h, rfl⟩
        rw [List.map_cons, List.nodup_cons] at hnd
        exact hnd.1 (hc ▸ this)
      rw [mapGet, if_neg hne]
      exact ih h (by rw [List.map_cons, List.nodup_cons] at hnd; exact hnd.2)

theorem mem_keys_mapSet (l : List (Key × Int)) (k k' : Key) (v : Int) :
    k' ∈ (mapSet l k v).map (·.1) ↔ k' ∈ l.map (·.1) ∨ k' = k := by
  induction l with
  | nil => simp [mapSet]
  | cons e es ih =>
    by_cases he : e.1 = k
    · simp only [mapSet, if_pos he, List.map_cons, List.mem_cons]
      rw [he]
      tauto
    · simp only [mapSet, if_neg he, List.map_cons, List.mem_cons, ih]
      tauto

theorem nodup_keys_mapSet (l : List (Key × Int)) (k : Key) (v : Int)
    (h : (l.map (·.1)).Nodup) : ((mapSet l k v).map (·.1)).Nodup := by
  induction l with
  | nil => simp [mapSet]
  | cons e es ih =>
    rw [List.map_cons, List.nodup_cons] at h
    by_cases he : e.1 = k
    · simp only [mapSet, if_pos he, List.map_cons, List.nodup_cons]
      exact ⟨he ▸ h.1, h.2⟩
    · simp only [mapSet, if_neg he, List.map_cons, List.nodup_cons]
      refine ⟨fun hc => ?_, ih h.2⟩
      rcases (mem_keys_mapSet es k e.1 v).mp hc with hc' | hc'
      · exact h.1 hc'
      · exact he hc'

theorem mem_of_mem_mapSet (l : List (Key × Int)) (k : Key) (v : Int) (e : Key × Int)
    (h : e ∈ mapSet l k v) : e ∈ l ∨ e = (k, v) := by
  induction l with
  | nil => exact Or.inr (List.mem_singleton.mp h)
  | cons e0 es ih =>
    by_cases he : e0.1 = k
    · rcases List.mem_cons.mp (by simpa [mapSet, he] using h) with h' | h'
      · exact Or.inr h'
      · exact Or.inl (List.mem_cons_of_mem _ h')
    · rcases List.mem_cons.mp (by simpa [mapSet, he] using h) with h' | h'
      · exact Or.inl (h' ▸ List.mem_cons_self _ _)
      · rcases ih h' with h'' | h''
        · exact Or.inl (List.mem_cons_of_mem _ h'')
        · exact Or.inr h''

theorem mem_of_mem_mapDelete (l : List (Key × Int)) (k : Key) (e : Key × Int)
    (h : e ∈ mapDelete l k) : e ∈ l := by
  induction l with
  | nil => exact absurd h (by simp [mapDelete])
  | cons e0 es ih =>
    by_cases he : e0.1 = k
    · exact List.mem_cons_of_mem _ (ih (by simpa [mapDelete, he] using h))
    · rcases List.mem_cons.mp (by simpa [mapDelete, he] using h) with h' | h'
      · exact h' ▸ List.mem_cons_self _ _
      · exact List.mem_cons_of_mem _ (ih h')

theorem keys_mapDelete_sublist (l : List (Key × Int)) (k : Key) :
    ((mapDelete l k).map (·.1)).Sublist (l.map (·.1)) := by
  induction l with
  | nil => simp [mapDelete]
  | cons e es ih =>
    by_cases he : e.1 = k
    · simp only [mapDelete, if_pos he, List.map_cons]
      exact ih.trans (List.sublist_cons_self _ _)
    · simp only [mapDelete, if_neg he, List.map_cons]
      exact ih.cons₂ _

theorem nodup_keys_mapDelete (l : List (Key × Int)) (k : Key)
    (h : (l.map (·.1)).Nodup) : ((mapDelete l k).map (·.1)).Nodup :=
  h.sublist (keys_mapDelete_sublist l k)

theorem mapDelete_of_not_mem (l : List (Key × Int)) (k : Key)
    (h : mapGet l k = none) : mapDelete l k = l := by
  induction l with
  | nil => rfl
  | cons e es ih =>
    by_cases he : e.1 = k
    · simp [mapGet, he] at h
    · simp only [mapGet, if_neg he] at h
      simp [mapDelete, he, ih h]

theorem length_mapDelete_of_mem (l : List (Key × Int)) (k : Key) (v : Int)
    (hnd : (l.map (·.1)).Nodup) (h : mapGet l k = some v) :
    (mapDelete l k).length + 1 = l.length := by
  induction l with
  | nil => simp [mapGet] at h
  | cons e es ih =>
    rw [List.map_cons, List.nodup_cons] at hnd
    by_cases he : e.1 = k
    · have : mapGet es k = none := by
        rw [mapGet_eq_none_iff]
        exact he ▸ hnd.1
      simp [mapDelete, he, mapDelete_of_not_mem es k this]
    · have h' : mapGet es k = some v := by simpa [mapGet, he] using h
      simp only [mapDelete, if_neg he, List.length_cons]
      rw [← ih hnd.2 h']

/-! ## Lemmas about `setElement` -/

theorem setElement_of_oob (m : SparseMatrix) (r c v : Int)
    (h : r < 0 ∨ r ≥ m.rows ∨ c < 0 ∨ c ≥ m.cols) :
    setElement m r c v = .error (invalidIndicesMsg m r c) := by
  simp [setElement, h]

theorem setElement_of_inbounds (m : SparseMatrix) (r c v : Int)
    (h : ¬(r < 0 ∨ r ≥ m.rows ∨ c < 0 ∨ c ≥ m.cols)) :
    setElement m r c v =
      .ok ⟨m.rows, m.cols,
        if v = 0 then mapDelete m.elements (r, c) else mapSet m.elements (r, c) v⟩ := by
  by_cases hv : v = 0 <;> simp [setElement, h, hv]

theorem setElement_error_iff (m : SparseMatrix) (r c v : Int) :
    (∃ e, setElement m r c v = .error e) ↔ (r < 0 ∨ r ≥ m.rows ∨ c < 0 ∨ c ≥ m.cols) := by
  constructor
  · rintro ⟨e, he⟩
    by_contra h
    rw [setElement_of_inbounds m r c v h] at he
    cases he
  · intro h
    exact ⟨_, setElement_of_oob m r c v h⟩

theorem setElement_ok_inbounds (m : SparseMatrix) (r c v : Int) (m' : SparseMatrix)
    (h : setElement m r c v = .ok m') : ¬(r < 0 ∨ r ≥ m.rows ∨ c < 0 ∨ c ≥ m.cols) := by
  intro hc
  rw [setElement_of_oob m r c v hc] at h
  cases h

theorem setElement_ok_elim (m : SparseMatrix) (r c v : Int) (m' : SparseMatrix)
    (h : setElement m r c v = .ok m') :
    m'.rows = m.rows ∧ m'.cols = m.cols ∧
      m'.elements = (if v = 0 then mapDelete m.elements (r, c) else mapSet m.elements (r, c) v) := by
  have hb := setElement_ok_inbounds m r c v m' h
  rw [setElement_of_inbounds m r c v hb] at h
  cases h
  exact ⟨rfl, rfl, rfl⟩

theorem mapGet_setElement_self (m : SparseMatrix) (r c v : Int) (m' : SparseMatrix)
    (h : setElement m r c v = .ok m') :
    mapGet m'.elements (r, c) = if v = 0 then none else some v := by
  obtain ⟨-, -, he⟩ := setElement_ok_elim m r c v m' h
  rw [he]
  by_cases hv : v = 0
  · simp [hv, mapGet_mapDelete_self]
  · simp [hv, mapGet_mapSet_self]

theorem mapGet_setElement_ne (m : SparseMatrix) (r c v : Int) (m' : SparseMatrix)
    (h : setElement m r c v = .ok m') (k : Key) (hk : k ≠ (r, c)) :
    mapGet m'.elements k = mapGet m.elements k := by
  obtain ⟨-, -, he⟩ := setElement_ok_elim m r c v m' h
  rw [he]
  by_cases hv : v = 0
  · simp [hv, mapGet_mapDelete_ne _ _ _ hk]
  · simp [hv, mapGet_mapSet_ne _ _ _ _ hk]

theorem setElement_preserves_I1_nodup (m : SparseMatrix) (r c v : Int) (m' : SparseMatrix)
    (h : setElement m r c v = .ok m') (h1 : I1 m) (hnd : keysNodup m) :
    I1 m' ∧ keysNodup m' := by
  obtain ⟨-, -, he⟩ := setElement_ok_elim m r c v m' h
  unfold I1 keysNodup at *
  rw [he]
  by_cases hv : v = 0
  · simp only [if_pos hv]
    exact ⟨fun e hem => h1 e (mem_of_mem_mapDelete _ _ _ hem), nodup_keys_mapDelete _ _ hnd⟩
  · simp only [if_neg hv]
    refine ⟨fun e hem => ?_, nodup_keys_mapSet _ _ _ hnd⟩
    rcases mem_of_mem_mapSet _ _ _ _ hem with h' | h'
    · exact h1 e h'
    · rw [h']
      exact hv

/-- C6: `set(row, col, value)` fails (with the index-validation error)
exactly when `row ∉ [0, rowCount)` or `col ∉ [0, colCount)`; `get` is
total by construction (it returns an `Int` for any integer arguments) and
returns 0 for any absent coordinate — in particular, on a well-formed
store, for any out-of-range coordinate. -/
theorem C6_get_set_validation (m : SparseMatrix) (r c v : Int) :
    ((∃ e, setElement m r c v = .error e) ↔ (r < 0 ∨ r ≥ m.rows ∨ c < 0 ∨ c ≥ m.cols)) ∧
    (mapGet m.elements (r, c) = none → getElement m r c = 0) ∧
    (WF m → (r < 0 ∨ r ≥ m.rows ∨ c < 0 ∨ c ≥ m.cols) → getElement m r c = 0) := by
  refine ⟨setElement_error_iff m r c v, ?_, ?_⟩
  · intro h
    simp [getElement, h]
  · intro hwf hoob
    rcases hget : mapGet m.elements (r, c) with _ | v0
    · simp [getElement, hget]
    · exfalso
      have hmem := mem_of_mapGet_eq_some _ _ _ hget
      obtain ⟨-, -, -, hb⟩ := hwf
      obtain ⟨h1, h2, h3, h4, -⟩ := hb _ hmem
      simp only at h1 h2 h3 h4
      omega

/-- C6 witness: the theorem applied at concrete stores and coordinates. -/
theorem C6_witness :
    (∃ e, setElement fixA 5 0 1 = .error e) ∧
    getElement fixA 0 1 = 0 ∧ getElement fixA 5 7 = 0 :=
  ⟨((C6_get_set_validation fixA 5 0 1).1).mpr (by decide),
    (C6_get_set_validation fixA 0 1 1).2.1 (by decide),
    (C6_get_set_validation fixA 5 7 1).2.2 (by decide) (by decide)⟩

/-- C4 counterexample: the result of the end-to-end `Add` scenario does
NOT serialize to the claimed text `rows=2\ncols=2\n(0,0,3)\n(1,0,4)\n` —
the code emits a space after each comma and also emits the `(1, 1, 3)`
line. -/
theorem C4_counterexample :
    Except.map toStringFn (add fixA fixB) ≠
      Except.ok "rows=2\ncols=2\n(0,0,3)\n(1,0,4)\n" := by
  decide

/-- C4 (amended): `Add(A, B)` of the end-to-end fixtures serializes to
exactly `rows=2\ncols=2\n(0, 0, 3)\n(1, 0, 4)\n(1, 1, 3)\n` (spaces after
the commas, the `(1, 1, 3)` entry included), and for every store the
serialized entries are emitted in ascending order by row then by column,
regardless of the store's internal order. -/
theorem C4_serialization :
    Except.map toStringFn (add fixA fixB) =
      Except.ok "rows=2\ncols=2\n(0, 0, 3)\n(1, 0, 4)\n(1, 1, 3)\n" ∧
    ∀ m : SparseMatrix, List.Sorted entryLE (sortEntries m.elements) :=
  ⟨by decide, fun m => List.sorted_insertionSort entryLE m.elements⟩

/-- Generic preservation through an `Except`-valued left fold. -/
theorem foldlM_except_preserve {α : Type} (P : SparseMatrix → Prop)
    (step : SparseMatrix → α → Except String SparseMatrix) (l : List α)
    (hstep : ∀ x a y, P x → step x a = .ok y → P y) :
    ∀ m m', P m → l.foldlM step m = .ok m' → P m' := by
  induction l with
  | nil =>
    intro m m' hm h
    simp only [List.foldlM_nil] at h
    cases h
    exact hm
  | cons a as ih =>
    intro m m' hm h
    rw [List.foldlM_cons] at h
    cases hs : step m a with
    | error e => rw [hs] at h; cases h
    | ok x =>
      rw [hs] at h
      exact ih x m' (hstep m a x hm hs) h

/-- Characterization of the copy loop of `add`/`subtract` (lines 162-165
and 191-194): fold `setElement` over an entry list with distinct,
in-bounds keys. -/
theorem copy_fold_spec (l : List (Key × Int)) :
    ∀ m : SparseMatrix, (l.map (·.1)).Nodup →
      (∀ e ∈ l, ¬(e.1.1 < 0 ∨ e.1.1 ≥ m.rows ∨ e.1.2 < 0 ∨ e.1.2 ≥ m.cols)) →
      ∃ m', l.foldlM (fun r e => setElement r e.1.1 e.1.2 e.2) m = .ok m' ∧
        m'.rows = m.rows ∧ m'.cols = m.cols ∧
        ∀ k, mapGet m'.elements k =
          (match mapGet l k with
          | some v => if v = 0 then none else some v
          | none => mapGet m.elements k) := by
  induction l with
  | nil =>
    intro m _ _
    exact ⟨m, rfl, rfl, rfl, fun k => by simp [mapGet]⟩
  | cons e es ih =>
    intro m hnd hb
    rw [List.map_cons, List.nodup_cons] at hnd
    have hbe := hb e (List.mem_cons_self _ _)
    have hset := setElement_of_inbounds m e.1.1 e.1.2 e.2 hbe
    rw [Prod.mk.eta] at hset
    obtain ⟨m', hfold, hrows, hcols, hchar⟩ :=
      ih ⟨m.rows, m.cols,
        if e.2 = 0 then mapDelete m.elements e.1 else mapSet m.elements e.1 e.2⟩
        hnd.2 (fun e' he' => hb e' (List.mem_cons_of_mem _ he'))
    refine ⟨m', ?_, hrows, hcols, fun k => ?_⟩
    · rw [List.foldlM_cons, hset]
      exact hfold
    · by_cases hk : e.1 = k
      · have hes : mapGet es k = none := (mapGet_eq_none_iff es k).mpr (hk ▸ hnd.1)
        rw [hchar k, hes]
        simp only [mapGet, if_pos hk]
        by_cases hv : e.2 = 0
        · simp [hv, hk, mapGet_mapDelete_self]
        · simp [hv, hk, mapGet_mapSet_self]
      · rw [hchar k]
        rcases hes : mapGet es k with _ | v
        · simp only [mapGet, if_neg hk, hes]
          by_cases hv : e.2 = 0
          · simp [hv, mapGet_mapDelete_ne _ _ _ (Ne.symm hk)]
          · simp [hv, mapGet_mapSet_ne _ _ _ _ (Ne.symm hk)]
        · simp only [mapGet, if_neg hk, hes]

/-- Characterization of the accumulation loop of `add`/`subtract` (lines
168-172 and 197-201): each entry of the second operand is combined with
the current result value via `op` and written back. -/
theorem accum_fold_spec (op : Int → Int → Int) (l : List (Key × Int)) :
    ∀ m : SparseMatrix, (l.map (·.1)).Nodup →
      (∀ e ∈ l, ¬(e.1.1 < 0 ∨ e.1.1 ≥ m.rows ∨ e.1.2 < 0 ∨ e.1.2 ≥ m.cols)) →
      ∃ m', l.foldlM
          (fun r e => setElement r e.1.1 e.1.2 (op (getElement r e.1.1 e.1.2) e.2)) m = .ok m' ∧
        m'.rows = m.rows ∧ m'.cols = m.cols ∧
        ∀ k, mapGet m'.elements k =
          (match mapGet l k with
          | some v => if op (getElement m k.1 k.2) v = 0 then none
              else some (op (getElement m k.1 k.2) v)
          | none => mapGet m.elements k) := by
  induction l with
  | nil =>
    intro m _ _
    exact ⟨m, rfl, rfl, rfl, fun k => by simp [mapGet]⟩
  | cons e es ih =>
    intro m hnd hb
    rw [List.map_cons, List.nodup_cons] at hnd
    have hbe := hb e (List.mem_cons_self _ _)
    have hset := setElement_of_inbounds m e.1.1 e.1.2 (op (getElement m e.1.1 e.1.2) e.2) hbe
    rw [Prod.mk.eta] at hset
    obtain ⟨m', hfold, hrows, hcols, hchar⟩ :=
      ih ⟨m.rows, m.cols,
        if op (getElement m e.1.1 e.1.2) e.2 = 0 then mapDelete m.elements e.1
          else mapSet m.elements e.1 (op (getElement m e.1.1 e.1.2) e.2)⟩
        hnd.2 (fun e' he' => hb e' (List.mem_cons_of_mem _ he'))
    refine ⟨m', ?_, hrows, hcols, fun k => ?_⟩
    · rw [List.foldlM_cons, hset]
      exact hfold
    · by_cases hk : e.1 = k
      · have hes : mapGet es k = none := (mapGet_eq_none_iff es k).mpr (hk ▸ hnd.1)
        rw [hchar k, hes]
        simp only [mapGet, if_pos hk]
        subst hk
        by_cases hv : op (getElement m e.1.1 e.1.2) e.2 = 0
        · simp only [getElement, Prod.mk.eta] at hv ⊢
          simp [hv, mapGet_mapDelete_self]
        · simp only [getElement, Prod.mk.eta] at hv ⊢
          simp [hv, mapGet_mapSet_self]
      · rw [hchar k]
        have hmap : mapGet
            (if op (getElement m e.1.1 e.1.2) e.2 = 0 then mapDelete m.elements e.1
              else mapSet m.elements e.1 (op (getElement m e.1.1 e.1.2) e.2)) k =
            mapGet m.elements k := by
          by_cases hv : op (getElement m e.1.1 e.1.2) e.2 = 0
          · rw [if_pos hv]
            exact mapGet_mapDelete_ne _ _ _ (Ne.symm hk)
          · rw [if_neg hv]
            exact mapGet_mapSet_ne _ _ _ _ (Ne.symm hk)
        have hget : getElement ⟨m.rows, m.cols,
            if op (getElement m e.1.1 e.1.2) e.2 = 0 then mapDelete m.elements e.1
              else mapSet m.elements e.1 (op (getElement m e.1.1 e.1.2) e.2)⟩ k.1 k.2 =
            getElement m k.1 k.2 := by
          show (mapGet (if op (getElement m e.1.1 e.1.2) e.2 = 0 then mapDelete m.elements e.1
            else mapSet m.elements e.1 (op (getElement m e.1.1 e.1.2) e.2)) (k.1, k.2)).getD 0 =
            (mapGet m.elements (k.1, k.2)).getD 0
          rw [Prod.mk.eta, hmap]
        rcases hes : mapGet es k with _ | v
        · simp only [mapGet, if_neg hk, hes]
          exact hmap
        · simp only [mapGet, if_neg hk, hes, hget]

/-- Combined behaviour of the two loops shared by `add` and `subtract`,
parameterised by the combining operation. -/
theorem arith_op_spec (a b : SparseMatrix) (op : Int → Int → Int)
    (hA : WF a) (hB : WF b) (hrows : a.rows = b.rows) (hcols : a.cols = b.cols)
    (hop0 : ∀ x : Int, op x 0 = x) :
    ∃ r, ((a.elements.foldlM (fun r e => setElement r e.1.1 e.1.2 e.2)
          (SparseMatrix.mk a.rows a.cols [])) >>= fun copied =>
        b.elements.foldlM
          (fun r e => setElement r e.1.1 e.1.2 (op (getElement r e.1.1 e.1.2) e.2)) copied)
        = .ok r ∧
      r.rows = a.rows ∧ r.cols = a.cols ∧
      ∀ i j, getElement r i j = op (getElement a i j) (getElement b i j) := by
  obtain ⟨hra, hca, hndA, hbA⟩ := hA
  obtain ⟨hrb, hcb, hndB, hbB⟩ := hB
  obtain ⟨m1, hfold1, hrows1, hcols1, hchar1⟩ := copy_fold_spec a.elements
    (SparseMatrix.mk a.rows a.cols []) hndA
    (by
      intro e he
      obtain ⟨h1, h2, h3, h4, -⟩ := hbA e he
      show ¬(e.1.1 < 0 ∨ e.1.1 ≥ a.rows ∨ e.1.2 < 0 ∨ e.1.2 ≥ a.cols)
      omega)
  have hchar1' : ∀ k, mapGet m1.elements k = mapGet a.elements k := by
    intro k
    rw [hchar1 k]
    rcases hg : mapGet a.elements k with _ | v
    · simp [mapGet]
    · have hv : v ≠ 0 := (hbA _ (mem_of_mapGet_eq_some _ _ _ hg)).2.2.2.2
      simp [hv]
  have hm1r : m1.rows = b.rows := by rw [hrows1]; exact hrows
  have hm1c : m1.cols = b.cols := by rw [hcols1]; exact hcols
  obtain ⟨r, hfold2, hrows2, hcols2, hchar2⟩ := accum_fold_spec op b.elements m1 hndB
    (by
      intro e he
      obtain ⟨h1, h2, h3, h4, -⟩ := hbB e he
      omega)
  refine ⟨r, ?_, ?_, ?_, ?_⟩
  · rw [hfold1]
    exact hfold2
  · rw [hrows2]
    exact hrows1
  · rw [hcols2]
    exact hcols1
  · intro i j
    have h2 := hchar2 (i, j)
    have hm1 : getElement m1 i j = getElement a i j := by
      show (mapGet m1.elements (i, j)).getD 0 = (mapGet a.elements (i, j)).getD 0
      rw [hchar1' (i, j)]
    rcases hg : mapGet b.elements (i, j) with _ | v
    · have hb0 : getElement b i j = 0 := by simp [getElement, hg]
      rw [hg] at h2
      have hra' : getElement r i j = getElement a i j := by
        show (mapGet r.elements (i, j)).getD 0 = (mapGet a.elements (i, j)).getD 0
        rw [h2, hchar1' (i, j)]
      rw [hra', hb0, hop0]
    · have hbv : getElement b i j = v := by simp [getElement, hg]
      rw [hg] at h2
      have h2' : mapGet r.elements (i, j) =
          if op (getElement a i j) v = 0 then none else some (op (getElement a i j) v) := by
        simpa [hm1] using h2
      show (mapGet r.elements (i, j)).getD 0 = op (getElement a i j) (getElement b i j)
      rw [h2', hbv]
      by_cases hz : op (getElement a i j) v = 0
      · simp [hz]
      · simp [hz]

/-- C2: `Add(A, B)` and `Subtract(A, B)` fail with the dimension-mismatch
error unless both dimensions agree; on success the result has the same
dimensions and is pointwise `A.get ± B.get`. -/
theorem C2_add_subtract (a b : SparseMatrix) (hA : WF a) (hB : WF b) :
    ((a.rows ≠ b.rows ∨ a.cols ≠ b.cols) →
      add a b = .error "Matrix dimensions must match for addition" ∧
      subtract a b = .error "Matrix dimensions must match for subtraction") ∧
    (a.rows = b.rows → a.cols = b.cols →
      (∃ r, add a b = .ok r ∧ r.rows = a.rows ∧ r.cols = a.cols ∧
        ∀ i j, getElement r i j = getElement a i j + getElement b i j) ∧
      (∃ r, subtract a b = .ok r ∧ r.rows = a.rows ∧ r.cols = a.cols ∧
        ∀ i j, getElement r i j = getElement a i j - getElement b i j)) := by
  constructor
  · intro h
    constructor
    · unfold add
      simp only [h, if_true, reduceIte]
      rfl
    · unfold subtract
      simp only [h, if_true, reduceIte]
      rfl
  · intro hr hc
    have hne : ¬(a.rows ≠ b.rows ∨ a.cols ≠ b.cols) := by simp [hr, hc]
    constructor
    · obtain ⟨r, hfold, h1, h2, h3⟩ := arith_op_spec a b (· + ·) hA hB hr hc (by simp)
      refine ⟨r, ?_, h1, h2, h3⟩
      have heq : add a b = ((a.elements.foldlM (fun r e => setElement r e.1.1 e.1.2 e.2)
            (SparseMatrix.mk a.rows a.cols [])) >>= fun copied =>
          b.elements.foldlM
            (fun r e => setElement r e.1.1 e.1.2 (getElement r e.1.1 e.1.2 + e.2)) copied) := by
        unfold add
        simp [hne]
      rw [heq]
      exact hfold
    · obtain ⟨r, hfold, h1, h2, h3⟩ := arith_op_spec a b (· - ·) hA hB hr hc (by simp)
      refine ⟨r, ?_, h1, h2, h3⟩
      have heq : subtract a b = ((a.elements.foldlM (fun r e => setElement r e.1.1 e.1.2 e.2)
            (SparseMatrix.mk a.rows a.cols [])) >>= fun copied =>
          b.elements.foldlM
            (fun r e => setElement r e.1.1 e.1.2 (getElement r e.1.1 e.1.2 - e.2)) copied) := by
        unfold subtract
        simp [hne]
      rw [heq]
      exact hfold

/-- C2 witness: the theorem applied at the concrete fixtures, on both the
mismatch side (2×2 vs 3×2) and the success side. -/
theorem C2_witness :
    add fixA fixC = .error "Matrix dimensions must match for addition" ∧
    ∃ r, add fixA fixB = .ok r ∧ r.rows = fixA.rows ∧ r.cols = fixA.cols ∧
      ∀ i j, getElement r i j = getElement fixA i j + getElement fixB i j :=
  ⟨((C2_add_subtract fixA fixC (by decide) (by decide)).1 (by decide)).1,
    ((C2_add_subtract fixA fixB (by decide) (by decide)).2 rfl rfl).1⟩

/-- The parse loop preserves I1 and key distinctness. -/
theorem parseLoop_preserves (lines : List (List Char)) :
    ∀ m m', I1 m ∧ keysNodup m → parseLoop m lines = .ok m' → I1 m' ∧ keysNodup m' := by
  induction lines with
  | nil =>
    intro m m' hP h
    cases h
    exact hP
  | cons line rest ih =>
    intro m m' hP h
    rw [parseLoop] at h
    rcases ht : parseTriple line with _ | ⟨r, c, v⟩
    · rw [ht] at h
      cases h
    · simp only [ht] at h
      by_cases hoob : (r : Int) < 0 ∨ (r : Int) ≥ m.rows ∨ (c : Int) < 0 ∨ (c : Int) ≥ m.cols
      · rw [if_pos hoob] at h
        cases h
      · rw [if_neg hoob] at h
        rcases hset : setElement m (r : Int) (c : Int) v with e | m1 <;> rw [hset] at h
        · cases h
        · exact ih m1 m' (setElement_preserves_I1_nodup m _ _ _ m1 hset hP.1 hP.2) h

/-- `loadFromFile` only produces stores satisfying I1 (and I3). -/
theorem loadFromString_preserves (s : String) (m : SparseMatrix)
    (h : loadFromString s = .ok m) : I1 m ∧ keysNodup m := by
  simp only [loadFromString, parseChars] at h
  rcases hl : ((splitOnNl s.data).map trimChars).filter (fun l => ¬ l.isEmpty) with _ | ⟨l0, rest0⟩
  · simp only [hl] at h
    cases h
  rcases rest0 with _ | ⟨l1, rest⟩
  · simp only [hl] at h
    cases h
  simp only [hl] at h
  rcases h0 : parseHeaderLine ['r', 'o', 'w', 's'] l0 with _ | r
  · simp only [h0] at h
    cases h
  simp only [h0] at h
  rcases h1 : parseHeaderLine ['c', 'o', 'l', 's'] l1 with _ | c
  · simp only [h1] at h
    cases h
  simp only [h1] at h
  exact parseLoop_preserves rest _ m ⟨by simp [I1], by simp [keysNodup]⟩ h

/-- `add` only produces stores satisfying I1 (and I3). -/
theorem add_preserves (a b r : SparseMatrix) (h : add a b = .ok r) : I1 r ∧ keysNodup r := by
  unfold add at h
  by_cases hd : a.rows ≠ b.rows ∨ a.cols ≠ b.cols
  · simp only [hd, if_true, reduceIte] at h
    cases h
  · simp only [hd, reduceIte] at h
    have hP0 : I1 (SparseMatrix.mk a.rows a.cols []) ∧ keysNodup (SparseMatrix.mk a.rows a.cols []) :=
      ⟨by simp [I1], by simp [keysNodup]⟩
    rcases hf : a.elements.foldlM (fun r e => setElement r e.1.1 e.1.2 e.2)
        (SparseMatrix.mk a.rows a.cols []) with e | m1
    · rw [hf] at h
      cases h
    · rw [hf] at h
      have hP1 := foldlM_except_preserve (fun x => I1 x ∧ keysNodup x) _ a.elements
        (fun x e y hP hs => setElement_preserves_I1_nodup x _ _ _ y hs hP.1 hP.2) _ m1 hP0 hf
      exact foldlM_except_preserve (fun x => I1 x ∧ keysNodup x) _ b.elements
        (fun x e y hP hs => setElement_preserves_I1_nodup x _ _ _ y hs hP.1 hP.2) m1 r hP1 h

/-- `subtract` only produces stores satisfying I1 (and I3). -/
theorem subtract_preserves (a b r : SparseMatrix) (h : subtract a b = .ok r) :
    I1 r ∧ keysNodup r := by
  unfold subtract at h
  by_cases hd : a.rows ≠ b.rows ∨ a.cols ≠ b.cols
  · simp only [hd, if_true, reduceIte] at h
    cases h
  · simp only [hd, reduceIte] at h
    have hP0 : I1 (SparseMatrix.mk a.rows a.cols []) ∧ keysNodup (SparseMatrix.mk a.rows a.cols []) :=
      ⟨by simp [I1], by simp [keysNodup]⟩
    rcases hf : a.elements.foldlM (fun r e => setElement r e.1.1 e.1.2 e.2)
        (SparseMatrix.mk a.rows a.cols []) with e | m1
    · rw [hf] at h
      cases h
    · rw [hf] at h
      have hP1 := foldlM_except_preserve (fun x => I1 x ∧ keysNodup x) _ a.elements
        (fun x e y hP hs => setElement_preserves_I1_nodup x _ _ _ y hs hP.1 hP.2) _ m1 hP0 hf
      exact foldlM_except_preserve (fun x => I1 x ∧ keysNodup x) _ b.elements
        (fun x e y hP hs => setElement_preserves_I1_nodup x _ _ _ y hs hP.1 hP.2) m1 r hP1 h

/-- `multiply` only produces stores satisfying I1 (and I3). -/
theorem multiply_preserves (a b r : SparseMatrix) (h : multiply a b = .ok r) :
    I1 r ∧ keysNodup r := by
  unfold multiply at h
  by_cases hd : a.cols ≠ b.rows
  · simp [hd, Bind.bind, Except.bind] at h
  · simp [hd] at h
    refine foldlM_except_preserve (fun x => I1 x ∧ keysNodup x) _ _
      (fun x e y hP hs => ?_) _ r ⟨by simp [I1], by simp [keysNodup]⟩ h
    refine foldlM_except_preserve (fun x => I1 x ∧ keysNodup x) _ _
      (fun x' cb y' hP' hs' => ?_) x y hP hs
    split at hs'
    all_goals first
      | exact setElement_preserves_I1_nodup _ _ _ _ _ hs' hP'.1 hP'.2
      | (cases hs'; exact hP')

/-- The second variant's `multiply` only produces stores satisfying I1 (and I3). -/
theorem multiply2_preserves (a b r : SparseMatrix) (h : multiply2 a b = .ok r) :
    I1 r ∧ keysNodup r := by
  unfold multiply2 at h
  by_cases hd : a.cols ≠ b.rows
  · simp [hd, Bind.bind, Except.bind] at h
  · simp [hd] at h
    refine foldlM_except_preserve (fun x => I1 x ∧ keysNodup x) _ _
      (fun x e y hP hs => ?_) _ r ⟨by simp [I1], by simp [keysNodup]⟩ h
    refine foldlM_except_preserve (fun x => I1 x ∧ keysNodup x) _ _
      (fun x' cb y' hP' hs' => ?_) x y hP hs
    split at hs'
    all_goals first
      | exact setElement_preserves_I1_nodup _ _ _ _ _ hs' hP'.1 hP'.2
      | (cases hs'; exact hP')

/-- C5: invariant I1 (every stored value is non-zero) holds after every
store-producing or store-mutating operation — `set`, parse, `Add`,
`Subtract`, `Multiply` — and in particular `set(r,c,0)` on a stored
entry removes it, decrements `nonZeroCount()` by exactly 1, and makes
`get(r,c)` return 0. -/
theorem C5_zero_invariant :
    (∀ m r c v m', I1 m → keysNodup m → setElement m r c v = .ok m' → I1 m') ∧
    (∀ s m, loadFromString s = .ok m → I1 m) ∧
    (∀ a b r, add a b = .ok r → I1 r) ∧
    (∀ a b r, subtract a b = .ok r → I1 r) ∧
    (∀ a b r, multiply a b = .ok r → I1 r) ∧
    (∀ m r c v, WF m → mapGet m.elements (r, c) = some v →
      ∃ m', setElement m r c 0 = .ok m' ∧ mapGet m'.elements (r, c) = none ∧
        nonZeroCount m' + 1 = nonZeroCount m ∧ getElement m' r c = 0) := by
  refine ⟨fun m r c v m' h1 hnd hs => (setElement_preserves_I1_nodup m r c v m' hs h1 hnd).1,
    fun s m h => (loadFromString_preserves s m h).1,
    fun a b r h => (add_preserves a b r h).1,
    fun a b r h => (subtract_preserves a b r h).1,
    fun a b r h => (multiply_preserves a b r h).1,
    fun m r c v hwf hget => ?_⟩
  obtain ⟨-, -, hnd, hb⟩ := hwf
  obtain ⟨h1, h2, h3, h4, -⟩ := hb _ (mem_of_mapGet_eq_some _ _ _ hget)
  simp only at h1 h2 h3 h4
  have hbound : ¬(r < 0 ∨ r ≥ m.rows ∨ c < 0 ∨ c ≥ m.cols) := by omega
  refine ⟨⟨m.rows, m.cols, mapDelete m.elements (r, c)⟩, ?_, ?_, ?_, ?_⟩
  · rw [setElement_of_inbounds m r c 0 hbound]
    simp
  · exact mapGet_mapDelete_self _ _
  · exact length_mapDelete_of_mem _ _ _ hnd hget
  · simp [getElement, mapGet_mapDelete_self]

/-- C5 witness: the theorem applied at concrete stores, a concrete parse,
a concrete addition, and a concrete zero write. -/
theorem C5_witness :
    I1 ⟨2, 2, [((0, 0), 1), ((1, 1), 3), ((0, 1), 7)]⟩ ∧
    I1 ⟨1, 1, [((0, 0), 5)]⟩ ∧
    I1 ⟨2, 2, [((0, 0), 3), ((1, 1), 3), ((1, 0), 4)]⟩ ∧
    ∃ m', setElement fixA 1 1 0 = .ok m' ∧ mapGet m'.elements (1, 1) = none ∧
      nonZeroCount m' + 1 = nonZeroCount fixA ∧ getElement m' 1 1 = 0 :=
  ⟨C5_zero_invariant.1 fixA 0 1 7 _ (by decide) (by decide) (by decide),
    C5_zero_invariant.2.1 "rows=1\ncols=1\n(0, 0, 5)\n" _ (by decide),
    C5_zero_invariant.2.2.1 fixA fixB _ (by decide),
    C5_zero_invariant.2.2.2.2.2 fixA 1 1 3 (by decide) (by decide)⟩

/-! ## Decimal rendering round-trip -/

theorem isDigitChar_digitChar (d : Nat) (h : d < 10) : isDigitChar (digitChar d) = true := by
  interval_cases d <;> decide

theorem digitVal_digitChar (d : Nat) (h : d < 10) : digitVal (digitChar d) = d := by
  interval_cases d <;> decide

theorem parseDigitsAcc_append (cs : List Char) (c : Char) (acc : Nat) :
    parseDigitsAcc (cs ++ [c]) acc = parseDigitsAcc cs acc * 10 + digitVal c := by
  simp [parseDigitsAcc, List.foldl_append]

theorem natToCharsAux_digits (fuel n : Nat) :
    ∀ c ∈ natToCharsAux fuel n, isDigitChar c = true := by
  induction fuel generalizing n with
  | zero => simp [natToCharsAux]
  | succ fuel ih =>
    by_cases h0 : n = 0
    · simp [natToCharsAux, h0]
    · intro c hc
      rw [natToCharsAux, if_neg h0] at hc
      rcases List.mem_append.mp hc with hc' | hc'
      · exact ih (n / 10) c hc'
      · rw [List.mem_singleton.mp hc']
        exact isDigitChar_digitChar _ (Nat.mod_lt _ (by omega))

theorem parseDigitsAcc_natToCharsAux (fuel : Nat) :
    ∀ n acc, n ≤ fuel →
      parseDigitsAcc (natToCharsAux fuel n) acc =
        acc * 10 ^ (natToCharsAux fuel n).length + n := by
  induction fuel with
  | zero =>
    intro n acc hn
    have : n = 0 := by omega
    simp [natToCharsAux, this, parseDigitsAcc]
  | succ fuel ih =>
    intro n acc hn
    by_cases h0 : n = 0
    · simp [natToCharsAux, h0, parseDigitsAcc]
    · rw [natToCharsAux, if_neg h0]
      rw [parseDigitsAcc_append]
      have hrec : n / 10 ≤ fuel := by
        have : n / 10 < n := Nat.div_lt_self (by omega) (by omega)
        omega
      rw [ih (n / 10) acc hrec]
      rw [digitVal_digitChar _ (Nat.mod_lt _ (by omega))]
      rw [List.length_append, List.length_singleton, pow_succ, ← mul_assoc]
      set M := acc * 10 ^ (natToCharsAux fuel (n / 10)).length
      omega

theorem natToCharsAux_ne_nil (fuel n : Nat) (h0 : n ≠ 0) (hn : n ≤ fuel) :
    natToCharsAux fuel n ≠ [] := by
  cases fuel with
  | zero => omega
  | succ fuel =>
    rw [natToCharsAux, if_neg h0]
    simp

theorem natToChars_ne_nil (n : Nat) : natToChars n ≠ [] := by
  unfold natToChars
  by_cases h0 : n = 0
  · simp [h0]
  · rw [if_neg h0]
    exact natToCharsAux_ne_nil n n h0 le_rfl

theorem natToChars_digits (n : Nat) : ∀ c ∈ natToChars n, isDigitChar c = true := by
  unfold natToChars
  by_cases h0 : n = 0
  · subst h0
    decide
  · rw [if_neg h0]
    exact natToCharsAux_digits n n

theorem parseDigits_natToChars (n : Nat) : parseDigits (natToChars n) = n := by
  unfold natToChars parseDigits
  by_cases h0 : n = 0
  · subst h0
    decide
  · rw [if_neg h0, parseDigitsAcc_natToCharsAux n n 0 le_rfl]
    simp

theorem intToChars_natCast (n : Nat) : intToChars (n : Int) = natToChars n := by
  unfold intToChars
  rw [if_neg (by omega)]
  simp

theorem intToChars_digits_of_nonneg (z : Int) (h : 0 ≤ z) :
    ∀ c ∈ intToChars z, isDigitChar c = true := by
  unfold intToChars
  rw [if_neg (by omega)]
  exact natToChars_digits z.toNat

/-! ## Whitespace and structure of rendered text -/

theorem not_ws_of_digit (c : Char) (h : isDigitChar c = true) : isWsChar c = false := by
  by_contra hw
  rw [Bool.not_eq_false] at hw
  simp only [isWsChar, Bool.or_eq_true, decide_eq_true_eq] at hw
  rcases hw with ((((h1 | h1) | h1) | h1) | h1) | h1 <;> subst h1 <;>
    simp [isDigitChar] at h

theorem ne_nl_of_digit (c : Char) (h : isDigitChar c = true) : c ≠ '\n' := by
  intro hc
  subst hc
  simp [isDigitChar] at h

theorem skipWs_of_head_not_ws (c : Char) (cs : List Char) (h : isWsChar c = false) :
    skipWs (c :: cs) = c :: cs :=
  List.dropWhile_cons_of_neg (by rw [h]; simp)

theorem skipWs_nil : skipWs [] = [] := rfl

theorem skipWs_digits_head (ds rest : List Char) (hne : ds ≠ [])
    (hd : ∀ c ∈ ds, isDigitChar c = true) : skipWs (ds ++ rest) = ds ++ rest := by
  rcases ds with _ | ⟨c, cs⟩
  · exact absurd rfl hne
  · exact skipWs_of_head_not_ws _ _ (not_ws_of_digit c (hd c (List.mem_cons_self _ _)))

theorem takeWhile_digits_append (ds rest : List Char)
    (hd : ∀ c ∈ ds, isDigitChar c = true)
    (hrest : ∀ c, rest.head? = some c → isDigitChar c = false) :
    (ds ++ rest).takeWhile isDigitChar = ds ∧ (ds ++ rest).dropWhile isDigitChar = rest := by
  induction ds with
  | nil =>
    rcases rest with _ | ⟨c, cs⟩
    · simp
    · have := hrest c rfl
      constructor
      · simp [List.takeWhile_cons, this]
      · simp [List.dropWhile_cons, this]
  | cons d ds ih =>
    have hdd := hd d (List.mem_cons_self _ _)
    obtain ⟨h1, h2⟩ := ih (fun c hc => hd c (List.mem_cons_of_mem _ hc))
    constructor
    · simp [List.takeWhile_cons, hdd, h1]
    · simp [List.dropWhile_cons, hdd, h2]

theorem splitOnNl_append_cons (xs : List Char) (r : List Char)
    (h : ∀ c ∈ xs, c ≠ '\n') :
    splitOnNl (xs ++ '\n' :: r) = xs :: splitOnNl r := by
  induction xs with
  | nil => simp [splitOnNl]
  | cons c cs ih =>
    have hc := h c (List.mem_cons_self _ _)
    rw [List.cons_append, splitOnNl, if_neg hc, ih (fun c' hc' => h c' (List.mem_cons_of_mem _ hc'))]

theorem splitOnNl_flatMap_lines (ls : List (List Char))
    (h : ∀ l ∈ ls, ∀ c ∈ l, c ≠ '\n') :
    splitOnNl (ls.flatMap (fun l => l ++ ['\n'])) = ls ++ [[]] := by
  induction ls with
  | nil => simp [splitOnNl]
  | cons l rest ih =>
    rw [List.flatMap_cons, List.append_assoc, List.singleton_append,
      splitOnNl_append_cons l _ (h l (List.mem_cons_self _ _)),
      ih (fun l' hl' => h l' (List.mem_cons_of_mem _ hl'))]
    rfl

theorem mem_of_getLast?_eq_some (l : List Char) (c : Char) (h : l.getLast? = some c) :
    c ∈ l := by
  obtain ⟨hne, hc⟩ := List.mem_getLast?_eq_getLast (show c ∈ l.getLast? from h)
  rw [hc]
  exact List.getLast_mem hne

theorem trimChars_eq_self (l : List Char)
    (h1 : ∀ c, l.head? = some c → isWsChar c = false)
    (h2 : ∀ c, l.getLast? = some c → isWsChar c = false) : trimChars l = l := by
  unfold trimChars
  have e1 : l.dropWhile isWsChar = l := by
    rcases l with _ | ⟨c, cs⟩
    · rfl
    · exact List.dropWhile_cons_of_neg (by rw [h1 c rfl]; simp)
  rw [e1]
  have e2 : l.reverse.dropWhile isWsChar = l.reverse := by
    rcases hr : l.reverse with _ | ⟨c, cs⟩
    · rfl
    · have : l.getLast? = some c := by
        rw [← List.head?_reverse, hr]
        rfl
      exact List.dropWhile_cons_of_neg (by rw [h2 c this]; simp)
  rw [e2, List.reverse_reverse]

/-! ## Parsing rendered text -/

theorem stripKw_append (kw rest : List Char) : stripKw kw (kw ++ rest) = some rest := by
  induction kw with
  | nil => rfl
  | cons k ks ih => simp [stripKw, ih]

theorem skipWs_digits (ds : List Char) (hd : ∀ c ∈ ds, isDigitChar c = true) :
    skipWs ds = ds := by
  rcases ds with _ | ⟨c, cs⟩
  · rfl
  · exact skipWs_of_head_not_ws _ _ (not_ws_of_digit c (hd c (List.mem_cons_self _ _)))

theorem isEmpty_false_of_ne_nil {l : List Char} (h : l ≠ []) : l.isEmpty = false := by
  rcases l with _ | ⟨c, cs⟩
  · exact absurd rfl h
  · rfl

theorem intToChars_of_nonneg (z : Int) (h : 0 ≤ z) : intToChars z = natToChars z.toNat := by
  unfold intToChars
  rw [if_neg (by omega)]

theorem skipWs_space (X : List Char) : skipWs (' ' :: X) = skipWs X :=
  List.dropWhile_cons_of_pos (by decide)

theorem parseHeaderLine_render (k0 : Char) (kws : List Char) (n : Nat)
    (hk0 : isWsChar k0 = false) :
    parseHeaderLine (k0 :: kws) (k0 :: (kws ++ '=' :: natToChars n)) = some n := by
  have h1 : skipWs (k0 :: (kws ++ '=' :: natToChars n)) = k0 :: (kws ++ '=' :: natToChars n) :=
    skipWs_of_head_not_ws _ _ hk0
  have h2 : stripKw (k0 :: kws) (k0 :: (kws ++ '=' :: natToChars n)) =
      some ('=' :: natToChars n) := stripKw_append (k0 :: kws) ('=' :: natToChars n)
  have h3 : skipWs ('=' :: natToChars n) = '=' :: natToChars n :=
    skipWs_of_head_not_ws '=' _ (by decide)
  have h4 : skipWs (natToChars n) = natToChars n := skipWs_digits _ (natToChars_digits n)
  have h5 := List.takeWhile_eq_self_iff.mpr (natToChars_digits n)
  have h6 := List.dropWhile_eq_nil_iff.mpr (natToChars_digits n)
  have h7 := isEmpty_false_of_ne_nil (natToChars_ne_nil n)
  unfold parseHeaderLine
  simp only [h1, h2, h3, h4, h5, h6, h7, Bool.false_eq_true, if_false, skipWs_nil,
    List.isEmpty_nil, if_true, parseDigits_natToChars]

theorem head_not_digit_comma (X : List Char) (c : Char)
    (h : (',' :: X).head? = some c) : isDigitChar c = false := by
  rw [show (',' :: X).head? = some ',' from rfl] at h
  cases h
  decide

theorem head_not_digit_rparen (X : List Char) (c : Char)
    (h : (')' :: X).head? = some c) : isDigitChar c = false := by
  rw [show (')' :: X).head? = some ')' from rfl] at h
  cases h
  decide

theorem readInt_intToChars (v : Int) (rest : List Char)
    (hrest : ∀ c, rest.head? = some c → isDigitChar c = false) :
    readInt (intToChars v ++ rest) = some (v, rest) := by
  unfold readInt intToChars
  by_cases hv : v < 0
  · rw [if_pos hv, List.cons_append]
    obtain ⟨ht, hdw⟩ := takeWhile_digits_append (natToChars (-v).toNat) rest
      (natToChars_digits _) hrest
    have hvv : ((-v).toNat : Int) = -v := Int.toNat_of_nonneg (by omega)
    simp only [List.head?_cons, List.tail_cons, ht, hdw,
      isEmpty_false_of_ne_nil (natToChars_ne_nil _), Bool.false_eq_true, if_false,
      parseDigits_natToChars, hvv, neg_neg, if_true, eq_self_iff_true]
  · rw [if_neg hv]
    obtain ⟨ht, hdw⟩ := takeWhile_digits_append (natToChars v.toNat) rest
      (natToChars_digits _) hrest
    have hne : ¬ ((natToChars v.toNat ++ rest).head? = some '-') := by
      intro hh
      rcases hnc : natToChars v.toNat with _ | ⟨c, cs⟩
      · exact natToChars_ne_nil _ hnc
      · rw [hnc] at hh
        rw [show ((c :: cs) ++ rest).head? = some c from rfl] at hh
        cases hh
        have := natToChars_digits v.toNat '-' (by rw [hnc]; exact List.mem_cons_self _ _)
        simp [isDigitChar] at this
    rw [if_neg hne]
    simp only [ht, hdw, isEmpty_false_of_ne_nil (natToChars_ne_nil _), Bool.false_eq_true,
      if_false, parseDigits_natToChars]
    rw [Int.toNat_of_nonneg (by omega)]

theorem skipWs_intToChars_append (v : Int) (X : List Char) :
    skipWs (intToChars v ++ X) = intToChars v ++ X := by
  unfold intToChars
  by_cases hv : v < 0
  · rw [if_pos hv, List.cons_append]
    exact skipWs_of_head_not_ws '-' _ (by decide)
  · rw [if_neg hv]
    exact skipWs_digits_head _ _ (natToChars_ne_nil _) (natToChars_digits _)

theorem parseTriple_entryLine (e : Key × Int) (hr : 0 ≤ e.1.1) (hc : 0 ≤ e.1.2) :
    parseTriple (entryLine e) = some (e.1.1.toNat, e.1.2.toNat, e.2) := by
  have hskip1 : skipWs (natToChars e.1.1.toNat ++
      ',' :: ' ' :: (natToChars e.1.2.toNat ++ ',' :: ' ' :: (intToChars e.2 ++ [')']))) =
      natToChars e.1.1.toNat ++
        ',' :: ' ' :: (natToChars e.1.2.toNat ++ ',' :: ' ' :: (intToChars e.2 ++ [')'])) :=
    skipWs_digits_head _ _ (natToChars_ne_nil _) (natToChars_digits _)
  obtain ⟨ht1, hd1⟩ := takeWhile_digits_append (natToChars e.1.1.toNat)
    (',' :: ' ' :: (natToChars e.1.2.toNat ++ ',' :: ' ' :: (intToChars e.2 ++ [')'])))
    (natToChars_digits _) (head_not_digit_comma _)
  have hskip2 : skipWs (',' :: ' ' ::
      (natToChars e.1.2.toNat ++ ',' :: ' ' :: (intToChars e.2 ++ [')']))) =
      ',' :: ' ' :: (natToChars e.1.2.toNat ++ ',' :: ' ' :: (intToChars e.2 ++ [')'])) :=
    skipWs_of_head_not_ws _ _ (by decide)
  have hskip3 : skipWs (' ' ::
      (natToChars e.1.2.toNat ++ ',' :: ' ' :: (intToChars e.2 ++ [')']))) =
      natToChars e.1.2.toNat ++ ',' :: ' ' :: (intToChars e.2 ++ [')']) := by
    rw [skipWs_space]
    exact skipWs_digits_head _ _ (natToChars_ne_nil _) (natToChars_digits _)
  obtain ⟨ht2, hd2⟩ := takeWhile_digits_append (natToChars e.1.2.toNat)
    (',' :: ' ' :: (intToChars e.2 ++ [')'])) (natToChars_digits _) (head_not_digit_comma _)
  have hskip4 : skipWs (',' :: ' ' :: (intToChars e.2 ++ [')'])) =
      ',' :: ' ' :: (intToChars e.2 ++ [')']) := skipWs_of_head_not_ws _ _ (by decide)
  have hskip5 : skipWs (' ' :: (intToChars e.2 ++ [')'])) = intToChars e.2 ++ [')'] := by
    rw [skipWs_space]
    exact skipWs_intToChars_append e.2 _
  have hread : readInt (intToChars e.2 ++ [')']) = some (e.2, [')']) :=
    readInt_intToChars e.2 [')'] (head_not_digit_rparen _)
  have hskip6 : skipWs [')'] = [')'] := skipWs_of_head_not_ws _ _ (by decide)
  unfold entryLine parseTriple
  rw [intToChars_of_nonneg _ hr, intToChars_of_nonneg _ hc]
  simp only [List.cons_append, List.append_assoc, List.nil_append]
  rw [skipWs_of_head_not_ws '(' _ (by decide)]
  simp only [hskip1, ht1, hd1, isEmpty_false_of_ne_nil (natToChars_ne_nil e.1.1.toNat),
    hskip2, hskip3, ht2, hd2, isEmpty_false_of_ne_nil (natToChars_ne_nil e.1.2.toNat),
    hskip4, hskip5, hread, hskip6, Bool.false_eq_true, if_false, parseDigits_natToChars,
    skipWs_nil, List.isEmpty_nil, if_true]

theorem intToChars_ne_nl (z : Int) : ∀ c ∈ intToChars z, c ≠ '\n' := by
  unfold intToChars
  by_cases hv : z < 0
  · rw [if_pos hv]
    intro c hc
    rcases List.mem_cons.mp hc with h | h
    · rw [h]
      decide
    · exact ne_nl_of_digit c (natToChars_digits _ c h)
  · rw [if_neg hv]
    exact fun c hc => ne_nl_of_digit c (natToChars_digits _ c hc)

theorem entryLine_ne_nl (e : Key × Int) : ∀ c ∈ entryLine e, c ≠ '\n' := by
  unfold entryLine
  simp only [List.forall_mem_append]
  exact ⟨⟨⟨⟨⟨fun c hc => by
    rcases List.mem_cons.mp hc with h' | h'
    · rw [h']; decide
    · exact intToChars_ne_nl _ c h', by decide⟩, intToChars_ne_nl _⟩, by decide⟩,
      intToChars_ne_nl _⟩, by decide⟩

theorem entryLine_ne_nil (e : Key × Int) : entryLine e ≠ [] := by
  unfold entryLine
  simp

theorem entryLine_head (e : Key × Int) : ∀ c, (entryLine e).head? = some c →
    isWsChar c = false := by
  intro c hc
  unfold entryLine at hc
  rw [show (('(' :: intToChars e.1.1) ++ [',', ' '] ++ intToChars e.1.2 ++ [',', ' '] ++
    intToChars e.2 ++ [')']).head? = some '(' from rfl] at hc
  cases hc
  decide

theorem entryLine_last (e : Key × Int) : ∀ c, (entryLine e).getLast? = some c →
    isWsChar c = false := by
  intro c hc
  unfold entryLine at hc
  rw [List.append_assoc, List.append_assoc, List.append_assoc, List.append_assoc,
    List.getLast?_append_of_ne_nil _ (by simp),
    List.getLast?_append_of_ne_nil _ (by simp),
    List.getLast?_append_of_ne_nil _ (by simp),
    List.getLast?_append_of_ne_nil _ (by simp),
    List.getLast?_append_of_ne_nil _ (by simp)] at hc
  rw [show ([')'] : List Char).getLast? = some ')' from rfl] at hc
  cases hc
  decide

theorem headerLine_ne_nl (k0 k1 k2 k3 : Char) (n : Nat)
    (h0 : k0 ≠ '\n') (h1 : k1 ≠ '\n') (h2 : k2 ≠ '\n') (h3 : k3 ≠ '\n') :
    ∀ c ∈ k0 :: k1 :: k2 :: k3 :: '=' :: natToChars n, c ≠ '\n' := by
  intro c hc
  simp only [List.mem_cons] at hc
  rcases hc with h | h | h | h | h | h
  · exact h ▸ h0
  · exact h ▸ h1
  · exact h ▸ h2
  · exact h ▸ h3
  · rw [h]; decide
  · exact ne_nl_of_digit c (natToChars_digits n c h)

theorem headerLine_last (k0 k1 k2 k3 : Char) (n : Nat) :
    ∀ c, (k0 :: k1 :: k2 :: k3 :: '=' :: natToChars n).getLast? = some c →
      isWsChar c = false := by
  intro c hc
  rw [show k0 :: k1 :: k2 :: k3 :: '=' :: natToChars n =
    [k0, k1, k2, k3, '='] ++ natToChars n from rfl] at hc
  rw [List.getLast?_append_of_ne_nil _ (natToChars_ne_nil n)] at hc
  exact not_ws_of_digit c (natToChars_digits n c (mem_of_getLast?_eq_some _ _ hc))

/-- Splitting, trimming and blank-line filtering of a rendered file with
a `rows=`/`cols=` header and one non-blank line per entry. -/
theorem lines_of_render (R C : Nat) (ls : List (List Char))
    (h1 : ∀ l ∈ ls, ∀ c ∈ l, c ≠ '\n')
    (h2 : ∀ l ∈ ls, l ≠ [])
    (h3 : ∀ l ∈ ls, ∀ c, l.head? = some c → isWsChar c = false)
    (h4 : ∀ l ∈ ls, ∀ c, l.getLast? = some c → isWsChar c = false) :
    ((splitOnNl (('r' :: 'o' :: 'w' :: 's' :: '=' :: natToChars R) ++ '\n' ::
        (('c' :: 'o' :: 'l' :: 's' :: '=' :: natToChars C) ++ '\n' ::
          ls.flatMap (fun l => l ++ ['\n'])))).map trimChars).filter (fun l => ¬ l.isEmpty) =
      ('r' :: 'o' :: 'w' :: 's' :: '=' :: natToChars R) ::
        ('c' :: 'o' :: 'l' :: 's' :: '=' :: natToChars C) :: ls := by
  rw [splitOnNl_append_cons _ _ (headerLine_ne_nl _ _ _ _ R (by decide) (by decide) (by decide) (by decide))]
  rw [splitOnNl_append_cons _ _ (headerLine_ne_nl _ _ _ _ C (by decide) (by decide) (by decide) (by decide))]
  rw [splitOnNl_flatMap_lines ls h1]
  rw [List.map_cons, List.map_cons, List.map_append, List.map_cons, List.map_nil]
  rw [trimChars_eq_self _ (by intro c hc; cases hc; decide) (headerLine_last _ _ _ _ R)]
  rw [trimChars_eq_self _ (by intro c hc; cases hc; decide) (headerLine_last _ _ _ _ C)]
  have hmap : ls.map trimChars = ls := by
    rw [List.map_congr_left (fun l hl => trimChars_eq_self l (h3 l hl) (h4 l hl))]
    exact List.map_id ls
  rw [hmap]
  rw [List.filter_cons, List.filter_cons, List.filter_append, List.filter_cons, List.filter_nil]
  have hkeepR : (decide ¬('r' :: 'o' :: 'w' :: 's' :: '=' :: natToChars R).isEmpty = true) = true := by
    simp
  have hkeepC : (decide ¬('c' :: 'o' :: 'l' :: 's' :: '=' :: natToChars C).isEmpty = true) = true := by
    simp
  have hfls : ls.filter (fun l => ¬ l.isEmpty) = ls :=
    List.filter_eq_self.mpr (fun l hl => by simp [isEmpty_false_of_ne_nil (h2 l hl)])
  have hdrop : (decide ¬(trimChars []).isEmpty = true) = false := by decide
  simp only [hkeepR, hkeepC, hdrop, Bool.false_eq_true, eq_self_iff_true, if_true, if_false,
    hfls, List.append_nil]

/-- Reduction of the codec on any rendered headered file. -/
theorem parseChars_of_shape (R C : Nat) (ls : List (List Char))
    (h1 : ∀ l ∈ ls, ∀ c ∈ l, c ≠ '\n')
    (h2 : ∀ l ∈ ls, l ≠ [])
    (h3 : ∀ l ∈ ls, ∀ c, l.head? = some c → isWsChar c = false)
    (h4 : ∀ l ∈ ls, ∀ c, l.getLast? = some c → isWsChar c = false) :
    parseChars (('r' :: 'o' :: 'w' :: 's' :: '=' :: natToChars R) ++ '\n' ::
      (('c' :: 'o' :: 'l' :: 's' :: '=' :: natToChars C) ++ '\n' ::
        ls.flatMap (fun l => l ++ ['\n']))) =
      parseLoop (SparseMatrix.mk (R : Int) (C : Int) []) ls := by
  have hlines := lines_of_render R C ls h1 h2 h3 h4
  have hrow : parseHeaderLine ['r', 'o', 'w', 's']
      ('r' :: 'o' :: 'w' :: 's' :: '=' :: natToChars R) = some R :=
    parseHeaderLine_render 'r' ['o', 'w', 's'] R (by decide)
  have hcol : parseHeaderLine ['c', 'o', 'l', 's']
      ('c' :: 'o' :: 'l' :: 's' :: '=' :: natToChars C) = some C :=
    parseHeaderLine_render 'c' ['o', 'l', 's'] C (by decide)
  unfold parseChars
  simp only [hlines, hrow, hcol]

theorem mapGet_append (l1 l2 : List (Key × Int)) (k : Key) :
    mapGet (l1 ++ l2) k =
      (match mapGet l1 k with
      | some v => some v
      | none => mapGet l2 k) := by
  induction l1 with
  | nil => simp [mapGet]
  | cons e es ih =>
    by_cases he : e.1 = k
    · simp [mapGet, he]
    · simp only [List.cons_append, mapGet, if_neg he]
      exact ih

theorem mapSet_of_absent (l : List (Key × Int)) (k : Key) (v : Int)
    (h : mapGet l k = none) : mapSet l k v = l ++ [(k, v)] := by
  induction l with
  | nil => rfl
  | cons e es ih =>
    by_cases he : e.1 = k
    · simp [mapGet, he] at h
    · simp only [mapGet, if_neg he] at h
      simp [mapSet, he, ih h]

/-- The parse loop on serialized entry lines with fresh, in-bounds,
non-zero entries appends exactly those entries. -/
theorem parseLoop_entryLines (ts : List (Key × Int)) :
    ∀ m : SparseMatrix,
      (∀ e ∈ ts, 0 ≤ e.1.1 ∧ e.1.1 < m.rows ∧ 0 ≤ e.1.2 ∧ e.1.2 < m.cols ∧ e.2 ≠ 0) →
      (ts.map (·.1)).Nodup →
      (∀ e ∈ ts, mapGet m.elements e.1 = none) →
      parseLoop m (ts.map entryLine) = .ok ⟨m.rows, m.cols, m.elements ++ ts⟩ := by
  induction ts with
  | nil =>
    intro m _ _ _
    simp only [List.map_nil, parseLoop, List.append_nil]
  | cons e ts ih =>
    intro m hb hnd habs
    obtain ⟨h1, h2, h3, h4, h5⟩ := hb e (List.mem_cons_self _ _)
    rw [List.map_cons, parseLoop]
    rw [parseTriple_entryLine e h1 h3]
    have hcast1 : ((e.1.1.toNat : Int)) = e.1.1 := Int.toNat_of_nonneg h1
    have hcast2 : ((e.1.2.toNat : Int)) = e.1.2 := Int.toNat_of_nonneg h3
    simp only [hcast1, hcast2]
    rw [if_neg (by omega)]
    have hset : setElement m e.1.1 e.1.2 e.2 =
        .ok ⟨m.rows, m.cols, m.elements ++ [e]⟩ := by
      rw [setElement_of_inbounds m _ _ _ (by omega)]
      rw [if_neg h5, Prod.mk.eta, mapSet_of_absent _ _ _ (habs e (List.mem_cons_self _ _)),
        Prod.mk.eta]
    rw [hset]
    have := ih ⟨m.rows, m.cols, m.elements ++ [e]⟩
      (fun e' he' => hb e' (List.mem_cons_of_mem _ he'))
      ((List.map_cons _ _ _ ▸ hnd).sublist (List.sublist_cons_self _ _))
      (fun e' he' => by
        rw [mapGet_append]
        rw [habs e' (List.mem_cons_of_mem _ he')]
        have hne : ¬ e.1 = e'.1 := by
          intro hc
          rw [List.map_cons, List.nodup_cons] at hnd
          exact hnd.1 (hc ▸ List.mem_map.mpr ⟨e', he', rfl⟩)
        simp [mapGet, hne])
    simp only [hset]
    rw [this]
    simp [List.append_assoc]

theorem parseTriple_renderTriple (t : Nat × Nat × Int) :
    parseTriple (renderTriple t) = some t := by
  unfold renderTriple
  rw [parseTriple_entryLine _ (by positivity) (by positivity)]
  simp

theorem lastWrite_acc (k : Key) (ts : List (Nat × Nat × Int)) :
    ∀ acc : Option Int,
      ts.foldl (fun acc t => if ((t.1 : Int), (t.2.1 : Int)) = k then some t.2.2 else acc) acc =
        (match lastWrite ts k with
        | some v => some v
        | none => acc) := by
  induction ts with
  | nil => intro acc; simp [lastWrite]
  | cons t ts ih =>
    intro acc
    rw [List.foldl_cons, ih]
    have hlw : lastWrite (t :: ts) k =
        (match lastWrite ts k with
        | some v => some v
        | none => if ((t.1 : Int), (t.2.1 : Int)) = k then some t.2.2 else none) := by
      rw [show lastWrite (t :: ts) k =
          ts.foldl (fun acc t => if ((t.1 : Int), (t.2.1 : Int)) = k then some t.2.2 else acc)
            (if ((t.1 : Int), (t.2.1 : Int)) = k then some t.2.2 else none) from rfl]
      exact ih _
    rw [hlw]
    rcases hl : lastWrite ts k with _ | v
    · simp only [hl]
      by_cases hc : ((t.1 : Int), (t.2.1 : Int)) = k <;> simp [hc]
    · simp [hl]

/-- The parse loop on rendered triples with in-bounds coordinates (values
and duplicate coordinates unrestricted): it succeeds and each coordinate
holds the value of its last triple, with zero removing the entry. -/
theorem parseLoop_render (ts : List (Nat × Nat × Int)) :
    ∀ m : SparseMatrix,
      (∀ t ∈ ts, (t.1 : Int) < m.rows ∧ (t.2.1 : Int) < m.cols) →
      ∃ m', parseLoop m (ts.map renderTriple) = .ok m' ∧
        m'.rows = m.rows ∧ m'.cols = m.cols ∧
        ∀ k, mapGet m'.elements k =
          (match lastWrite ts k with
          | some v => if v = 0 then none else some v
          | none => mapGet m.elements k) := by
  induction ts with
  | nil =>
    intro m _
    exact ⟨m, rfl, rfl, rfl, fun k => by simp [lastWrite]⟩
  | cons t ts ih =>
    intro m hb
    obtain ⟨h1, h2⟩ := hb t (List.mem_cons_self _ _)
    rw [List.map_cons, parseLoop]
    have hnb : ¬((t.1 : Int) < 0 ∨ (t.1 : Int) ≥ m.rows ∨ (t.2.1 : Int) < 0 ∨
        (t.2.1 : Int) ≥ m.cols) := by
      push_neg
      refine ⟨by positivity, h1, by positivity, h2⟩
    have hset := setElement_of_inbounds m (t.1 : Int) (t.2.1 : Int) t.2.2 hnb
    simp only [parseTriple_renderTriple t, if_neg hnb, hset]
    obtain ⟨m', hloop, hrows, hcols, hchar⟩ := ih
      ⟨m.rows, m.cols,
        if t.2.2 = 0 then mapDelete m.elements ((t.1 : Int), (t.2.1 : Int))
          else mapSet m.elements ((t.1 : Int), (t.2.1 : Int)) t.2.2⟩
      (fun t' ht' => hb t' (List.mem_cons_of_mem _ ht'))
    refine ⟨m', hloop, hrows, hcols, fun k => ?_⟩
    rw [hchar k]
    have hlw : lastWrite (t :: ts) k =
        (match lastWrite ts k with
        | some v => some v
        | none => if ((t.1 : Int), (t.2.1 : Int)) = k then some t.2.2 else none) := by
      rw [show lastWrite (t :: ts) k =
          ts.foldl (fun acc t => if ((t.1 : Int), (t.2.1 : Int)) = k then some t.2.2 else acc)
            (if ((t.1 : Int), (t.2.1 : Int)) = k then some t.2.2 else none) from rfl]
      exact lastWrite_acc k ts _
    rw [hlw]
    rcases lastWrite ts k with _ | v
    · by_cases hk : ((t.1 : Int), (t.2.1 : Int)) = k
      · subst hk
        by_cases hv : t.2.2 = 0
        · simp [hv, mapGet_mapDelete_self]
        · simp [hv, mapGet_mapSet_self]
      · have hk' : k ≠ ((t.1 : Int), (t.2.1 : Int)) := Ne.symm hk
        by_cases hv : t.2.2 = 0
        · simp [hk, hv, mapGet_mapDelete_ne _ _ _ hk']
        · simp [hk, hv, mapGet_mapSet_ne _ _ _ _ hk']
    · rfl

/-- C3: parsing the text produced by serializing a well-formed store
yields a store with the same dimensions and the same set of (row, col,
value) entries (as a permutation of the entry list). -/
theorem C3_round_trip (m : SparseMatrix) (h : WF m) :
    ∃ m', loadFromString (toStringFn m) = .ok m' ∧
      m'.rows = m.rows ∧ m'.cols = m.cols ∧ m'.elements.Perm m.elements := by
  obtain ⟨hr, hc, hnd, hb⟩ := h
  have hperm : (sortEntries m.elements).Perm m.elements :=
    List.perm_insertionSort entryLE m.elements
  have hbs : ∀ e ∈ sortEntries m.elements,
      0 ≤ e.1.1 ∧ e.1.1 < m.rows ∧ 0 ≤ e.1.2 ∧ e.1.2 < m.cols ∧ e.2 ≠ 0 :=
    fun e he => hb e (hperm.mem_iff.mp he)
  have hnds : ((sortEntries m.elements).map (·.1)).Nodup :=
    ((hperm.map (·.1)).nodup_iff).mpr (show (m.elements.map (·.1)).Nodup from hnd)
  have hflat : (sortEntries m.elements).flatMap (fun e => entryLine e ++ ['\n']) =
      ((sortEntries m.elements).map entryLine).flatMap (fun l => l ++ ['\n']) := by
    induction sortEntries m.elements with
    | nil => rfl
    | cons a as ih => simp [ih]
  have hser : serializeChars m =
      ('r' :: 'o' :: 'w' :: 's' :: '=' :: natToChars m.rows.toNat) ++ '\n' ::
        (('c' :: 'o' :: 'l' :: 's' :: '=' :: natToChars m.cols.toNat) ++ '\n' ::
          ((sortEntries m.elements).map entryLine).flatMap (fun l => l ++ ['\n'])) := by
    unfold serializeChars
    rw [intToChars_of_nonneg _ hr, intToChars_of_nonneg _ hc, hflat]
  rw [show loadFromString (toStringFn m) = parseChars (serializeChars m) from rfl, hser]
  rw [parseChars_of_shape m.rows.toNat m.cols.toNat _
    (fun l hl => by obtain ⟨e, -, rfl⟩ := List.mem_map.mp hl; exact entryLine_ne_nl e)
    (fun l hl => by obtain ⟨e, -, rfl⟩ := List.mem_map.mp hl; exact entryLine_ne_nil e)
    (fun l hl => by obtain ⟨e, -, rfl⟩ := List.mem_map.mp hl; exact entryLine_head e)
    (fun l hl => by obtain ⟨e, -, rfl⟩ := List.mem_map.mp hl; exact entryLine_last e)]
  rw [show ((m.rows.toNat : Int)) = m.rows from Int.toNat_of_nonneg hr,
    show ((m.cols.toNat : Int)) = m.cols from Int.toNat_of_nonneg hc]
  rw [parseLoop_entryLines (sortEntries m.elements) ⟨m.rows, m.cols, []⟩ hbs hnds
    (fun _ _ => rfl)]
  exact ⟨_, rfl, rfl, rfl, hperm⟩

/-- C3 witness: round-trip at the concrete fixture A. -/
theorem C3_witness :
    ∃ m', loadFromString (toStringFn fixA) = .ok m' ∧
      m'.rows = fixA.rows ∧ m'.cols = fixA.cols ∧ m'.elements.Perm fixA.elements :=
  C3_round_trip fixA (by decide)

/-- The parse loop over concatenated line lists runs left to right. -/
theorem parseLoop_append (l1 l2 : List (List Char)) :
    ∀ m, parseLoop m (l1 ++ l2) =
      (match parseLoop m l1 with
      | .ok m1 => parseLoop m1 l2
      | .error e => .error e) := by
  induction l1 with
  | nil => intro m; rfl
  | cons line rest ih =>
    intro m
    rw [List.cons_append, parseLoop, parseLoop]
    rcases ht : parseTriple line with _ | ⟨r, c, v⟩
    · rfl
    · simp only
      split
      · rfl
      · rcases hset : setElement m (r : Int) (c : Int) v with e | m1
        · rfl
        · exact ih m1

/-- Rendered entry lines satisfy the line-shape conditions. -/
theorem renderTriple_shape (ts : List (Nat × Nat × Int)) :
    (∀ l ∈ ts.map renderTriple, ∀ c ∈ l, c ≠ '\n') ∧
    (∀ l ∈ ts.map renderTriple, l ≠ []) ∧
    (∀ l ∈ ts.map renderTriple, ∀ c, l.head? = some c → isWsChar c = false) ∧
    (∀ l ∈ ts.map renderTriple, ∀ c, l.getLast? = some c → isWsChar c = false) :=
  ⟨fun l hl => by obtain ⟨t, -, rfl⟩ := List.mem_map.mp hl; exact entryLine_ne_nl _,
    fun l hl => by obtain ⟨t, -, rfl⟩ := List.mem_map.mp hl; exact entryLine_ne_nil _,
    fun l hl => by obtain ⟨t, -, rfl⟩ := List.mem_map.mp hl; exact entryLine_head _,
    fun l hl => by obtain ⟨t, -, rfl⟩ := List.mem_map.mp hl; exact entryLine_last _⟩

/-- Reduction of the whole codec on a rendered triple file. -/
theorem parseChars_renderFile (R C : Nat) (ts : List (Nat × Nat × Int)) :
    parseChars (renderFile R C ts) =
      parseLoop (SparseMatrix.mk (R : Int) (C : Int) []) (ts.map renderTriple) := by
  have hflat : ts.flatMap (fun t => renderTriple t ++ ['\n']) =
      (ts.map renderTriple).flatMap (fun l => l ++ ['\n']) := by
    induction ts with
    | nil => rfl
    | cons a as ih => simp [ih]
  obtain ⟨s1, s2, s3, s4⟩ := renderTriple_shape ts
  unfold renderFile
  rw [hflat, parseChars_of_shape R C _ s1 s2 s3 s4]

/-- The primary `loadFromFile` on a well-formed in-bounds file with
duplicate (row, col) triples: it parses successfully and every
coordinate ends with the value of its last triple in file order, a
trailing zero leaving no stored entry. -/
theorem parseFile_dup_last_wins (R C : Nat) (ts : List (Nat × Nat × Int))
    (hb : ∀ t ∈ ts, t.1 < R ∧ t.2.1 < C)
    (_hdup : ¬ (ts.map (fun t => (t.1, t.2.1))).Nodup) :
    ∃ m, loadFromString (String.mk (renderFile R C ts)) = .ok m ∧
      m.rows = R ∧ m.cols = C ∧
      ∀ k, mapGet m.elements k =
        (match lastWrite ts k with
        | some v => if v = 0 then none else some v
        | none => none) := by
  rw [show loadFromString (String.mk (renderFile R C ts)) = parseChars (renderFile R C ts)
    from rfl]
  rw [parseChars_renderFile R C ts]
  obtain ⟨m', hloop, hrows, hcols, hchar⟩ := parseLoop_render ts
    (SparseMatrix.mk (R : Int) (C : Int) [])
    (fun t ht => ⟨by show (t.1 : Int) < (R : Int); exact_mod_cast (hb t ht).1,
      by show (t.2.1 : Int) < (C : Int); exact_mod_cast (hb t ht).2⟩)
  refine ⟨m', hloop, hrows, hcols, fun k => ?_⟩
  rw [hchar k]
  rcases lastWrite ts k with _ | v <;> rfl

/-- C7 counterexample: an out-of-bounds triple in a rows=2/cols=2 file
produces exactly the same error as a grammatically malformed entry — the
generic wrong-format error — so the error kind is NOT a distinct
IndexOutOfBounds carrying row/col and dimensions. -/
theorem C7_counterexample :
    loadFromString "rows=2\ncols=2\n(5,0,1)" = .error wrongFormatMsg ∧
    loadFromString "rows=2\ncols=2\n(0,0)" = .error wrongFormatMsg ∧
    wrongFormatMsg = "Input file has wrong format" := by
  decide

/-- C7 (amended): a grammatically well-formed file whose triple falls
outside the declared dimensions fails — no partial store is returned —
but with the generic wrong-format error (the same kind used for
malformed lines); row/col and dimensions are only written to the console
log, not carried by the error. -/
theorem C7_oob_generic_error (R C : Nat) (ts : List (Nat × Nat × Int))
    (t : Nat × Nat × Int) (rest : List (Nat × Nat × Int))
    (hb : ∀ t' ∈ ts, t'.1 < R ∧ t'.2.1 < C)
    (hoob : R ≤ t.1 ∨ C ≤ t.2.1) :
    loadFromString (String.mk (renderFile R C (ts ++ t :: rest))) = .error wrongFormatMsg := by
  rw [show loadFromString (String.mk (renderFile R C (ts ++ t :: rest))) =
    parseChars (renderFile R C (ts ++ t :: rest)) from rfl]
  rw [parseChars_renderFile R C _, List.map_append, parseLoop_append]
  obtain ⟨m1, hloop, hrows, hcols, -⟩ := parseLoop_render ts
    (SparseMatrix.mk (R : Int) (C : Int) [])
    (fun t' ht' => ⟨by show (t'.1 : Int) < (R : Int); exact_mod_cast (hb t' ht').1,
      by show (t'.2.1 : Int) < (C : Int); exact_mod_cast (hb t' ht').2⟩)
  simp only [hloop, List.map_cons]
  rw [parseLoop]
  have hcond : ((t.1 : Int) < 0 ∨ (t.1 : Int) ≥ m1.rows ∨ (t.2.1 : Int) < 0 ∨
      (t.2.1 : Int) ≥ m1.cols) := by
    have hR : m1.rows = (R : Int) := hrows
    have hC : m1.cols = (C : Int) := hcols
    rcases hoob with h | h
    · exact Or.inr (Or.inl (by rw [hR]; exact_mod_cast h))
    · exact Or.inr (Or.inr (Or.inr (by rw [hC]; exact_mod_cast h)))
  simp only [parseTriple_renderTriple t, if_pos hcond]

/-- C7 amended-claim witness: a concrete rows=2/cols=2 file containing
the entry (5,0,1). -/
theorem C7_witness :
    loadFromString (String.mk (renderFile 2 2 ([] ++ (5, 0, 1) :: []))) =
      .error wrongFormatMsg :=
  C7_oob_generic_error 2 2 [] (5, 0, 1) [] (by decide) (by decide)

/-! ## Index construction in `multiply` -/

theorem lookupIdx_addToIndex_self (idx : List (Int × List Int)) (k v : Int) :
    lookupIdx (addToIndex idx k v) k = some ((lookupIdx idx k).getD [] ++ [v]) := by
  induction idx with
  | nil => simp [addToIndex, lookupIdx]
  | cons e es ih =>
    by_cases he : e.1 = k
    · simp [addToIndex, he, lookupIdx]
    · simp [addToIndex, he, lookupIdx, ih]

theorem lookupIdx_addToIndex_ne (idx : List (Int × List Int)) (k k' v : Int) (h : k' ≠ k) :
    lookupIdx (addToIndex idx k v) k' = lookupIdx idx k' := by
  induction idx with
  | nil => simp [addToIndex, lookupIdx, Ne.symm h]
  | cons e es ih =>
    by_cases he : e.1 = k
    · have hne : ¬ k = k' := Ne.symm h
      simp [addToIndex, he, lookupIdx, hne]
    · by_cases he' : e.1 = k'
      · simp [addToIndex, he, lookupIdx, he', h]
      · simp [addToIndex, he, lookupIdx, he', ih]

theorem mem_keys_addToIndex (idx : List (Int × List Int)) (k k' v : Int) :
    k' ∈ (addToIndex idx k v).map (·.1) ↔ k' ∈ idx.map (·.1) ∨ k' = k := by
  induction idx with
  | nil => simp [addToIndex]
  | cons e es ih =>
    by_cases he : e.1 = k
    · simp only [addToIndex, if_pos he, List.map_cons, List.mem_cons]
      rw [he]
      tauto
    · simp only [addToIndex, if_neg he, List.map_cons, List.mem_cons, ih]
      tauto

theorem nodup_keys_addToIndex (idx : List (Int × List Int)) (k v : Int)
    (h : (idx.map (·.1)).Nodup) : ((addToIndex idx k v).map (·.1)).Nodup := by
  induction idx with
  | nil => simp [addToIndex]
  | cons e es ih =>
    rw [List.map_cons, List.nodup_cons] at h
    by_cases he : e.1 = k
    · simp only [addToIndex, if_pos he, List.map_cons, List.nodup_cons]
      exact ⟨h.1, h.2⟩
    · simp only [addToIndex, if_neg he, List.map_cons, List.nodup_cons]
      refine ⟨fun hc => ?_, ih h.2⟩
      rcases (mem_keys_addToIndex es k e.1 v).mp hc with hc' | hc'
      · exact h.1 hc'
      · exact he hc'

theorem lookupIdx_eq_none_iff (idx : List (Int × List Int)) (k : Int) :
    lookupIdx idx k = none ↔ k ∉ idx.map (·.1) := by
  induction idx with
  | nil => simp [lookupIdx]
  | cons e es ih =>
    rw [List.map_cons, List.mem_cons]
    by_cases h : e.1 = k
    · simp [lookupIdx, h]
    · rw [lookupIdx, if_neg h, ih]
      constructor
      · rintro hk (hc | hc)
        · exact h hc.symm
        · exact hk hc
      · intro hk hc
        exact hk (Or.inr hc)

theorem lookupIdx_of_mem_nodup (idx : List (Int × List Int)) (e : Int × List Int)
    (he : e ∈ idx) (hnd : (idx.map (·.1)).Nodup) : lookupIdx idx e.1 = some e.2 := by
  induction idx with
  | nil => simp at he
  | cons e0 es ih =>
    rcases List.mem_cons.mp he with h | h
    · rw [h, lookupIdx, if_pos rfl]
    · have hne : ¬ e0.1 = e.1 := by
        intro hc
        have : e.1 ∈ es.map (·.1) := List.mem_map.mpr ⟨e, h, rfl⟩
        rw [List.map_cons, List.nodup_cons] at hnd
        exact hnd.1 (hc ▸ this)
      rw [lookupIdx, if_neg hne]
      exact ih h (by rw [List.map_cons, List.nodup_cons] at hnd; exact hnd.2)

/-- Characterization of the generic index-building fold used by
`buildRowIndex` and `buildColIndex`: the list stored under key `k` after
the fold is whatever was there before followed by the projections of the
matching entries, in order. -/
theorem lookupIdx_fold (f g : (Key × Int) → Int) (l : List (Key × Int)) :
    ∀ (idx : List (Int × List Int)) (k : Int),
      lookupIdx (l.foldl (fun idx e => addToIndex idx (f e) (g e)) idx) k =
        (match lookupIdx idx k with
        | some cs => some (cs ++ (l.filter (fun e => f e = k)).map g)
        | none =>
          match (l.filter (fun e => f e = k)).map g with
          | [] => none
          | fl => some fl) := by
  induction l with
  | nil =>
    intro idx k
    rcases h : lookupIdx idx k with _ | cs <;> simp [List.filter_nil, h]
  | cons e l ih =>
    intro idx k
    rw [List.foldl_cons, ih]
    by_cases he : f e = k
    · rw [he, lookupIdx_addToIndex_self]
      rw [List.filter_cons_of_pos (by simp [he]), List.map_cons]
      rcases h : lookupIdx idx k with _ | cs
      · simp [h]
      · simp [h, List.append_assoc]
    · rw [lookupIdx_addToIndex_ne _ _ _ _ (fun hc => he hc.symm)]
      rw [List.filter_cons_of_neg (by simp [he])]

theorem nodup_keys_fold (f g : (Key × Int) → Int) (l : List (Key × Int)) :
    ∀ idx : List (Int × List Int), (idx.map (·.1)).Nodup →
      ((l.foldl (fun idx e => addToIndex idx (f e) (g e)) idx).map (·.1)).Nodup := by
  induction l with
  | nil => exact fun idx h => h
  | cons e l ih =>
    intro idx h
    rw [List.foldl_cons]
    exact ih _ (nodup_keys_addToIndex idx (f e) (g e) h)

theorem nodup_keys_buildRowIndex (l : List (Key × Int)) :
    ((buildRowIndex l).map (·.1)).Nodup :=
  nodup_keys_fold (·.1.1) (·.1.2) l [] (by simp)

theorem lookupIdx_buildRowIndex (l : List (Key × Int)) (i : Int) :
    lookupIdx (buildRowIndex l) i =
      (match (l.filter (fun e => e.1.1 = i)).map (·.1.2) with
      | [] => none
      | fl => some fl) :=
  lookupIdx_fold (·.1.1) (·.1.2) l [] i

theorem lookupIdx_buildColIndex (l : List (Key × Int)) (j : Int) :
    lookupIdx (buildColIndex l) j =
      (match (l.filter (fun e => e.1.2 = j)).map (·.1.1) with
      | [] => none
      | fl => some fl) :=
  lookupIdx_fold (·.1.2) (·.1.1) l [] j

theorem colIndex_getD (l : List (Key × Int)) (j : Int) :
    (lookupIdx (buildColIndex l) j).getD [] = (l.filter (fun e => e.1.2 = j)).map (·.1.1) := by
  rw [lookupIdx_buildColIndex]
  rcases h : (l.filter (fun e => e.1.2 = j)).map (·.1.1) with _ | ⟨x, xs⟩ <;> simp [h]

theorem mem_rowsB_iff (l : List (Key × Int)) (j k : Int) :
    k ∈ (lookupIdx (buildColIndex l) j).getD [] ↔ ∃ e ∈ l, e.1 = (k, j) := by
  rw [colIndex_getD]
  constructor
  · intro hk
    obtain ⟨e, he, hek⟩ := List.mem_map.mp hk
    have := (List.mem_filter.mp he).2
    refine ⟨e, (List.mem_filter.mp he).1, ?_⟩
    have hj : e.1.2 = j := by simpa using this
    rw [Prod.ext_iff]
    exact ⟨hek, hj⟩
  · rintro ⟨e, he, hek⟩
    refine List.mem_map.mpr ⟨e, List.mem_filter.mpr ⟨he, by simp [hek]⟩, by simp [hek]⟩

theorem rowIndex_mem_iff (l : List (Key × Int)) (i : Int) :
    i ∈ (buildRowIndex l).map (·.1) ↔ ∃ e ∈ l, e.1.1 = i := by
  rw [← not_iff_not, ← lookupIdx_eq_none_iff, lookupIdx_buildRowIndex]
  rcases h : (l.filter (fun e => e.1.1 = i)).map (·.1.2) with _ | ⟨x, xs⟩
  · simp only [h, eq_self_iff_true, true_iff]
    rintro ⟨e, he, hei⟩
    have hmem : e.1.2 ∈ (l.filter (fun e => e.1.1 = i)).map (·.1.2) :=
      List.mem_map.mpr ⟨e, List.mem_filter.mpr ⟨he, by simp [hei]⟩, rfl⟩
    rw [h] at hmem
    simp at hmem
  · simp only [h]
    constructor
    · intro hc
      exact absurd hc (by simp)
    · intro hne
      exfalso
      apply hne
      have hx : x ∈ (l.filter (fun e => e.1.1 = i)).map (·.1.2) := by
        rw [h]
        exact List.mem_cons_self _ _
      obtain ⟨e, he, -⟩ := List.mem_map.mp hx
      exact ⟨e, (List.mem_filter.mp he).1, by simpa using (List.mem_filter.mp he).2⟩

/-! ## The intersected sum equals the mathematical sum -/

theorem foldl_add_ite (P : Int → Prop) [DecidablePred P] (t : Int → Int) (l : List Int) :
    ∀ s : Int, l.foldl (fun s x => if P x then s + t x else s) s =
      s + (l.map (fun x => if P x then t x else 0)).sum := by
  induction l with
  | nil => intro s; simp
  | cons x xs ih =>
    intro s
    rw [List.foldl_cons]
    by_cases hx : P x
    · rw [if_pos hx, ih, List.map_cons, if_pos hx, List.sum_cons]
      ring
    · rw [if_neg hx, ih, List.map_cons, if_neg hx, List.sum_cons]
      ring

theorem rowColSum_eq_sum (a b : SparseMatrix) (rowsB : List Int) (ra : Int)
    (colsA : List Int) (colB : Int) :
    rowColSum a b rowsB ra colsA colB =
      (colsA.map (fun colA =>
        if colA ∈ rowsB then getElement a ra colA * getElement b colA colB else 0)).sum := by
  unfold rowColSum
  rw [foldl_add_ite (· ∈ rowsB) (fun colA => getElement a ra colA * getElement b colA colB)
    colsA 0]
  simp

theorem getElement_eq_zero_of_none (m : SparseMatrix) (i j : Int)
    (h : mapGet m.elements (i, j) = none) : getElement m i j = 0 := by
  simp [getElement, h]

theorem getElement_eq_zero_of_no_entry (m : SparseMatrix) (i j : Int)
    (h : ∀ e ∈ m.elements, e.1 ≠ (i, j)) : getElement m i j = 0 :=
  getElement_eq_zero_of_none m i j ((mapGet_eq_none_iff _ _).mpr
    (fun hc => by obtain ⟨e, he, hek⟩ := List.mem_map.mp hc; exact h e he hek))

theorem nodup_snd_of_constant_fst (ks : List (Int × Int)) (i : Int) (hnd : ks.Nodup)
    (hall : ∀ x ∈ ks, x.1 = i) : (ks.map (·.2)).Nodup := by
  induction ks with
  | nil => simp
  | cons k ks ih =>
    rw [List.nodup_cons] at hnd
    rw [List.map_cons, List.nodup_cons]
    refine ⟨fun hc => ?_, ih hnd.2 (fun x hx => hall x (List.mem_cons_of_mem _ hx))⟩
    obtain ⟨y, hy, hyk⟩ := List.mem_map.mp hc
    have : y = k := by
      rw [Prod.ext_iff]
      exact ⟨(hall y (List.mem_cons_of_mem _ hy)).trans
        (hall k (List.mem_cons_self _ _)).symm, hyk⟩
    exact hnd.1 (this ▸ hy)

/-- The column positions of row `i`'s entries. -/
theorem mem_rowCols_iff (l : List (Key × Int)) (i c : Int) :
    c ∈ (l.filter (fun e => e.1.1 = i)).map (·.1.2) ↔ ∃ e ∈ l, e.1 = (i, c) := by
  constructor
  · intro hk
    obtain ⟨e, he, hek⟩ := List.mem_map.mp hk
    refine ⟨e, (List.mem_filter.mp he).1, ?_⟩
    rw [Prod.ext_iff]
    exact ⟨by simpa using (List.mem_filter.mp he).2, hek⟩
  · rintro ⟨e, he, hek⟩
    exact List.mem_map.mpr ⟨e, List.mem_filter.mpr ⟨he, by simp [hek]⟩, by simp [hek]⟩

theorem nodup_rowCols (l : List (Key × Int)) (i : Int)
    (hnd : (l.map (·.1)).Nodup) :
    ((l.filter (fun e => e.1.1 = i)).map (·.1.2)).Nodup := by
  have h1 : ((l.filter (fun e => e.1.1 = i)).map (·.1)).Nodup :=
    hnd.sublist ((List.filter_sublist l).map (·.1))
  have h2 : ∀ x ∈ (l.filter (fun e => e.1.1 = i)).map (·.1), x.1 = i := by
    intro x hx
    obtain ⟨e, he, hek⟩ := List.mem_map.mp hx
    rw [← hek]
    simpa using (List.mem_filter.mp he).2
  have := nodup_snd_of_constant_fst _ i h1 h2
  rw [List.map_map] at this
  exact this

/-- Core sum identity: summing the products over any duplicate-free list
of columns that covers every non-zero term equals `dotSum`. -/
theorem sum_over_cols_eq_dotSum (a b : SparseMatrix) (i j : Int) (cs : List Int)
    (hnd : cs.Nodup)
    (hsub : ∀ k ∈ cs, 0 ≤ k ∧ k < a.cols)
    (hout : ∀ k, 0 ≤ k → k < a.cols → k ∉ cs → getElement a i k * getElement b k j = 0) :
    (cs.map (fun k => getElement a i k * getElement b k j)).sum = dotSum a b i j := by
  rw [← List.sum_toFinset _ hnd]
  unfold dotSum
  refine Finset.sum_subset ?_ ?_
  · intro k hk
    have := hsub k (List.mem_toFinset.mp hk)
    exact Finset.mem_Ico.mpr ⟨this.1, this.2⟩
  · intro k hk hnk
    have hm := Finset.mem_Ico.mp hk
    exact hout k hm.1 hm.2 (fun hmem => hnk (List.mem_toFinset.mpr hmem))

/-- The code's intersected row-column sum computes exactly the
mathematical entry `Σ_k A(i,k)·B(k,j)`. -/
theorem rowColSum_eq_dotSum (a b : SparseMatrix) (hA : WF a) (i j : Int) :
    rowColSum a b ((lookupIdx (buildColIndex b.elements) j).getD []) i
      ((a.elements.filter (fun e => e.1.1 = i)).map (·.1.2)) j = dotSum a b i j := by
  obtain ⟨-, -, hndA, hbA⟩ := hA
  rw [rowColSum_eq_sum]
  have hcongr : ((a.elements.filter (fun e => e.1.1 = i)).map (·.1.2)).map
      (fun colA => if colA ∈ (lookupIdx (buildColIndex b.elements) j).getD [] then
        getElement a i colA * getElement b colA j else 0) =
      ((a.elements.filter (fun e => e.1.1 = i)).map (·.1.2)).map
        (fun k => getElement a i k * getElement b k j) := by
    refine List.map_congr_left (fun k hk => ?_)
    by_cases hmem : k ∈ (lookupIdx (buildColIndex b.elements) j).getD []
    · rw [if_pos hmem]
    · rw [if_neg hmem]
      have hno : ∀ e ∈ b.elements, e.1 ≠ (k, j) := by
        intro e he hc
        exact hmem ((mem_rowsB_iff b.elements j k).mpr ⟨e, he, hc⟩)
      rw [getElement_eq_zero_of_no_entry b k j hno, mul_zero]
  rw [hcongr]
  refine sum_over_cols_eq_dotSum a b i j _ (nodup_rowCols a.elements i hndA) ?_ ?_
  · intro k hk
    obtain ⟨e, he, hek⟩ := (mem_rowCols_iff a.elements i k).mp hk
    obtain ⟨-, -, h3, h4, -⟩ := hbA e he
    rw [hek] at h3 h4
    exact ⟨h3, h4⟩
  · intro k _ _ hk
    have hno : ∀ e ∈ a.elements, e.1 ≠ (i, k) := by
      intro e he hc
      exact hk ((mem_rowCols_iff a.elements i k).mpr ⟨e, he, hc⟩)
    rw [getElement_eq_zero_of_no_entry a i k hno, zero_mul]

/-- Behaviour of the inner column loop of `multiply` for one row of `a`. -/
theorem mul1_inner_fold (a b : SparseMatrix) (ra : Int) (colsA : List Int) :
    ∀ (cbs : List Nat) (m : SparseMatrix), cbs.Nodup →
      (∀ cb ∈ cbs, (cb : Int) < m.cols) → 0 ≤ ra → ra < m.rows →
      ∃ m', (cbs.foldlM (fun result (cb : Nat) =>
          if rowColSum a b ((lookupIdx (buildColIndex b.elements) (cb : Int)).getD [])
              ra colsA (cb : Int) ≠ 0 then
            setElement result ra (cb : Int)
              (rowColSum a b ((lookupIdx (buildColIndex b.elements) (cb : Int)).getD [])
                ra colsA (cb : Int))
          else pure result) m) = .ok m' ∧
        m'.rows = m.rows ∧ m'.cols = m.cols ∧
        (∀ cb ∈ cbs, mapGet m'.elements (ra, (cb : Int)) =
          (if rowColSum a b ((lookupIdx (buildColIndex b.elements) (cb : Int)).getD [])
              ra colsA (cb : Int) = 0 then mapGet m.elements (ra, (cb : Int))
            else some (rowColSum a b
              ((lookupIdx (buildColIndex b.elements) (cb : Int)).getD []) ra colsA (cb : Int)))) ∧
        (∀ k : Key, (∀ cb ∈ cbs, k ≠ (ra, (cb : Int))) →
          mapGet m'.elements k = mapGet m.elements k) := by
  intro cbs
  induction cbs with
  | nil =>
    intro m _ _ _ _
    exact ⟨m, rfl, rfl, rfl, by simp, fun k _ => rfl⟩
  | cons cb cbs ih =>
    intro m hnd hlt h0 hlt'
    rw [List.nodup_cons] at hnd
    rw [List.foldlM_cons]
    by_cases hS : rowColSum a b ((lookupIdx (buildColIndex b.elements) (cb : Int)).getD [])
        ra colsA (cb : Int) = 0
    · rw [if_neg (by simp [hS])]
      obtain ⟨m', hfold, hrows, hcols, hhit, hmiss⟩ := ih m hnd.2
        (fun cb' hcb' => hlt cb' (List.mem_cons_of_mem _ hcb')) h0 hlt'
      refine ⟨m', by rw [pure_bind]; exact hfold, hrows, hcols, ?_, ?_⟩
      · intro cb' hcb'
        rcases List.mem_cons.mp hcb' with h | h
        · subst h
          rw [if_pos hS]
          exact hmiss _ (fun cb'' hcb'' hc => hnd.1 (by
            have : (cb' : Int) = (cb'' : Int) := congrArg Prod.snd hc
            have : cb' = cb'' := by exact_mod_cast this
            exact this ▸ hcb''))
        · exact hhit cb' h
      · intro k hk
        exact hmiss k (fun cb' hcb' => hk cb' (List.mem_cons_of_mem _ hcb'))
    · rw [if_pos hS]
      have hnb : ¬(ra < 0 ∨ ra ≥ m.rows ∨ (cb : Int) < 0 ∨ (cb : Int) ≥ m.cols) := by
        push_neg
        exact ⟨h0, hlt', by positivity, hlt cb (List.mem_cons_self _ _)⟩
      have hset := setElement_of_inbounds m ra (cb : Int)
        (rowColSum a b ((lookupIdx (buildColIndex b.elements) (cb : Int)).getD [])
          ra colsA (cb : Int)) hnb
      rw [if_neg hS] at hset
      rw [hset]
      obtain ⟨m', hfold, hrows, hcols, hhit, hmiss⟩ := ih
        ⟨m.rows, m.cols, mapSet m.elements (ra, (cb : Int))
          (rowColSum a b ((lookupIdx (buildColIndex b.elements) (cb : Int)).getD [])
            ra colsA (cb : Int))⟩ hnd.2
        (fun cb' hcb' => hlt cb' (List.mem_cons_of_mem _ hcb')) h0 hlt'
      refine ⟨m', hfold, hrows, hcols, ?_, ?_⟩
      · intro cb' hcb'
        rcases List.mem_cons.mp hcb' with h | h
        · subst h
          rw [if_neg hS]
          rw [hmiss _ (fun cb'' hcb'' hc => hnd.1 (by
            have hcast : (cb' : Int) = (cb'' : Int) := congrArg Prod.snd hc
            have : cb' = cb'' := by exact_mod_cast hcast
            exact this ▸ hcb''))]
          exact mapGet_mapSet_self _ _ _
        · rw [hhit cb' h]
          have hne : ((ra, (cb' : Int)) : Key) ≠ (ra, (cb : Int)) := by
            intro hc
            have hcast : (cb' : Int) = (cb : Int) := congrArg Prod.snd hc
            have : cb' = cb := by exact_mod_cast hcast
            exact hnd.1 (this ▸ h)
          rw [show mapGet (⟨m.rows, m.cols, mapSet m.elements (ra, (cb : Int))
              (rowColSum a b ((lookupIdx (buildColIndex b.elements) (cb : Int)).getD [])
                ra colsA (cb : Int))⟩ : SparseMatrix).elements (ra, (cb' : Int)) =
              mapGet m.elements (ra, (cb' : Int)) from
            mapGet_mapSet_ne _ _ _ _ hne]
      · intro k hk
        rw [hmiss k (fun cb' hcb' => hk cb' (List.mem_cons_of_mem _ hcb'))]
        exact mapGet_mapSet_ne _ _ _ _ (hk cb (List.mem_cons_self _ _))

/-- Behaviour of the whole row loop of `multiply`. -/
theorem mul1_outer_fold (a b : SparseMatrix) (rs : List (Int × List Int)) :
    ∀ m : SparseMatrix, (rs.map (·.1)).Nodup →
      (∀ e ∈ rs, 0 ≤ e.1 ∧ e.1 < m.rows) → m.cols = b.cols →
      ∃ m', (rs.foldlM (fun result (e : Int × List Int) =>
          (List.range b.cols.toNat).foldlM (fun result (cb : Nat) =>
            if rowColSum a b ((lookupIdx (buildColIndex b.elements) (cb : Int)).getD [])
                e.1 e.2 (cb : Int) ≠ 0 then
              setElement result e.1 (cb : Int)
                (rowColSum a b ((lookupIdx (buildColIndex b.elements) (cb : Int)).getD [])
                  e.1 e.2 (cb : Int))
            else pure result) result) m) = .ok m' ∧
        m'.rows = m.rows ∧ m'.cols = m.cols ∧
        (∀ e ∈ rs, ∀ cb ∈ List.range b.cols.toNat,
          mapGet m'.elements (e.1, (cb : Int)) =
            (if rowColSum a b ((lookupIdx (buildColIndex b.elements) (cb : Int)).getD [])
                e.1 e.2 (cb : Int) = 0 then mapGet m.elements (e.1, (cb : Int))
              else some (rowColSum a b
                ((lookupIdx (buildColIndex b.elements) (cb : Int)).getD []) e.1 e.2 (cb : Int)))) ∧
        (∀ k : Key, (∀ e ∈ rs, ∀ cb ∈ List.range b.cols.toNat, k ≠ (e.1, (cb : Int))) →
          mapGet m'.elements k = mapGet m.elements k) := by
  induction rs with
  | nil =>
    intro m _ _ _
    exact ⟨m, rfl, rfl, rfl, by simp, fun k _ => rfl⟩
  | cons e rs ih =>
    intro m hnd hb hc
    rw [List.map_cons, List.nodup_cons] at hnd
    obtain ⟨he0, he1⟩ := hb e (List.mem_cons_self _ _)
    obtain ⟨m1, hfold1, hrows1, hcols1, hhit1, hmiss1⟩ :=
      mul1_inner_fold a b e.1 e.2 (List.range b.cols.toNat) m (List.nodup_range _)
      (fun cb hcb => by
        rw [hc]
        have := List.mem_range.mp hcb
        omega) he0 he1
    obtain ⟨m', hfold, hrows, hcols, hhit, hmiss⟩ := ih m1 hnd.2
      (fun e' he' => by
        obtain ⟨g1, g2⟩ := hb e' (List.mem_cons_of_mem _ he')
        rw [hrows1]
        exact ⟨g1, g2⟩) (by rw [hcols1, hc])
    rw [List.foldlM_cons]
    refine ⟨m', ?_, by rw [hrows, hrows1], by rw [hcols, hcols1], ?_, ?_⟩
    · rw [hfold1]
      exact hfold
    · intro e' he' cb hcb
      rcases List.mem_cons.mp he' with h | h
      · subst h
        rw [hmiss _ (fun e'' he'' cb' hcb' hcstep => hnd.1 (by
          have : e'.1 = e''.1 := (Prod.ext_iff.mp hcstep).1
          exact this ▸ List.mem_map.mpr ⟨e'', he'', rfl⟩))]
        exact hhit1 cb hcb
      · rw [hhit e' h cb hcb]
        have hne : ((e'.1, (cb : Int)) : Key) ≠ (e.1, (cb : Int)) →
            mapGet m1.elements (e'.1, (cb : Int)) = mapGet m.elements (e'.1, (cb : Int)) :=
          fun hne => hmiss1 _ (fun cb' _ hcstep => hne (by
            have h1 : e'.1 = e.1 := (Prod.ext_iff.mp hcstep).1
            rw [Prod.ext_iff]
            exact ⟨h1, rfl⟩))
        have hne' : ((e'.1, (cb : Int)) : Key) ≠ (e.1, (cb : Int)) := by
          intro hcstep
          have : e'.1 = e.1 := (Prod.ext_iff.mp hcstep).1
          exact hnd.1 (this ▸ List.mem_map.mpr ⟨e', h, rfl⟩)
        rw [hne hne']
    · intro k hk
      rw [hmiss k (fun e' he' cb hcb => hk e' (List.mem_cons_of_mem _ he') cb hcb)]
      exact hmiss1 k (fun cb hcb => hk e (List.mem_cons_self _ _) cb hcb)

/-- Pointwise characterization of `multiply`'s result store: each key
holds the mathematical sum, with zero sums left absent. -/
theorem multiply_char (a b : SparseMatrix) (hA : WF a) (hB : WF b) (hd : a.cols = b.rows) :
    ∃ r, multiply a b = .ok r ∧ r.rows = a.rows ∧ r.cols = b.cols ∧
      ∀ i j, mapGet r.elements (i, j) = omitZero (dotSum a b i j) := by
  have hne : ¬ (a.cols ≠ b.rows) := by simp [hd]
  obtain ⟨m', hfold, hrows, hcols, hhit, hmiss⟩ := mul1_outer_fold a b
    (buildRowIndex a.elements) (SparseMatrix.mk a.rows b.cols [])
    (nodup_keys_buildRowIndex a.elements)
    (fun e he => by
      have hmemk : e.1 ∈ (buildRowIndex a.elements).map (·.1) :=
        List.mem_map.mpr ⟨e, he, rfl⟩
      obtain ⟨e', he', hei⟩ := (rowIndex_mem_iff a.elements e.1).mp hmemk
      obtain ⟨g1, g2, -, -, -⟩ := hA.2.2.2 e' he'
      exact ⟨hei ▸ g1, hei ▸ g2⟩)
    rfl
  refine ⟨m', ?_, hrows, hcols, ?_⟩
  · unfold multiply
    rw [if_neg hne, pure_bind]
    exact hfold
  · intro i j
    by_cases hj : 0 ≤ j ∧ j < b.cols
    · by_cases hrow : ∃ e ∈ buildRowIndex a.elements, e.1 = i
      · obtain ⟨e, he, hei⟩ := hrow
        have hlook : lookupIdx (buildRowIndex a.elements) i = some e.2 := by
          rw [← hei]
          exact lookupIdx_of_mem_nodup _ e he (nodup_keys_buildRowIndex _)
        have hcolsA : e.2 = (a.elements.filter (fun e' => e'.1.1 = i)).map (·.1.2) := by
          rw [lookupIdx_buildRowIndex] at hlook
          rcases hfm : (a.elements.filter (fun e' => e'.1.1 = i)).map (·.1.2) with _ | ⟨x, xs⟩
          · rw [hfm] at hlook
            cases hlook
          · rw [hfm] at hlook
            exact (Option.some.inj hlook).symm.trans hfm.symm
        have hjn : ((j.toNat : Int)) = j := Int.toNat_of_nonneg hj.1
        have hjr : j.toNat ∈ List.range b.cols.toNat := List.mem_range.mpr (by omega)
        have hval := hhit e he j.toNat hjr
        rw [hjn, hei] at hval
        have hS : rowColSum a b ((lookupIdx (buildColIndex b.elements) j).getD [])
            i e.2 j = dotSum a b i j := by
          rw [hcolsA]
          exact rowColSum_eq_dotSum a b hA i j
        rw [hS] at hval
        rw [hval]
        by_cases hz : dotSum a b i j = 0
        · simp [hz, omitZero, mapGet]
        · simp [hz, omitZero]
      · have huntouched := hmiss (i, j) (fun e' he' cb hcb hc =>
          hrow ⟨e', he', ((Prod.ext_iff.mp hc).1).symm⟩)
        rw [huntouched]
        have hdz : dotSum a b i j = 0 := by
          refine Finset.sum_eq_zero (fun k _ => ?_)
          have hA0 : getElement a i k = 0 := by
            refine getElement_eq_zero_of_no_entry a i k (fun e he hc => ?_)
            have hm := (rowIndex_mem_iff a.elements i).mpr ⟨e, he, (Prod.ext_iff.mp hc).1⟩
            obtain ⟨er, her, her1⟩ := List.mem_map.mp hm
            exact hrow ⟨er, her, her1⟩
          rw [hA0, zero_mul]
        simp [hdz, omitZero, mapGet]
    · have huntouched := hmiss (i, j) (fun e' he' cb hcb hc => by
        have hjc : j = (cb : Int) := (Prod.ext_iff.mp hc).2
        have hcb' := List.mem_range.mp hcb
        apply hj
        constructor
        · rw [hjc]
          positivity
        · rw [hjc]
          omega)
      rw [huntouched]
      have hdz : dotSum a b i j = 0 := by
        refine Finset.sum_eq_zero (fun k _ => ?_)
        have hB0 : getElement b k j = 0 := by
          refine getElement_eq_zero_of_no_entry b k j (fun e he hc => ?_)
          obtain ⟨-, -, g3, g4, -⟩ := hB.2.2.2 e he
          rw [hc] at g3 g4
          exact hj ⟨g3, g4⟩
        rw [hB0, mul_zero]
      simp [hdz, omitZero, mapGet]

/-- C1: `multiply` fails with the dimension-mismatch error unless
`a.cols = b.rows`; when it succeeds the result has dimensions
`a.rows × b.cols`, every coordinate holds the dot-product sum
`Σ_k A(i,k)·B(k,j)`, and a coordinate whose sum is 0 is absent from the
result store. -/
theorem C1_multiply (a b : SparseMatrix) (hA : WF a) (hB : WF b) :
    (a.cols ≠ b.rows → multiply a b = .error (mulMismatchMsg a b)) ∧
    (a.cols = b.rows → ∃ r, multiply a b = .ok r ∧ r.rows = a.rows ∧ r.cols = b.cols ∧
      (∀ i j, getElement r i j = dotSum a b i j) ∧
      (∀ i j, dotSum a b i j = 0 → mapGet r.elements (i, j) = none)) := by
  constructor
  · intro hne
    unfold multiply
    rw [if_pos hne]
    rfl
  · intro hd
    obtain ⟨r, hok, hr, hc, hchar⟩ := multiply_char a b hA hB hd
    refine ⟨r, hok, hr, hc, ?_, ?_⟩
    · intro i j
      rw [getElement, hchar i j]
      by_cases hz : dotSum a b i j = 0
      · simp [omitZero, hz]
      · simp [omitZero, hz]
    · intro i j hz
      rw [hchar i j]
      simp [omitZero, hz]

/-- Witness for C1 at concrete matrices. -/
theorem C1_witness :
    WF fixA ∧ WF fixB ∧
    ((fixA.cols ≠ fixB.rows → multiply fixA fixB = .error (mulMismatchMsg fixA fixB)) ∧
     (fixA.cols = fixB.rows → ∃ r, multiply fixA fixB = .ok r ∧ r.rows = fixA.rows ∧
       r.cols = fixB.cols ∧ (∀ i j, getElement r i j = dotSum fixA fixB i j) ∧
       (∀ i j, dotSum fixA fixB i j = 0 → mapGet r.elements (i, j) = none))) :=
  ⟨by decide, by decide, C1_multiply fixA fixB (by decide) (by decide)⟩

/-! ### Equivalence of the two multiply variants (lines 211-259 vs 607-635) -/

theorem omitZero_ne_some_zero (v : Int) : omitZero v ≠ some 0 := by
  by_cases h : v = 0 <;> simp [omitZero, h]

theorem omitZero_getD (v : Int) : (omitZero v).getD 0 = v := by
  by_cases h : v = 0 <;> simp [omitZero, h]

/-- A store that never holds a zero value looks up as `omitZero` of its
`getElement` view. -/
theorem mapGet_eq_omitZero_getElement (m : SparseMatrix) (i j : Int)
    (hI : mapGet m.elements (i, j) ≠ some 0) :
    mapGet m.elements (i, j) = omitZero (getElement m i j) := by
  rcases hg : mapGet m.elements (i, j) with _ | v
  · rw [getElement_eq_zero_of_none m i j hg]
    simp [omitZero]
  · have hvne : v ≠ 0 := fun h0 => hI (h0 ▸ hg)
    have hge : getElement m i j = v := by simp [getElement, hg]
    rw [hge]
    simp [omitZero, hvne]

theorem setElement_of_inbounds_setStep (m : SparseMatrix) (r c v : Int)
    (h : ¬(r < 0 ∨ r ≥ m.rows ∨ c < 0 ∨ c ≥ m.cols)) :
    setElement m r c v = .ok (setStep m r c v) :=
  setElement_of_inbounds m r c v h

theorem setStep_rows (m : SparseMatrix) (r c v : Int) : (setStep m r c v).rows = m.rows := rfl

theorem setStep_cols (m : SparseMatrix) (r c v : Int) : (setStep m r c v).cols = m.cols := rfl

theorem mapGet_setStep_self (m : SparseMatrix) (r c v : Int) :
    mapGet (setStep m r c v).elements (r, c) = omitZero v := by
  by_cases hv : v = 0
  · rw [setStep]
    simp only [hv, if_pos rfl]
    simp [omitZero, mapGet_mapDelete_self]
  · rw [setStep]
    simp only [if_neg hv]
    simp [omitZero, hv, mapGet_mapSet_self]

theorem mapGet_setStep_ne (m : SparseMatrix) (r c v : Int) (k : Key) (hk : k ≠ (r, c)) :
    mapGet (setStep m r c v).elements k = mapGet m.elements k := by
  by_cases hv : v = 0
  · rw [setStep]
    simp only [hv, if_pos rfl]
    exact mapGet_mapDelete_ne _ _ _ hk
  · rw [setStep]
    simp only [if_neg hv]
    exact mapGet_mapSet_ne _ _ _ _ hk

theorem setStep_no_zero (m : SparseMatrix) (r c v : Int)
    (hI : ∀ i j : Int, mapGet m.elements (i, j) ≠ some 0) :
    ∀ i j : Int, mapGet (setStep m r c v).elements (i, j) ≠ some 0 := by
  intro i j
  by_cases hk : ((i, j) : Key) = (r, c)
  · rw [hk, mapGet_setStep_self]
    exact omitZero_ne_some_zero _
  · rw [mapGet_setStep_ne _ _ _ _ _ hk]
    exact hI i j

/-- Behaviour of the per-column loop of the second variant's `multiply`
for a single entry `(r1, c1) ↦ v1` of the first operand. -/
theorem mul2_inner_fold (b : SparseMatrix) (r1 c1 v1 : Int) :
    ∀ (cbs : List Nat) (m : SparseMatrix), cbs.Nodup →
      (∀ cb ∈ cbs, (cb : Int) < m.cols) → 0 ≤ r1 → r1 < m.rows →
      (∀ i j : Int, mapGet m.elements (i, j) ≠ some 0) →
      ∃ m', (cbs.foldlM (fun result (cb : Nat) =>
          if (if getElement b c1 (cb : Int) ≠ 0 then v1 * getElement b c1 (cb : Int)
              else 0) ≠ 0 then
            setElement result r1 (cb : Int)
              (getElement result r1 (cb : Int) +
                (if getElement b c1 (cb : Int) ≠ 0 then v1 * getElement b c1 (cb : Int)
                  else 0))
          else pure result) m) = .ok m' ∧
        m'.rows = m.rows ∧ m'.cols = m.cols ∧
        (∀ i j : Int, mapGet m'.elements (i, j) ≠ some 0) ∧
        (∀ cb ∈ cbs, mapGet m'.elements (r1, (cb : Int)) =
          omitZero (getElement m r1 (cb : Int) + v1 * getElement b c1 (cb : Int))) ∧
        (∀ k : Key, (∀ cb ∈ cbs, k ≠ (r1, (cb : Int))) →
          mapGet m'.elements k = mapGet m.elements k) := by
  intro cbs
  induction cbs with
  | nil =>
    intro m _ _ _ _ hI
    exact ⟨m, rfl, rfl, rfl, hI, by simp, fun k _ => rfl⟩
  | cons cb cbs ih =>
    intro m hnd hlt h0 hlt' hI
    rw [List.nodup_cons] at hnd
    rw [List.foldlM_cons]
    by_cases hP : (if getElement b c1 (cb : Int) ≠ 0 then v1 * getElement b c1 (cb : Int)
        else 0) = 0
    · rw [if_neg (by simp [hP])]
      have hv0 : v1 * getElement b c1 (cb : Int) = 0 := by
        by_cases hb0 : getElement b c1 (cb : Int) = 0
        · rw [hb0, mul_zero]
        · rwa [if_pos hb0] at hP
      obtain ⟨m', hfold, hrows, hcols, hI', hhit, hmiss⟩ := ih m hnd.2
        (fun cb' hcb' => hlt cb' (List.mem_cons_of_mem _ hcb')) h0 hlt' hI
      refine ⟨m', by rw [pure_bind]; exact hfold, hrows, hcols, hI', ?_, ?_⟩
      · intro cb' hcb'
        rcases List.mem_cons.mp hcb' with h | h
        · subst h
          rw [hmiss _ (fun cb'' hcb'' hc => hnd.1 (by
            have hcast : (cb' : Int) = (cb'' : Int) := congrArg Prod.snd hc
            have : cb' = cb'' := by exact_mod_cast hcast
            exact this ▸ hcb''))]
          rw [hv0, add_zero]
          exact mapGet_eq_omitZero_getElement m r1 (cb' : Int) (hI r1 (cb' : Int))
        · exact hhit cb' h
      · intro k hk
        exact hmiss k (fun cb' hcb' => hk cb' (List.mem_cons_of_mem _ hcb'))
    · rw [if_pos hP]
      have hb0 : getElement b c1 (cb : Int) ≠ 0 := by
        intro h
        exact hP (by rw [if_neg (by simp [h])])
      have hPS : (if getElement b c1 (cb : Int) ≠ 0 then v1 * getElement b c1 (cb : Int)
          else 0) = v1 * getElement b c1 (cb : Int) := if_pos hb0
      rw [hPS]
      have hnb : ¬(r1 < 0 ∨ r1 ≥ m.rows ∨ (cb : Int) < 0 ∨ (cb : Int) ≥ m.cols) := by
        push_neg
        exact ⟨h0, hlt', by positivity, hlt cb (List.mem_cons_self _ _)⟩
      rw [setElement_of_inbounds_setStep m r1 (cb : Int)
        (getElement m r1 (cb : Int) + v1 * getElement b c1 (cb : Int)) hnb]
      obtain ⟨m', hfold, hrows, hcols, hI', hhit, hmiss⟩ := ih
        (setStep m r1 (cb : Int)
          (getElement m r1 (cb : Int) + v1 * getElement b c1 (cb : Int))) hnd.2
        (fun cb' hcb' => by
          rw [setStep_cols]
          exact hlt cb' (List.mem_cons_of_mem _ hcb')) h0
        (by rw [setStep_rows]; exact hlt')
        (setStep_no_zero m r1 (cb : Int) _ hI)
      refine ⟨m', hfold, by rw [hrows, setStep_rows], by rw [hcols, setStep_cols], hI', ?_, ?_⟩
      · intro cb' hcb'
        rcases List.mem_cons.mp hcb' with h | h
        · subst h
          rw [hmiss _ (fun cb'' hcb'' hc => hnd.1 (by
            have hcast : (cb' : Int) = (cb'' : Int) := congrArg Prod.snd hc
            have : cb' = cb'' := by exact_mod_cast hcast
            exact this ▸ hcb''))]
          exact mapGet_setStep_self _ _ _ _
        · rw [hhit cb' h]
          have hne : ((r1, (cb' : Int)) : Key) ≠ (r1, (cb : Int)) := by
            intro hc
            have hcast : (cb' : Int) = (cb : Int) := congrArg Prod.snd hc
            have : cb' = cb := by exact_mod_cast hcast
            exact hnd.1 (this ▸ h)
          have hgeq : getElement (setStep m r1 (cb : Int)
              (getElement m r1 (cb : Int) + v1 * getElement b c1 (cb : Int))) r1 (cb' : Int) =
              getElement m r1 (cb' : Int) := by
            rw [show getElement (setStep m r1 (cb : Int)
                (getElement m r1 (cb : Int) + v1 * getElement b c1 (cb : Int))) r1 (cb' : Int) =
              (mapGet (setStep m r1 (cb : Int)
                (getElement m r1 (cb : Int) + v1 * getElement b c1 (cb : Int))).elements
                (r1, (cb' : Int))).getD 0 from rfl]
            rw [mapGet_setStep_ne _ _ _ _ _ hne]
            rfl
          rw [hgeq]
      · intro k hk
        rw [hmiss k (fun cb' hcb' => hk cb' (List.mem_cons_of_mem _ hcb'))]
        exact mapGet_setStep_ne _ _ _ _ _ (hk cb (List.mem_cons_self _ _))

theorem partialDot_nil (b : SparseMatrix) (i j : Int) :
    partialDot b [] i j = 0 := by
  simp [partialDot]

theorem partialDot_cons (b : SparseMatrix) (e : Key × Int) (es : List (Key × Int)) (i j : Int) :
    partialDot b (e :: es) i j =
      (if e.1.1 = i then e.2 * getElement b e.1.2 j else 0) + partialDot b es i j := by
  by_cases h : e.1.1 = i
  · simp [partialDot, List.filter_cons, h]
  · simp [partialDot, List.filter_cons, h]

/-- Behaviour of the whole entry loop of the second variant's `multiply`:
the accumulator approaches the partial dot products of the processed
prefix. -/
theorem mul2_outer_fold (b : SparseMatrix) :
    ∀ (es : List (Key × Int)) (m : SparseMatrix),
      (∀ e ∈ es, 0 ≤ e.1.1 ∧ e.1.1 < m.rows) → m.cols = b.cols →
      (∀ i j : Int, mapGet m.elements (i, j) ≠ some 0) →
      ∃ m', (es.foldlM (fun result (e : Key × Int) =>
          (List.range b.cols.toNat).foldlM (fun result (cb : Nat) =>
            if (if getElement b e.1.2 (cb : Int) ≠ 0 then e.2 * getElement b e.1.2 (cb : Int)
                else 0) ≠ 0 then
              setElement result e.1.1 (cb : Int)
                (getElement result e.1.1 (cb : Int) +
                  (if getElement b e.1.2 (cb : Int) ≠ 0 then
                    e.2 * getElement b e.1.2 (cb : Int) else 0))
            else pure result) result) m) = .ok m' ∧
        m'.rows = m.rows ∧ m'.cols = m.cols ∧
        (∀ i j : Int, 0 ≤ j → j < b.cols →
          mapGet m'.elements (i, j) = omitZero (getElement m i j + partialDot b es i j)) ∧
        (∀ i j : Int, ¬(0 ≤ j ∧ j < b.cols) →
          mapGet m'.elements (i, j) = mapGet m.elements (i, j)) := by
  intro es
  induction es with
  | nil =>
    intro m _ _ hI
    refine ⟨m, rfl, rfl, rfl, ?_, fun i j _ => rfl⟩
    intro i j _ _
    rw [partialDot_nil, add_zero]
    exact mapGet_eq_omitZero_getElement m i j (hI i j)
  | cons e es ih =>
    intro m hb hc hI
    rw [List.foldlM_cons]
    obtain ⟨he0, he1⟩ := hb e (List.mem_cons_self _ _)
    obtain ⟨m1, hfold1, hrows1, hcols1, hI1, hhit1, hmiss1⟩ :=
      mul2_inner_fold b e.1.1 e.1.2 e.2 (List.range b.cols.toNat) m (List.nodup_range _)
        (fun cb hcb => by
          rw [hc]
          have := List.mem_range.mp hcb
          omega) he0 he1 hI
    obtain ⟨m', hfold, hrows, hcols, hhit, hmiss⟩ := ih m1
      (fun e' he' => by
        obtain ⟨g1, g2⟩ := hb e' (List.mem_cons_of_mem _ he')
        rw [hrows1]
        exact ⟨g1, g2⟩) (by rw [hcols1, hc]) hI1
    refine ⟨m', ?_, by rw [hrows, hrows1], by rw [hcols, hcols1], ?_, ?_⟩
    · rw [hfold1]
      exact hfold
    · intro i j hj0 hjlt
      rw [hhit i j hj0 hjlt, partialDot_cons]
      by_cases hrow : e.1.1 = i
      · have hjn : ((j.toNat : Int)) = j := Int.toNat_of_nonneg hj0
        have hjr : j.toNat ∈ List.range b.cols.toNat := List.mem_range.mpr (by omega)
        have h1 := hhit1 j.toNat hjr
        rw [hjn, hrow] at h1
        have hg1 : getElement m1 i j =
            getElement m i j + e.2 * getElement b e.1.2 j := by
          rw [show getElement m1 i j = (mapGet m1.elements (i, j)).getD 0 from rfl, h1]
          exact omitZero_getD _
        rw [if_pos hrow, hg1, add_assoc]
      · have hm1 : mapGet m1.elements (i, j) = mapGet m.elements (i, j) :=
          hmiss1 (i, j) (fun cb hcb hceq => hrow ((Prod.ext_iff.mp hceq).1.symm))
        have hg1 : getElement m1 i j = getElement m i j := by
          rw [show getElement m1 i j = (mapGet m1.elements (i, j)).getD 0 from rfl, hm1]
          rfl
        rw [if_neg hrow, hg1, zero_add]
    · intro i j hj
      rw [hmiss i j hj]
      exact hmiss1 (i, j) (fun cb hcb hceq => by
        apply hj
        have hjc : j = (cb : Int) := (Prod.ext_iff.mp hceq).2
        have := List.mem_range.mp hcb
        constructor
        · rw [hjc]
          positivity
        · rw [hjc]
          omega)

/-- Accumulating one product per entry of a well-formed first operand
computes the same mathematical dot product as summing over all columns. -/
theorem partialDot_eq_dotSum (a b : SparseMatrix) (hA : WF a) (i j : Int) :
    partialDot b a.elements i j = dotSum a b i j := by
  obtain ⟨-, -, hndA, hbA⟩ := hA
  have hmapeq : (a.elements.filter (fun e => e.1.1 = i)).map
      (fun e => e.2 * getElement b e.1.2 j) =
      ((a.elements.filter (fun e => e.1.1 = i)).map (·.1.2)).map
        (fun k => getElement a i k * getElement b k j) := by
    rw [List.map_map]
    refine List.map_congr_left (fun e he => ?_)
    have hef := List.mem_filter.mp he
    have hrow : e.1.1 = i := by simpa using hef.2
    have hge : getElement a i e.1.2 = e.2 := by
      have hmg := mapGet_of_mem_nodup a.elements e hef.1
        (show (a.elements.map (·.1)).Nodup from hndA)
      rw [show getElement a i e.1.2 = (mapGet a.elements (i, e.1.2)).getD 0 from rfl]
      rw [show ((i, e.1.2) : Key) = e.1 from by
        rw [Prod.ext_iff]
        exact ⟨hrow.symm, rfl⟩]
      rw [hmg]
      rfl
    show e.2 * getElement b e.1.2 j = getElement a i e.1.2 * getElement b e.1.2 j
    rw [hge]
  rw [partialDot, hmapeq]
  refine sum_over_cols_eq_dotSum a b i j _ (nodup_rowCols a.elements i hndA) ?_ ?_
  · intro k hk
    obtain ⟨e, he, hek⟩ := (mem_rowCols_iff a.elements i k).mp hk
    obtain ⟨-, -, h3, h4, -⟩ := hbA e he
    rw [hek] at h3 h4
    exact ⟨h3, h4⟩
  · intro k _ _ hk
    have hno : ∀ e ∈ a.elements, e.1 ≠ (i, k) := by
      intro e he hc
      exact hk ((mem_rowCols_iff a.elements i k).mpr ⟨e, he, hc⟩)
    rw [getElement_eq_zero_of_no_entry a i k hno, zero_mul]

/-- Pointwise characterization of the second variant's `multiply`: it also
stores exactly `omitZero` of the mathematical sum at every coordinate. -/
theorem multiply2_char (a b : SparseMatrix) (hA : WF a) (hB : WF b) (hd : a.cols = b.rows) :
    ∃ r, multiply2 a b = .ok r ∧ r.rows = a.rows ∧ r.cols = b.cols ∧
      ∀ i j, mapGet r.elements (i, j) = omitZero (dotSum a b i j) := by
  have hne : ¬ (a.cols ≠ b.rows) := by simp [hd]
  obtain ⟨m', hfold, hrows, hcols, hhit, hmiss⟩ := mul2_outer_fold b a.elements
    (SparseMatrix.mk a.rows b.cols [])
    (fun e he => by
      obtain ⟨g1, g2, -, -, -⟩ := hA.2.2.2 e he
      exact ⟨g1, g2⟩)
    rfl
    (fun i j => by simp [mapGet])
  refine ⟨m', ?_, hrows, hcols, ?_⟩
  · unfold multiply2
    rw [if_neg hne, pure_bind]
    exact hfold
  · intro i j
    by_cases hj : 0 ≤ j ∧ j < b.cols
    · rw [hhit i j hj.1 hj.2, partialDot_eq_dotSum a b ⟨hA.1, hA.2.1, hA.2.2.1, hA.2.2.2⟩ i j]
      rw [show getElement (SparseMatrix.mk a.rows b.cols []) i j = 0 from by
        simp [getElement, mapGet]]
      rw [zero_add]
    · rw [hmiss i j hj]
      have hdz : dotSum a b i j = 0 := by
        refine Finset.sum_eq_zero (fun k _ => ?_)
        have hB0 : getElement b k j = 0 := by
          refine getElement_eq_zero_of_no_entry b k j (fun e he hc => ?_)
          obtain ⟨-, -, g3, g4, -⟩ := hB.2.2.2 e he
          rw [hc] at g3 g4
          exact hj ⟨g3, g4⟩
        rw [hB0, mul_zero]
      simp [hdz, omitZero, mapGet]

/-- C9: on dimension-compatible well-formed operands, the first variant's
index-intersection `multiply` and the second variant's per-entry
accumulating `multiply` both succeed and produce equal result stores:
same dimensions, identical lookups at every key, and the same set of
non-zero entries. -/
theorem C9_variants_agree (a b : SparseMatrix) (hA : WF a) (hB : WF b)
    (hd : a.cols = b.rows) :
    ∃ r1 r2, multiply a b = .ok r1 ∧ multiply2 a b = .ok r2 ∧
      r1.rows = r2.rows ∧ r1.cols = r2.cols ∧
      (∀ k : Key, mapGet r1.elements k = mapGet r2.elements k) ∧
      (∀ e : Key × Int, e ∈ r1.elements ↔ e ∈ r2.elements) := by
  obtain ⟨r1, hok1, hr1, hc1, hchar1⟩ := multiply_char a b hA hB hd
  obtain ⟨r2, hok2, hr2, hc2, hchar2⟩ := multiply2_char a b hA hB hd
  have hget : ∀ k : Key, mapGet r1.elements k = mapGet r2.elements k := by
    intro k
    rcases k with ⟨i, j⟩
    rw [hchar1 i j, hchar2 i j]
  have hnd1 := (multiply_preserves a b r1 hok1).2
  have hnd2 := (multiply2_preserves a b r2 hok2).2
  refine ⟨r1, r2, hok1, hok2, by rw [hr1, hr2], by rw [hc1, hc2], hget, ?_⟩
  intro e
  constructor
  · intro he
    have h1 := mapGet_of_mem_nodup r1.elements e he
      (show (r1.elements.map (·.1)).Nodup from hnd1)
    rw [hget e.1] at h1
    have h2 := mem_of_mapGet_eq_some r2.elements e.1 e.2 h1
    simpa using h2
  · intro he
    have h1 := mapGet_of_mem_nodup r2.elements e he
      (show (r2.elements.map (·.1)).Nodup from hnd2)
    rw [← hget e.1] at h1
    have h2 := mem_of_mapGet_eq_some r1.elements e.1 e.2 h1
    simpa using h2

/-! ### The frame property of the heap-level operations (C8) -/

theorem heap_get_lt_length (hp : Heap) (n : Nat) (m : SparseMatrix)
    (hm : hp.get? n = some m) : n < hp.length :=
  (List.get?_eq_some.mp hm).choose

theorem heap_get_set_self (hp : Heap) (i : Nat) (m : SparseMatrix) (hi : i < hp.length) :
    (hp.set i m).get? i = some m := by
  rw [List.get?_eq_getElem?, List.getElem?_set_eq_of_lt m hi]

theorem heap_get_set_ne (hp : Heap) (i k : Nat) (m : SparseMatrix) (hik : i ≠ k) :
    (hp.set i m).get? k = hp.get? k := by
  rw [List.get?_eq_getElem?, List.get?_eq_getElem?, List.getElem?_set_ne hik]

theorem heap_get_concat_self (hp : Heap) (x : SparseMatrix) :
    (hp ++ [x]).get? hp.length = some x := by
  rw [List.get?_eq_getElem?]
  exact List.getElem?_concat_length hp x

theorem heap_get_concat_ne (hp : Heap) (x : SparseMatrix) (k : Nat) (hk : k ≠ hp.length) :
    (hp ++ [x]).get? k = hp.get? k := by
  rcases Nat.lt_or_ge k hp.length with hlt | hge
  · rw [List.get?_eq_getElem?, List.get?_eq_getElem?]
    exact List.getElem?_append_left hlt
  · have h1 : hp.get? k = none := List.get?_eq_none.mpr (by omega)
    have h2 : (hp ++ [x]).get? k = none := List.get?_eq_none.mpr (by
      rw [List.length_append]
      have : [x].length = 1 := rfl
      omega)
    rw [h1, h2]

theorem runWrite_pending (rid : Nat) (hp : Heap) (e : String)
    (f : SparseMatrix → Except String SparseMatrix) :
    runWrite rid (hp, some e) f = (hp, some e) := rfl

theorem runWrite_none (rid : Nat) (hp : Heap)
    (f : SparseMatrix → Except String SparseMatrix) :
    runWrite rid (hp, none) f = modifyAt hp rid f := rfl

/-- A pending exception freezes the remainder of a write loop. -/
theorem foldl_runWrite_stuck {α : Type} (rid : Nat)
    (G : Heap × Option String → α → Heap × Option String)
    (F : SparseMatrix → α → Except String SparseMatrix)
    (hG : ∀ st x, G st x = runWrite rid st (fun r => F r x)) :
    ∀ (xs : List α) (hp : Heap) (e : String),
      xs.foldl G (hp, some e) = (hp, some e) := by
  intro xs
  induction xs with
  | nil =>
    intro hp e
    rfl
  | cons x xs ih =>
    intro hp e
    rw [List.foldl_cons, hG, runWrite_pending]
    exact ih hp e

/-- A write loop at index `rid` simulates the pure fold on the store at
`rid` and leaves every other heap index untouched. -/
theorem foldl_runWrite_spec {α : Type} (rid : Nat)
    (G : Heap × Option String → α → Heap × Option String)
    (F : SparseMatrix → α → Except String SparseMatrix)
    (hG : ∀ st x, G st x = runWrite rid st (fun r => F r x)) :
    ∀ (xs : List α) (hp : Heap) (m : SparseMatrix), hp.get? rid = some m →
      ∃ h' o, xs.foldl G (hp, none) = (h', o) ∧
        h'.length = hp.length ∧
        (∀ k, k ≠ rid → h'.get? k = hp.get? k) ∧
        (match xs.foldlM F m with
         | .ok m' => o = none ∧ h'.get? rid = some m'
         | .error e => o = some e) := by
  intro xs
  induction xs with
  | nil =>
    intro hp m hm
    exact ⟨hp, none, rfl, rfl, fun k _ => rfl, ⟨rfl, hm⟩⟩
  | cons x xs ih =>
    intro hp m hm
    have hrlt : rid < hp.length := heap_get_lt_length hp rid m hm
    rw [List.foldl_cons, hG, runWrite_none]
    rcases hf : F m x with e | m1
    · have hmod : modifyAt hp rid (fun r => F r x) = (hp, some e) := by
        simp only [modifyAt, hm, hf]
      have hfm : (x :: xs).foldlM F m = .error e := by
        rw [List.foldlM_cons, hf]
        rfl
      rw [hmod, foldl_runWrite_stuck rid G F hG xs hp e]
      simp only [hfm]
      exact ⟨hp, some e, rfl, rfl, fun k _ => rfl, rfl⟩
    · have hmod : modifyAt hp rid (fun r => F r x) = (hp.set rid m1, none) := by
        simp only [modifyAt, hm, hf]
      rw [hmod]
      obtain ⟨h', o, heq, hlen, hframe, hmatch⟩ := ih (hp.set rid m1) m1
        (heap_get_set_self hp rid m1 hrlt)
      have hfm : (x :: xs).foldlM F m = xs.foldlM F m1 := by
        rw [List.foldlM_cons, hf]
        rfl
      refine ⟨h', o, heq, by rw [hlen, List.length_set], ?_, ?_⟩
      · intro k hk
        rw [hframe k hk]
        exact heap_get_set_ne hp rid k m1 (Ne.symm hk)
      · simp only [hfm]
        exact hmatch

/-- Heap-level `add`: every index other than the fresh result index is
untouched, and a successful run allocates the pure `add` result at the
fresh index. -/
theorem addH_spec (hp : Heap) (ia ib : Nat) (a b : SparseMatrix)
    (ha : hp.get? ia = some a) (hb : hp.get? ib = some b) :
    ∃ h' res, addH hp ia ib = (h', res) ∧
      (∀ k, k ≠ hp.length → h'.get? k = hp.get? k) ∧
      (∀ rid, res = .ok rid → rid = hp.length ∧
        ∃ r, add a b = .ok r ∧ h'.get? rid = some r) := by
  by_cases hdim : a.rows ≠ b.rows ∨ a.cols ≠ b.cols
  · refine ⟨hp, .error "Matrix dimensions must match for addition", ?_, fun k _ => rfl, ?_⟩
    · simp only [addH, ha, hb]
      rw [if_pos hdim]
    · intro rid hok
      exact Except.noConfusion hok
  · obtain ⟨h1, o1, heq1, hlen1, hframe1, hmatch1⟩ :=
      foldl_runWrite_spec hp.length
        (fun st e => runWrite hp.length st (fun r => setElement r e.1.1 e.1.2 e.2))
        (fun r e => setElement r e.1.1 e.1.2 e.2)
        (fun st x => rfl)
        a.elements (hp ++ [SparseMatrix.mk a.rows a.cols []])
        (SparseMatrix.mk a.rows a.cols []) (heap_get_concat_self hp _)
    rcases hcopy : a.elements.foldlM (fun r e => setElement r e.1.1 e.1.2 e.2)
        (SparseMatrix.mk a.rows a.cols []) with e | copied
    · simp only [hcopy] at hmatch1
      refine ⟨h1, .error e, ?_, ?_, ?_⟩
      · simp only [addH, ha, hb]
        rw [if_neg hdim, heq1, hmatch1,
          foldl_runWrite_stuck hp.length
            (fun st e => runWrite hp.length st
              (fun r => setElement r e.1.1 e.1.2 (getElement r e.1.1 e.1.2 + e.2)))
            (fun r e => setElement r e.1.1 e.1.2 (getElement r e.1.1 e.1.2 + e.2))
            (fun st x => rfl) b.elements h1 e]
      · intro k hk
        rw [hframe1 k hk]
        exact heap_get_concat_ne hp _ k hk
      · intro rid hok
        exact Except.noConfusion hok
    · simp only [hcopy] at hmatch1
      obtain ⟨ho1, hg1⟩ := hmatch1
      obtain ⟨h2, o2, heq2, hlen2, hframe2, hmatch2⟩ :=
        foldl_runWrite_spec hp.length
          (fun st e => runWrite hp.length st
            (fun r => setElement r e.1.1 e.1.2 (getElement r e.1.1 e.1.2 + e.2)))
          (fun r e => setElement r e.1.1 e.1.2 (getElement r e.1.1 e.1.2 + e.2))
          (fun st x => rfl)
          b.elements h1 copied hg1
      rcases haccum : b.elements.foldlM
          (fun r e => setElement r e.1.1 e.1.2 (getElement r e.1.1 e.1.2 + e.2)) copied
          with e | final
      · simp only [haccum] at hmatch2
        refine ⟨h2, .error e, ?_, ?_, ?_⟩
        · simp only [addH, ha, hb]
          rw [if_neg hdim, heq1, ho1, heq2, hmatch2]
        · intro k hk
          rw [hframe2 k hk, hframe1 k hk]
          exact heap_get_concat_ne hp _ k hk
        · intro rid hok
          exact Except.noConfusion hok
      · simp only [haccum] at hmatch2
        obtain ⟨ho2, hg2⟩ := hmatch2
        refine ⟨h2, .ok hp.length, ?_, ?_, ?_⟩
        · simp only [addH, ha, hb]
          rw [if_neg hdim, heq1, ho1, heq2, ho2]
        · intro k hk
          rw [hframe2 k hk, hframe1 k hk]
          exact heap_get_concat_ne hp _ k hk
        · intro rid hok
          have hrid : rid = hp.length := (Except.ok.inj hok).symm
          refine ⟨hrid, final, ?_, ?_⟩
          · unfold add
            rw [if_neg hdim, pure_bind, hcopy]
            exact haccum
          · rw [hrid]
            exact hg2

/-- Heap-level `subtract`: same frame behaviour as `addH`. -/
theorem subtractH_spec (hp : Heap) (ia ib : Nat) (a b : SparseMatrix)
    (ha : hp.get? ia = some a) (hb : hp.get? ib = some b) :
    ∃ h' res, subtractH hp ia ib = (h', res) ∧
      (∀ k, k ≠ hp.length → h'.get? k = hp.get? k) ∧
      (∀ rid, res = .ok rid → rid = hp.length ∧
        ∃ r, subtract a b = .ok r ∧ h'.get? rid = some r) := by
  by_cases hdim : a.rows ≠ b.rows ∨ a.cols ≠ b.cols
  · refine ⟨hp, .error "Matrix dimensions must match for subtraction", ?_, fun k _ => rfl, ?_⟩
    · simp only [subtractH, ha, hb]
      rw [if_pos hdim]
    · intro rid hok
      exact Except.noConfusion hok
  · obtain ⟨h1, o1, heq1, hlen1, hframe1, hmatch1⟩ :=
      foldl_runWrite_spec hp.length
        (fun st e => runWrite hp.length st (fun r => setElement r e.1.1 e.1.2 e.2))
        (fun r e => setElement r e.1.1 e.1.2 e.2)
        (fun st x => rfl)
        a.elements (hp ++ [SparseMatrix.mk a.rows a.cols []])
        (SparseMatrix.mk a.rows a.cols []) (heap_get_concat_self hp _)
    rcases hcopy : a.elements.foldlM (fun r e => setElement r e.1.1 e.1.2 e.2)
        (SparseMatrix.mk a.rows a.cols []) with e | copied
    · simp only [hcopy] at hmatch1
      refine ⟨h1, .error e, ?_, ?_, ?_⟩
      · simp only [subtractH, ha, hb]
        rw [if_neg hdim, heq1, hmatch1,
          foldl_runWrite_stuck hp.length
            (fun st e => runWrite hp.length st
              (fun r => setElement r e.1.1 e.1.2 (getElement r e.1.1 e.1.2 - e.2)))
            (fun r e => setElement r e.1.1 e.1.2 (getElement r e.1.1 e.1.2 - e.2))
            (fun st x => rfl) b.elements h1 e]
      · intro k hk
        rw [hframe1 k hk]
        exact heap_get_concat_ne hp _ k hk
      · intro rid hok
        exact Except.noConfusion hok
    · simp only [hcopy] at hmatch1
      obtain ⟨ho1, hg1⟩ := hmatch1
      obtain ⟨h2, o2, heq2, hlen2, hframe2, hmatch2⟩ :=
        foldl_runWrite_spec hp.length
          (fun st e => runWrite hp.length st
            (fun r => setElement r e.1.1 e.1.2 (getElement r e.1.1 e.1.2 - e.2)))
          (fun r e => setElement r e.1.1 e.1.2 (getElement r e.1.1 e.1.2 - e.2))
          (fun st x => rfl)
          b.elements h1 copied hg1
      rcases haccum : b.elements.foldlM
          (fun r e => setElement r e.1.1 e.1.2 (getElement r e.1.1 e.1.2 - e.2)) copied
          with e | final
      · simp only [haccum] at hmatch2
        refine ⟨h2, .error e, ?_, ?_, ?_⟩
        · simp only [subtractH, ha, hb]
          rw [if_neg hdim, heq1, ho1, heq2, hmatch2]
        · intro k hk
          rw [hframe2 k hk, hframe1 k hk]
          exact heap_get_concat_ne hp _ k hk
        · intro rid hok
          exact Except.noConfusion hok
      · simp only [haccum] at hmatch2
        obtain ⟨ho2, hg2⟩ := hmatch2
        refine ⟨h2, .ok hp.length, ?_, ?_, ?_⟩
        · simp only [subtractH, ha, hb]
          rw [if_neg hdim, heq1, ho1, heq2, ho2]
        · intro k hk
          rw [hframe2 k hk, hframe1 k hk]
          exact heap_get_concat_ne hp _ k hk
        · intro rid hok
          have hrid : rid = hp.length := (Except.ok.inj hok).symm
          refine ⟨hrid, final, ?_, ?_⟩
          · unfold subtract
            rw [if_neg hdim, pure_bind, hcopy]
            exact haccum
          · rw [hrid]
            exact hg2

/-- A nested fold is the fold of the flattened pair list. -/
theorem foldl_nested_flatten {α β σ : Type}
    (gout : σ → α → σ) (g : σ → α × β → σ) (ys : List β)
    (hout : ∀ s x, gout s x = ys.foldl (fun s y => g s (x, y)) s) :
    ∀ (xs : List α) (s : σ),
      xs.foldl gout s = (xs.flatMap (fun x => ys.map (fun y => (x, y)))).foldl g s := by
  intro xs
  induction xs with
  | nil =>
    intro s
    rfl
  | cons x xs ih =>
    intro s
    rw [List.foldl_cons, List.flatMap_cons, List.foldl_append, List.foldl_map, hout, ih]

/-- Monadic version of the nested-fold flattening. -/
theorem foldlM_nested_flatten {α β : Type}
    (gout : SparseMatrix → α → Except String SparseMatrix)
    (g : SparseMatrix → α × β → Except String SparseMatrix) (ys : List β)
    (hout : ∀ s x, gout s x = ys.foldlM (fun s y => g s (x, y)) s) :
    ∀ (xs : List α) (s : SparseMatrix),
      xs.foldlM gout s = (xs.flatMap (fun x => ys.map (fun y => (x, y)))).foldlM g s := by
  intro xs
  induction xs with
  | nil =>
    intro s
    rfl
  | cons x xs ih =>
    intro s
    rw [List.foldlM_cons, List.flatMap_cons, List.foldlM_append, List.foldlM_map, hout]
    exact bind_congr (fun s' => ih s')

/-- Heap-level `multiply`: frame property, and a successful run allocates
exactly the pure `multiply` result at the fresh index. -/
theorem multiplyH_spec (hp : Heap) (ia ib : Nat) (a b : SparseMatrix)
    (ha : hp.get? ia = some a) (hb : hp.get? ib = some b) :
    ∃ h' res, multiplyH hp ia ib = (h', res) ∧
      (∀ k, k ≠ hp.length → h'.get? k = hp.get? k) ∧
      (∀ rid, res = .ok rid → rid = hp.length ∧
        ∃ r, multiply a b = .ok r ∧ h'.get? rid = some r) := by
  by_cases hdim : a.cols ≠ b.rows
  · refine ⟨hp, .error (mulMismatchMsg a b), ?_, fun k _ => rfl, ?_⟩
    · simp only [multiplyH, ha, hb]
      rw [if_pos hdim]
    · intro rid hok
      exact Except.noConfusion hok
  · have hflatH : (buildRowIndex a.elements).foldl
        (fun st e => (List.range b.cols.toNat).foldl
          (fun st (cb : Nat) => runWrite hp.length st (fun result =>
            if rowColSum a b ((lookupIdx (buildColIndex b.elements) (cb : Int)).getD [])
                e.1 e.2 (cb : Int) ≠ 0 then
              setElement result e.1 (cb : Int)
                (rowColSum a b ((lookupIdx (buildColIndex b.elements) (cb : Int)).getD [])
                  e.1 e.2 (cb : Int))
            else pure result)) st)
        (hp ++ [SparseMatrix.mk a.rows b.cols []], none) =
        ((buildRowIndex a.elements).flatMap
          (fun e => (List.range b.cols.toNat).map (fun cb => (e, cb)))).foldl
          (fun st p => runWrite hp.length st (fun result =>
            if rowColSum a b ((lookupIdx (buildColIndex b.elements) (p.2 : Int)).getD [])
                p.1.1 p.1.2 (p.2 : Int) ≠ 0 then
              setElement result p.1.1 (p.2 : Int)
                (rowColSum a b ((lookupIdx (buildColIndex b.elements) (p.2 : Int)).getD [])
                  p.1.1 p.1.2 (p.2 : Int))
            else pure result))
          (hp ++ [SparseMatrix.mk a.rows b.cols []], none) := by
      apply foldl_nested_flatten
      intro s x
      rfl
    obtain ⟨h1, o1, heq1, hlen1, hframe1, hmatch1⟩ :=
      foldl_runWrite_spec hp.length
        (fun st p => runWrite hp.length st (fun result =>
          if rowColSum a b ((lookupIdx (buildColIndex b.elements) (p.2 : Int)).getD [])
              p.1.1 p.1.2 (p.2 : Int) ≠ 0 then
            setElement result p.1.1 (p.2 : Int)
              (rowColSum a b ((lookupIdx (buildColIndex b.elements) (p.2 : Int)).getD [])
                p.1.1 p.1.2 (p.2 : Int))
          else pure result))
        (fun result (p : (Int × List Int) × Nat) =>
          if rowColSum a b ((lookupIdx (buildColIndex b.elements) (p.2 : Int)).getD [])
              p.1.1 p.1.2 (p.2 : Int) ≠ 0 then
            setElement result p.1.1 (p.2 : Int)
              (rowColSum a b ((lookupIdx (buildColIndex b.elements) (p.2 : Int)).getD [])
                p.1.1 p.1.2 (p.2 : Int))
          else pure result)
        (fun st x => rfl)
        ((buildRowIndex a.elements).flatMap
          (fun e => (List.range b.cols.toNat).map (fun cb => (e, cb))))
        (hp ++ [SparseMatrix.mk a.rows b.cols []])
        (SparseMatrix.mk a.rows b.cols []) (heap_get_concat_self hp _)
    have hpureflat : (buildRowIndex a.elements).foldlM
        (fun result (e : Int × List Int) =>
          (List.range b.cols.toNat).foldlM (fun result (cb : Nat) =>
            if rowColSum a b ((lookupIdx (buildColIndex b.elements) (cb : Int)).getD [])
                e.1 e.2 (cb : Int) ≠ 0 then
              setElement result e.1 (cb : Int)
                (rowColSum a b ((lookupIdx (buildColIndex b.elements) (cb : Int)).getD [])
                  e.1 e.2 (cb : Int))
            else pure result) result)
        (SparseMatrix.mk a.rows b.cols []) =
        ((buildRowIndex a.elements).flatMap
          (fun e => (List.range b.cols.toNat).map (fun cb => (e, cb)))).foldlM
          (fun result (p : (Int × List Int) × Nat) =>
            if rowColSum a b ((lookupIdx (buildColIndex b.elements) (p.2 : Int)).getD [])
                p.1.1 p.1.2 (p.2 : Int) ≠ 0 then
              setElement result p.1.1 (p.2 : Int)
                (rowColSum a b ((lookupIdx (buildColIndex b.elements) (p.2 : Int)).getD [])
                  p.1.1 p.1.2 (p.2 : Int))
            else pure result)
          (SparseMatrix.mk a.rows b.cols []) := by
      apply foldlM_nested_flatten
      intro s x
      rfl
    rcases hflatpure : ((buildRowIndex a.elements).flatMap
        (fun e => (List.range b.cols.toNat).map (fun cb => (e, cb)))).foldlM
        (fun result (p : (Int × List Int) × Nat) =>
          if rowColSum a b ((lookupIdx (buildColIndex b.elements) (p.2 : Int)).getD [])
              p.1.1 p.1.2 (p.2 : Int) ≠ 0 then
            setElement result p.1.1 (p.2 : Int)
              (rowColSum a b ((lookupIdx (buildColIndex b.elements) (p.2 : Int)).getD [])
                p.1.1 p.1.2 (p.2 : Int))
          else pure result)
        (SparseMatrix.mk a.rows b.cols []) with e | final
    · simp only [hflatpure] at hmatch1
      refine ⟨h1, .error e, ?_, ?_, ?_⟩
      · simp only [multiplyH, ha, hb]
        rw [if_neg hdim, hflatH, heq1, hmatch1]
      · intro k hk
        rw [hframe1 k hk]
        exact heap_get_concat_ne hp _ k hk
      · intro rid hok
        exact Except.noConfusion hok
    · simp only [hflatpure] at hmatch1
      obtain ⟨ho1, hg1⟩ := hmatch1
      refine ⟨h1, .ok hp.length, ?_, ?_, ?_⟩
      · simp only [multiplyH, ha, hb]
        rw [if_neg hdim, hflatH, heq1, ho1]
      · intro k hk
        rw [hframe1 k hk]
        exact heap_get_concat_ne hp _ k hk
      · intro rid hok
        have hrid : rid = hp.length := (Except.ok.inj hok).symm
        refine ⟨hrid, final, ?_, ?_⟩
        · unfold multiply
          rw [if_neg hdim, pure_bind]
          exact hpureflat.trans hflatpure
        · rw [hrid]
          exact hg1

/-- C8: the heap-level `add`, `subtract` and `multiply` leave both
operand stores untouched — each operand's dimensions and entry map are
identical before and after the call, whether it succeeds or fails — and
a successful call returns a freshly allocated result index, distinct
from both operand indices, holding exactly the pure operation's result. -/
theorem C8_operations_pure (hp : Heap) (ia ib : Nat) (a b : SparseMatrix)
    (ha : hp.get? ia = some a) (hb : hp.get? ib = some b) :
    ((addH hp ia ib).1.get? ia = some a ∧ (addH hp ia ib).1.get? ib = some b ∧
      (∀ rid, (addH hp ia ib).2 = .ok rid → rid ≠ ia ∧ rid ≠ ib ∧
        ∃ r, add a b = .ok r ∧ (addH hp ia ib).1.get? rid = some r)) ∧
    ((subtractH hp ia ib).1.get? ia = some a ∧ (subtractH hp ia ib).1.get? ib = some b ∧
      (∀ rid, (subtractH hp ia ib).2 = .ok rid → rid ≠ ia ∧ rid ≠ ib ∧
        ∃ r, subtract a b = .ok r ∧ (subtractH hp ia ib).1.get? rid = some r)) ∧
    ((multiplyH hp ia ib).1.get? ia = some a ∧ (multiplyH hp ia ib).1.get? ib = some b ∧
      (∀ rid, (multiplyH hp ia ib).2 = .ok rid → rid ≠ ia ∧ rid ≠ ib ∧
        ∃ r, multiply a b = .ok r ∧ (multiplyH hp ia ib).1.get? rid = some r)) := by
  have hia : ia < hp.length := heap_get_lt_length hp ia a ha
  have hib : ib < hp.length := heap_get_lt_length hp ib b hb
  refine ⟨?_, ?_, ?_⟩
  · obtain ⟨h', res, heq, hframe, hok⟩ := addH_spec hp ia ib a b ha hb
    rw [heq]
    refine ⟨(hframe ia (by omega)).trans ha, (hframe ib (by omega)).trans hb, ?_⟩
    intro rid hres
    obtain ⟨hrid, r, hr, hgr⟩ := hok rid hres
    exact ⟨by omega, by omega, r, hr, hgr⟩
  · obtain ⟨h', res, heq, hframe, hok⟩ := subtractH_spec hp ia ib a b ha hb
    rw [heq]
    refine ⟨(hframe ia (by omega)).trans ha, (hframe ib (by omega)).trans hb, ?_⟩
    intro rid hres
    obtain ⟨hrid, r, hr, hgr⟩ := hok rid hres
    exact ⟨by omega, by omega, r, hr, hgr⟩
  · obtain ⟨h', res, heq, hframe, hok⟩ := multiplyH_spec hp ia ib a b ha hb
    rw [heq]
    refine ⟨(hframe ia (by omega)).trans ha, (hframe ib (by omega)).trans hb, ?_⟩
    intro rid hres
    obtain ⟨hrid, r, hr, hgr⟩ := hok rid hres
    exact ⟨by omega, by omega, r, hr, hgr⟩

/-- Witness for C8 at a concrete two-store heap. -/
theorem C8_witness :
    ([fixA, fixB].get? 0 = some fixA) ∧ ([fixA, fixB].get? 1 = some fixB) ∧
    (((addH [fixA, fixB] 0 1).1.get? 0 = some fixA ∧
        (addH [fixA, fixB] 0 1).1.get? 1 = some fixB ∧
        (∀ rid, (addH [fixA, fixB] 0 1).2 = .ok rid → rid ≠ 0 ∧ rid ≠ 1 ∧
          ∃ r, add fixA fixB = .ok r ∧ (addH [fixA, fixB] 0 1).1.get? rid = some r)) ∧
      ((subtractH [fixA, fixB] 0 1).1.get? 0 = some fixA ∧
        (subtractH [fixA, fixB] 0 1).1.get? 1 = some fixB ∧
        (∀ rid, (subtractH [fixA, fixB] 0 1).2 = .ok rid → rid ≠ 0 ∧ rid ≠ 1 ∧
          ∃ r, subtract fixA fixB = .ok r ∧
            (subtractH [fixA, fixB] 0 1).1.get? rid = some r)) ∧
      ((multiplyH [fixA, fixB] 0 1).1.get? 0 = some fixA ∧
        (multiplyH [fixA, fixB] 0 1).1.get? 1 = some fixB ∧
        (∀ rid, (multiplyH [fixA, fixB] 0 1).2 = .ok rid → rid ≠ 0 ∧ rid ≠ 1 ∧
          ∃ r, multiply fixA fixB = .ok r ∧
            (multiplyH [fixA, fixB] 0 1).1.get? rid = some r))) :=
  ⟨rfl, rfl, C8_operations_pure [fixA, fixB] 0 1 fixA fixB rfl rfl⟩

/-- Witness for C9 at concrete matrices. -/
theorem C9_witness :
    WF fixA ∧ WF fixB ∧ fixA.cols = fixB.rows ∧
    (∃ r1 r2, multiply fixA fixB = .ok r1 ∧ multiply2 fixA fixB = .ok r2 ∧
      r1.rows = r2.rows ∧ r1.cols = r2.cols ∧
      (∀ k : Key, mapGet r1.elements k = mapGet r2.elements k) ∧
      (∀ e : Key × Int, e ∈ r1.elements ↔ e ∈ r2.elements)) :=
  ⟨by decide, by decide, by decide,
    C9_variants_agree fixA fixB (by decide) (by decide) (by decide)⟩

/-! ### Parsing rendered text with the second variant's parser -/

theorem ne_comma_of_digit (c : Char) (h : isDigitChar c = true) : c ≠ ',' := by
  intro he
  subst he
  exact absurd h (by decide)

theorem ne_eq_of_digit (c : Char) (h : isDigitChar c = true) : c ≠ '=' := by
  intro he
  subst he
  exact absurd h (by decide)

theorem not_sign_of_digit (c : Char) (h : isDigitChar c = true) : c ≠ '-' ∧ c ≠ '+' :=
  ⟨fun he => by subst he; exact absurd h (by decide),
   fun he => by subst he; exact absurd h (by decide)⟩

theorem intToChars_not_ws (z : Int) : ∀ c ∈ intToChars z, isWsChar c = false := by
  intro c hc
  unfold intToChars at hc
  by_cases hz : z < 0
  · rw [if_pos hz] at hc
    rcases List.mem_cons.mp hc with h | h
    · subst h
      decide
    · exact not_ws_of_digit c (natToChars_digits _ c h)
  · rw [if_neg hz] at hc
    exact not_ws_of_digit c (natToChars_digits _ c hc)

theorem intToChars_ne_comma (z : Int) : ∀ c ∈ intToChars z, c ≠ ',' := by
  intro c hc
  unfold intToChars at hc
  by_cases hz : z < 0
  · rw [if_pos hz] at hc
    rcases List.mem_cons.mp hc with h | h
    · subst h
      decide
    · exact ne_comma_of_digit c (natToChars_digits _ c h)
  · rw [if_neg hz] at hc
    exact ne_comma_of_digit c (natToChars_digits _ c hc)

theorem splitOnComma_append_cons (xs r : List Char) (h : ∀ c ∈ xs, c ≠ ',') :
    splitOnComma (xs ++ ',' :: r) = xs :: splitOnComma r := by
  induction xs with
  | nil => simp [splitOnComma]
  | cons c cs ih =>
    have hc := h c (List.mem_cons_self _ _)
    rw [List.cons_append, splitOnComma, if_neg hc,
      ih (fun c' hc' => h c' (List.mem_cons_of_mem _ hc'))]

theorem splitOnComma_no_sep (xs : List Char) (h : ∀ c ∈ xs, c ≠ ',') :
    splitOnComma xs = [xs] := by
  induction xs with
  | nil => rfl
  | cons c cs ih =>
    have hc := h c (List.mem_cons_self _ _)
    rw [splitOnComma, if_neg hc, ih (fun c' hc' => h c' (List.mem_cons_of_mem _ hc'))]

theorem splitOnEq_append_cons (xs r : List Char) (h : ∀ c ∈ xs, c ≠ '=') :
    splitOnEq (xs ++ '=' :: r) = xs :: splitOnEq r := by
  induction xs with
  | nil => simp [splitOnEq]
  | cons c cs ih =>
    have hc := h c (List.mem_cons_self _ _)
    rw [List.cons_append, splitOnEq, if_neg hc,
      ih (fun c' hc' => h c' (List.mem_cons_of_mem _ hc'))]

theorem splitOnEq_no_sep (xs : List Char) (h : ∀ c ∈ xs, c ≠ '=') :
    splitOnEq xs = [xs] := by
  induction xs with
  | nil => rfl
  | cons c cs ih =>
    have hc := h c (List.mem_cons_self _ _)
    rw [splitOnEq, if_neg hc, ih (fun c' hc' => h c' (List.mem_cons_of_mem _ hc'))]

theorem digitsPrefixVal_digits (ds : List Char) (hne : ds ≠ [])
    (hd : ∀ c ∈ ds, isDigitChar c = true) :
    digitsPrefixVal ds = some (parseDigits ds) := by
  have htw : ds.takeWhile isDigitChar = ds := by
    have := (takeWhile_digits_append ds [] hd (fun c hc => by cases hc)).1
    simpa using this
  unfold digitsPrefixVal
  simp only [htw, isEmpty_false_of_ne_nil hne, Bool.false_eq_true, if_false]

theorem parseIntChars_natToChars (n : Nat) :
    parseIntChars (natToChars n) = some (n : Int) := by
  have hsk : skipWs (natToChars n) = natToChars n := skipWs_digits _ (natToChars_digits n)
  rcases hh : (natToChars n).head? with _ | c
  · exact absurd (List.head?_eq_none_iff.mp hh) (natToChars_ne_nil n)
  · have hmem : c ∈ natToChars n :=
      List.mem_of_mem_head? (show c ∈ (natToChars n).head? from by rw [hh]; rfl)
    have hcd : isDigitChar c = true := natToChars_digits n c hmem
    obtain ⟨hm, hp⟩ := not_sign_of_digit c hcd
    unfold parseIntChars
    rw [hsk, hh]
    rw [if_neg (by simp only [Option.some.injEq]; exact hm)]
    rw [if_neg (by simp only [Option.some.injEq]; exact hp)]
    rw [digitsPrefixVal_digits _ (natToChars_ne_nil n) (natToChars_digits n),
      parseDigits_natToChars]
    rfl

theorem parseIntChars_intToChars (v : Int) :
    parseIntChars (intToChars v) = some v := by
  by_cases hv : v < 0
  · have hi : intToChars v = '-' :: natToChars (-v).toNat := by
      unfold intToChars
      rw [if_pos hv]
    rw [hi]
    have hsk : skipWs ('-' :: natToChars (-v).toNat) = '-' :: natToChars (-v).toNat :=
      skipWs_of_head_not_ws _ _ (by decide)
    unfold parseIntChars
    rw [hsk, List.head?_cons, if_pos rfl, List.tail_cons]
    rw [digitsPrefixVal_digits _ (natToChars_ne_nil _) (natToChars_digits _),
      parseDigits_natToChars]
    show some (-(((-v).toNat : Nat) : Int)) = some v
    congr 1
    omega
  · rw [intToChars_of_nonneg v (by omega), parseIntChars_natToChars]
    congr 1
    omega

theorem filter_ws_keep (c : Char) (cs : List Char) (h : isWsChar c = false) :
    (c :: cs).filter (fun x => !isWsChar x) = c :: cs.filter (fun x => !isWsChar x) :=
  List.filter_cons_of_pos (by simp [h])

theorem filter_ws_drop (c : Char) (cs : List Char) (h : isWsChar c = true) :
    (c :: cs).filter (fun x => !isWsChar x) = cs.filter (fun x => !isWsChar x) :=
  List.filter_cons_of_neg (by simp [h])

theorem filter_ws_intToChars (z : Int) :
    (intToChars z).filter (fun x => !isWsChar x) = intToChars z :=
  List.filter_eq_self.mpr (fun c hc => by simp [intToChars_not_ws z c hc])

/-- Stripping all whitespace from a serialized entry line leaves
`(row,col,value)` with no spaces. -/
theorem stripAllWs_entryLine (r c v : Int) :
    stripAllWs (entryLine ((r, c), v)) =
      '(' :: ((intToChars r ++ (',' :: intToChars c) ++ (',' :: intToChars v)) ++ [')']) := by
  unfold stripAllWs entryLine
  dsimp only
  simp only [List.filter_append]
  rw [filter_ws_keep '(' _ (by decide), filter_ws_intToChars,
    filter_ws_keep ',' _ (by decide), filter_ws_drop ' ' _ (by decide)]
  simp only [List.filter_nil, filter_ws_intToChars, filter_ws_keep ')' [] (by decide)]
  simp [List.append_assoc]

/-- The second variant's entry step on a rendered in-bounds triple:
store the value when non-zero, otherwise do nothing at all. -/
theorem entryStep2_renderTriple (m : SparseMatrix) (t : Nat × Nat × Int)
    (hnb : ¬((t.1 : Int) < 0 ∨ (t.1 : Int) ≥ m.rows ∨ (t.2.1 : Int) < 0 ∨
      (t.2.1 : Int) ≥ m.cols)) :
    entryStep2 m (renderTriple t) =
      (if t.2.2 ≠ 0 then
        .ok { m with elements := mapSet m.elements ((t.1 : Int), (t.2.1 : Int)) t.2.2 }
      else .ok m) := by
  unfold entryStep2
  rw [show renderTriple t = entryLine (((t.1 : Int), (t.2.1 : Int)), t.2.2) from rfl]
  rw [stripAllWs_entryLine]
  have hlast : ('(' :: ((intToChars (t.1 : Int) ++ (',' :: intToChars (t.2.1 : Int)) ++
      (',' :: intToChars t.2.2)) ++ [')'])).getLast? = some ')' := by
    rw [← List.cons_append, List.getLast?_concat]
  rw [if_neg (by
    push_neg
    exact ⟨List.head?_cons, hlast⟩)]
  rw [show ('(' :: ((intToChars (t.1 : Int) ++ (',' :: intToChars (t.2.1 : Int)) ++
      (',' :: intToChars t.2.2)) ++ [')'])).drop 1 =
    (intToChars (t.1 : Int) ++ (',' :: intToChars (t.2.1 : Int)) ++
      (',' :: intToChars t.2.2)) ++ [')'] from rfl]
  rw [List.dropLast_concat]
  rw [List.append_assoc, List.cons_append]
  rw [splitOnComma_append_cons _ _ (intToChars_ne_comma _)]
  rw [splitOnComma_append_cons _ _ (intToChars_ne_comma _)]
  rw [splitOnComma_no_sep _ (intToChars_ne_comma _)]
  rw [if_neg (by simp)]
  simp only [List.getD_cons_zero, List.getD_cons_succ, parseIntChars_intToChars]
  rw [if_neg hnb]

/-- The second variant's entry loop on rendered in-bounds triples: it
succeeds, and each coordinate holds the value of its last non-zero
triple — a zero triple changes nothing, never deleting. -/
theorem parseLoop2_render (ts : List (Nat × Nat × Int)) :
    ∀ m : SparseMatrix,
      (∀ t ∈ ts, (t.1 : Int) < m.rows ∧ (t.2.1 : Int) < m.cols) →
      ∃ m', (ts.map renderTriple).foldlM entryStep2 m = .ok m' ∧
        m'.rows = m.rows ∧ m'.cols = m.cols ∧
        ∀ k, mapGet m'.elements k =
          (match lastWrite (ts.filter (fun t => t.2.2 ≠ 0)) k with
          | some v => some v
          | none => mapGet m.elements k) := by
  induction ts with
  | nil =>
    intro m _
    exact ⟨m, rfl, rfl, rfl, fun k => by simp [lastWrite]⟩
  | cons t ts ih =>
    intro m hb
    obtain ⟨h1, h2⟩ := hb t (List.mem_cons_self _ _)
    have hnb : ¬((t.1 : Int) < 0 ∨ (t.1 : Int) ≥ m.rows ∨ (t.2.1 : Int) < 0 ∨
        (t.2.1 : Int) ≥ m.cols) := by
      push_neg
      refine ⟨by positivity, h1, by positivity, h2⟩
    rw [List.map_cons, List.foldlM_cons, entryStep2_renderTriple m t hnb]
    by_cases hv : t.2.2 ≠ 0
    · rw [if_pos hv]
      obtain ⟨m', hloop, hrows, hcols, hchar⟩ := ih
        { m with elements := mapSet m.elements ((t.1 : Int), (t.2.1 : Int)) t.2.2 }
        (fun t' ht' => hb t' (List.mem_cons_of_mem _ ht'))
      refine ⟨m', hloop, hrows, hcols, fun k => ?_⟩
      rw [hchar k]
      rw [List.filter_cons_of_pos (by simp [hv])]
      have hlw : lastWrite (t :: ts.filter (fun t' => t'.2.2 ≠ 0)) k =
          (match lastWrite (ts.filter (fun t' => t'.2.2 ≠ 0)) k with
          | some v => some v
          | none => if ((t.1 : Int), (t.2.1 : Int)) = k then some t.2.2 else none) := by
        rw [show lastWrite (t :: ts.filter (fun t' => t'.2.2 ≠ 0)) k =
            (ts.filter (fun t' => t'.2.2 ≠ 0)).foldl
              (fun acc t' => if ((t'.1 : Int), (t'.2.1 : Int)) = k then some t'.2.2 else acc)
              (if ((t.1 : Int), (t.2.1 : Int)) = k then some t.2.2 else none) from rfl]
        exact lastWrite_acc k _ _
      rw [hlw]
      rcases lastWrite (ts.filter (fun t' => t'.2.2 ≠ 0)) k with _ | v
      · by_cases hk : ((t.1 : Int), (t.2.1 : Int)) = k
        · subst hk
          simp [mapGet_mapSet_self]
        · have hk' : k ≠ ((t.1 : Int), (t.2.1 : Int)) := Ne.symm hk
          simp [hk, mapGet_mapSet_ne _ _ _ _ hk']
      · rfl
    · rw [if_neg hv]
      obtain ⟨m', hloop, hrows, hcols, hchar⟩ := ih m
        (fun t' ht' => hb t' (List.mem_cons_of_mem _ ht'))
      refine ⟨m', hloop, hrows, hcols, fun k => ?_⟩
      rw [hchar k, List.filter_cons_of_neg (by simp [hv])]

theorem isPrefixOf_append_self (p rest : List Char) : p.isPrefixOf (p ++ rest) = true := by
  induction p with
  | nil => simp [List.isPrefixOf]
  | cons c cs ih => simp [List.isPrefixOf, ih]

/-- Splitting a rendered header line at `=`. -/
theorem splitOnEq_header (k0 k1 k2 k3 : Char) (n : Nat)
    (h0 : k0 ≠ '=') (h1 : k1 ≠ '=') (h2 : k2 ≠ '=') (h3 : k3 ≠ '=') :
    splitOnEq (k0 :: k1 :: k2 :: k3 :: '=' :: natToChars n) =
      [[k0, k1, k2, k3], natToChars n] := by
  rw [show k0 :: k1 :: k2 :: k3 :: '=' :: natToChars n =
    [k0, k1, k2, k3] ++ '=' :: natToChars n from rfl]
  rw [splitOnEq_append_cons _ _ (by
    intro c hc
    simp only [List.mem_cons, List.not_mem_nil, or_false] at hc
    rcases hc with h | h | h | h
    · exact h ▸ h0
    · exact h ▸ h1
    · exact h ▸ h2
    · exact h ▸ h3)]
  rw [splitOnEq_no_sep _ (fun c hc => ne_eq_of_digit c (natToChars_digits n c hc))]

/-- Reduction of the second variant's whole parser on a rendered file. -/
theorem parseChars2_renderFile (R C : Nat) (ts : List (Nat × Nat × Int)) :
    parseChars2 (renderFile R C ts) =
      (ts.map renderTriple).foldlM entryStep2 (SparseMatrix.mk (R : Int) (C : Int) []) := by
  have hflat : ts.flatMap (fun t => renderTriple t ++ ['\n']) =
      (ts.map renderTriple).flatMap (fun l => l ++ ['\n']) := by
    induction ts with
    | nil => rfl
    | cons a as ih => simp [ih]
  obtain ⟨s1, s2, s3, s4⟩ := renderTriple_shape ts
  have hpre1 : (['r', 'o', 'w', 's', '='] : List Char).isPrefixOf
      ('r' :: 'o' :: 'w' :: 's' :: '=' :: natToChars R) = true := by
    rw [show 'r' :: 'o' :: 'w' :: 's' :: '=' :: natToChars R =
      ['r', 'o', 'w', 's', '='] ++ natToChars R from rfl]
    exact isPrefixOf_append_self _ _
  have hpre2 : (['c', 'o', 'l', 's', '='] : List Char).isPrefixOf
      ('c' :: 'o' :: 'l' :: 's' :: '=' :: natToChars C) = true := by
    rw [show 'c' :: 'o' :: 'l' :: 's' :: '=' :: natToChars C =
      ['c', 'o', 'l', 's', '='] ++ natToChars C from rfl]
    exact isPrefixOf_append_self _ _
  unfold renderFile parseChars2
  rw [hflat, lines_of_render R C _ s1 s2 s3 s4]
  dsimp only
  rw [hpre1, hpre2, if_neg (by simp)]
  rw [splitOnEq_header 'r' 'o' 'w' 's' R (by decide) (by decide) (by decide) (by decide)]
  rw [splitOnEq_header 'c' 'o' 'l' 's' C (by decide) (by decide) (by decide) (by decide)]
  simp only [List.getD_cons_succ, List.getD_cons_zero, parseIntChars_natToChars]

/-- C10 counterexample: on the duplicate file `rows=1`/`cols=1` with
triples `(0, 0, 5)` then `(0, 0, 0)`, the second variant's parser
(`_loadFromFile`, lines 484-545) succeeds but keeps the earlier value 5
at (0,0): its entry loop stores only non-zero values and never deletes
(line 526), so the trailing zero triple — the last write at that
coordinate, which the claim says must leave no stored entry — does not
erase it. -/
theorem C10_counterexample :
    lastWrite [(0, 0, 5), (0, 0, 0)] ((0 : Int), (0 : Int)) = some 0 ∧
    loadFromString2 (String.mk (renderFile 1 1 [(0, 0, 5), (0, 0, 0)])) =
      .ok (SparseMatrix.mk 1 1 [((0, 0), 5)]) ∧
    mapGet (SparseMatrix.mk 1 1 [((0, 0), 5)]).elements (0, 0) = some 5 :=
  ⟨by decide, by decide, by decide⟩

/-- C10 (amended): an otherwise well-formed, in-bounds file with
duplicate (row, col) triples is accepted by both parsers.  The primary
`loadFromFile` routes every triple through `set`, so the last triple in
file order wins and a trailing zero leaves no stored entry.  The second
variant's `_loadFromFile` stores only non-zero triples and never
deletes, so a coordinate ends with the value of its last non-zero
triple, and a zero triple leaves any earlier value in place. -/
theorem C10_duplicates_parsers (R C : Nat) (ts : List (Nat × Nat × Int))
    (hb : ∀ t ∈ ts, t.1 < R ∧ t.2.1 < C)
    (hdup : ¬ (ts.map (fun t => (t.1, t.2.1))).Nodup) :
    (∃ m, loadFromString (String.mk (renderFile R C ts)) = .ok m ∧
      m.rows = R ∧ m.cols = C ∧
      ∀ k, mapGet m.elements k =
        (match lastWrite ts k with
        | some v => if v = 0 then none else some v
        | none => none)) ∧
    (∃ m2, loadFromString2 (String.mk (renderFile R C ts)) = .ok m2 ∧
      m2.rows = R ∧ m2.cols = C ∧
      ∀ k, mapGet m2.elements k = lastWrite (ts.filter (fun t => t.2.2 ≠ 0)) k) := by
  refine ⟨parseFile_dup_last_wins R C ts hb hdup, ?_⟩
  rw [show loadFromString2 (String.mk (renderFile R C ts)) =
    parseChars2 (renderFile R C ts) from rfl]
  rw [parseChars2_renderFile R C ts]
  obtain ⟨m', hloop, hrows, hcols, hchar⟩ := parseLoop2_render ts
    (SparseMatrix.mk (R : Int) (C : Int) [])
    (fun t ht => ⟨by show (t.1 : Int) < (R : Int); exact_mod_cast (hb t ht).1,
      by show (t.2.1 : Int) < (C : Int); exact_mod_cast (hb t ht).2⟩)
  refine ⟨m', hloop, hrows, hcols, fun k => ?_⟩
  rw [hchar k]
  rcases lastWrite (ts.filter (fun t => t.2.2 ≠ 0)) k with _ | v <;> rfl

/-- Witness for C10 at a concrete duplicate file whose last triple is
zero-valued, exercising both parsers' duplicate handling. -/
theorem C10_witness :
    (∀ t ∈ ([(0, 0, 5), (0, 0, 0)] : List (Nat × Nat × Int)), t.1 < 1 ∧ t.2.1 < 1) ∧
    ¬ (([(0, 0, 5), (0, 0, 0)] : List (Nat × Nat × Int)).map
      (fun t => (t.1, t.2.1))).Nodup ∧
    ((∃ m, loadFromString (String.mk (renderFile 1 1 [(0, 0, 5), (0, 0, 0)])) = .ok m ∧
      m.rows = (1 : Nat) ∧ m.cols = (1 : Nat) ∧
      ∀ k, mapGet m.elements k =
        (match lastWrite [(0, 0, 5), (0, 0, 0)] k with
        | some v => if v = 0 then none else some v
        | none => none)) ∧
    (∃ m2, loadFromString2 (String.mk (renderFile 1 1 [(0, 0, 5), (0, 0, 0)])) = .ok m2 ∧
      m2.rows = (1 : Nat) ∧ m2.cols = (1 : Nat) ∧
      ∀ k, mapGet m2.elements k =
        lastWrite (([(0, 0, 5), (0, 0, 0)] : List (Nat × Nat × Int)).filter
          (fun t => t.2.2 ≠ 0)) k)) :=
  ⟨by decide, by decide,
    C10_duplicates_parsers 1 1 [(0, 0, 5), (0, 0, 0)] (by decide) (by decide)⟩

end SpMat
